import Mathlib

/-!
Verification development for the trace-view core of this repository:
the Node Name Normalizer (`nodeNameUtils`), the Execution Graph Builder
(`buildGraphCanvasData.ts`) and the Tree Builder (`buildTraceUiData`).

Strings are modelled as `List Char` (`Str`); JavaScript regular
expressions are translated into explicit decidable parsers over `Str`;
JavaScript `Map`/`Set` objects are modelled as insertion-ordered
association lists; `Decimal` values are modelled as exact rationals.
-/

namespace TraceView

/-- JavaScript strings, modelled as lists of characters. -/
abbrev Str := List Char

/-- Shorthand turning a Lean string literal into the `Str` model. -/
def cs (s : String) : Str := s.toList

/-- JS `\d` character class: ASCII digits only. -/
def isDigitCh (c : Char) : Bool := '0' ≤ c && c ≤ '9'

/-- JS line terminators, which `.` does not match in a regex without the `s` flag. -/
def isLineTerm (c : Char) : Bool :=
  c = '\n' || c = '\r' || c = '\u2028' || c = '\u2029'

/-- Strip a literal prefix from a string, returning the remainder on success. -/
def stripPfx : Str → Str → Option Str
  | [], s => some s
  | _ :: _, [] => none
  | p :: ps, c :: rest => if p = c then stripPfx ps rest else none

/-- JS `String.prototype.split(sep)` for a one-character separator. -/
def splitCh (sep : Char) : Str → List Str
  | [] => [[]]
  | c :: rest =>
    match splitCh sep rest with
    | [] => [[]]
    | r :: rs => if c = sep then [] :: r :: rs else (c :: r) :: rs

/-- Numeric value of a digit string (`Number.parseInt(s, 10)` on an all-digit string). -/
def digitsToNat (s : Str) : Nat :=
  s.foldl (fun acc c => acc * 10 + (c.toNat - '0'.toNat)) 0

/-! ## Node Name Normalizer (source file `nodeNameUtils`, src/unnamed/part_000) -/

/-- Result of `parseParserNodeName`: turn index plus suffix segments. -/
structure ParserNodeParts where
  turn : Nat
  suffixSegments : List Str
  deriving DecidableEq, Repr

/-- The core of `parseParserNodeName`, operating on the name with any leading
`session.` already stripped. -/
def parseCore (afterSession : Str) : Option ParserNodeParts :=
  match stripPfx (cs "parser.turn_") afterSession with
  | none => none
  | some rest =>
    let turnDigits := rest.takeWhile isDigitCh
    let afterTurn := rest.dropWhile isDigitCh
    if turnDigits = [] then none
    else
      match afterTurn with
      | [] => some ⟨digitsToNat turnDigits, []⟩
      | '.' :: suffix =>
        if suffix ≠ [] && suffix.all (fun c => !isLineTerm c) then
          some ⟨digitsToNat turnDigits, (splitCh '.' suffix).filter (· ≠ [])⟩
        else none
      | _ => none

/--
`PARSER_NODE_RE = /^(?:session\.)?parser\.turn_(?<turn>\d+)(?:\.(?<suffix>.+))?$/`:
optional `session.` prefix, then `parser.turn_`, a nonempty digit run, and an
optional `.`-led nonempty suffix that contains no line terminator.
Suffix segments are obtained by `suffix.split(".").filter(Boolean)`.
-/
def parseParserNodeName (nodeName : Str) : Option ParserNodeParts :=
  parseCore ((stripPfx (cs "session.") nodeName).getD nodeName)

/-- `isParserNodeName`: the raw name matches the parser naming convention. -/
def isParserNodeName (nodeName : Str) : Bool :=
  (parseParserNodeName nodeName).isSome

/--
`isParserContainerNodeName`: true when the name parses as a parser node and the
suffix is empty or a single segment drawn from the fixed container-kind set
(including the known misspelling `strucutured_output`).
-/
def isParserContainerNodeName (nodeName : Str) : Bool :=
  match parseParserNodeName nodeName with
  | none => false
  | some parsed =>
    match parsed.suffixSegments with
    | [] => true
    | kind :: rest =>
      rest = [] &&
        (kind = cs "tool_calls" || kind = cs "tool_results" ||
         kind = cs "tool_call" || kind = cs "tool_result" ||
         kind = cs "structured_output" || kind = cs "strucutured_output")

/--
`SESSION_PARSER_NODE_RE = /^session\.parser\.(?<rest>.+)$/`: the remainder after
`session.parser.` must be nonempty and free of line terminators.
-/
def matchSessionParser (nodeName : Str) : Option Str :=
  match stripPfx (cs "session.parser.") nodeName with
  | none => none
  | some rest =>
    if rest ≠ [] && rest.all (fun c => !isLineTerm c) then some rest else none

/--
Matches `/^parser\.turn_(\d+)\.KIND\.(?<toolName>[^.]+)\.(?<index>\d+)$/` for a
given literal middle segment `kindSeg` (`tool_result`, or the `pre_`-style
variant handled by `matchToolPre`). Because `\d+` and `[^.]+` cannot contain
dots, the regex match is equivalent to a five-way dot-split of the input.
-/
def matchParserTurnTool (kindSeg : Str) (s : Str) : Option (Str × Str) :=
  match splitCh '.' s with
  | [seg0, seg1, seg2, tool, idx] =>
    if seg0 = cs "parser" &&
        (match stripPfx (cs "turn_") seg1 with
         | some d => d ≠ [] && d.all isDigitCh
         | none => false) &&
        seg2 = kindSeg && tool ≠ [] && idx ≠ [] && idx.all isDigitCh then
      some (tool, idx)
    else none
  | _ => none

/--
Matches `PARSER_TURN_TOOL_PRE_RE = /^parser\.turn_(\d+)\.pre_(?<toolName>[^.]+)\.(?<index>\d+)$/`.
The third dot-segment must start with `pre_` followed by the dot-free tool name.
-/
def matchToolPre (s : Str) : Option (Str × Str) :=
  match splitCh '.' s with
  | [seg0, seg1, seg2, idx] =>
    if seg0 = cs "parser" &&
        (match stripPfx (cs "turn_") seg1 with
         | some d => d ≠ [] && d.all isDigitCh
         | none => false) &&
        idx ≠ [] && idx.all isDigitCh then
      match stripPfx (cs "pre_") seg2 with
      | some tool => if tool ≠ [] then some (tool, idx) else none
      | none => none
    else none
  | _ => none

/--
`normalizeParserNodeNameForGraph`: strips a leading `session.` from
`session.parser.` names, then compacts the `tool_result` and `pre_` sub-patterns;
all other inputs are returned unchanged.
-/
def normalizeParserNodeNameForGraph (nodeName : Str) : Str :=
  match matchSessionParser nodeName with
  | none => nodeName
  | some rest =>
    let withoutSession := cs "parser." ++ rest
    match matchToolPre withoutSession with
    | some (tool, idx) => cs "parser.pre_" ++ tool ++ [ '.' ] ++ idx
    | none =>
      match matchParserTurnTool (cs "tool_result") withoutSession with
      | some (tool, idx) => cs "parser." ++ tool ++ [ '.' ] ++ idx
      | none => withoutSession

example :
    normalizeParserNodeNameForGraph (cs "session.parser.turn_002.tool_result.web_search.4")
      = cs "parser.web_search.4" := by decide

example :
    normalizeParserNodeNameForGraph (cs "session.parser.turn_002.tool_calls")
      = cs "parser.turn_002.tool_calls" := by decide

example :
    parseParserNodeName (cs "session.parser.turn_002.tool_result.web_search.4")
      = some ⟨2, [cs "tool_result", cs "web_search", cs "4"]⟩ := by decide

example : isParserContainerNodeName (cs "session.parser.turn_002.tool_calls") = true := by
  decide

example : isParserContainerNodeName (cs "session.parser.turn_002.tool_call.web_search.4") = false := by
  decide

/-! ## Lemmas about the string-model helpers -/

theorem stripPfx_append (p s : Str) : stripPfx p (p ++ s) = some s := by
  induction p with
  | nil => rfl
  | cons c ps ih => simp [stripPfx, ih]

theorem stripPfx_some_eq {p s r : Str} (h : stripPfx p s = some r) : s = p ++ r := by
  induction p generalizing s with
  | nil => simpa [stripPfx] using h
  | cons c ps ih =>
    cases s with
    | nil => simp [stripPfx] at h
    | cons d ds =>
      by_cases hc : c = d
      · subst hc
        simp only [stripPfx, if_pos rfl] at h
        simpa using ih h
      · simp [stripPfx, hc] at h

theorem stripPfx_eq_none {p s : Str} (h : ¬ p <+: s) : stripPfx p s = none := by
  cases hs : stripPfx p s with
  | none => rfl
  | some r => exact absurd ⟨r, (stripPfx_some_eq hs).symm⟩ h

theorem splitCh_ne_nil (sep : Char) (s : Str) : splitCh sep s ≠ [] := by
  cases s with
  | nil => simp [splitCh]
  | cons c rest =>
    unfold splitCh
    cases splitCh sep rest with
    | nil => simp
    | cons r rs =>
      by_cases h : c = sep <;> simp [h]

theorem splitCh_no_sep {sep : Char} {a : Str} (h : ∀ c ∈ a, c ≠ sep) :
    splitCh sep a = [a] := by
  induction a with
  | nil => rfl
  | cons c rest ih =>
    have hc : c ≠ sep := h c (by simp)
    have hrest : splitCh sep rest = [rest] := ih fun d hd => h d (by simp [hd])
    simp [splitCh, hrest, hc]

theorem splitCh_cons (sep c : Char) (rest : Str) :
    splitCh sep (c :: rest) =
      match splitCh sep rest with
      | [] => [[]]
      | r :: rs => if c = sep then [] :: r :: rs else (c :: r) :: rs := rfl

theorem splitCh_append {sep : Char} {a : Str} (b : Str) (h : ∀ c ∈ a, c ≠ sep) :
    splitCh sep (a ++ sep :: b) = a :: splitCh sep b := by
  induction a with
  | nil =>
    simp only [List.nil_append]
    cases hb : splitCh sep b with
    | nil => exact absurd hb (splitCh_ne_nil sep b)
    | cons r rs => rw [splitCh_cons, hb]; simp
  | cons c rest ih =>
    have hc : c ≠ sep := h c (by simp)
    have hrest := ih fun d hd => h d (by simp [hd])
    simp only [List.cons_append]
    rw [splitCh_cons, hrest]
    simp [hc]

theorem not_lineTerm_of_digit {c : Char} (h : isDigitCh c = true) : isLineTerm c = false := by
  have h1 : c ≠ '\n' := by rintro rfl; exact absurd h (by decide)
  have h2 : c ≠ '\r' := by rintro rfl; exact absurd h (by decide)
  have h3 : c ≠ '\u2028' := by rintro rfl; exact absurd h (by decide)
  have h4 : c ≠ '\u2029' := by rintro rfl; exact absurd h (by decide)
  simp [isLineTerm, h1, h2, h3, h4]

theorem all_not_lineTerm_of_digits {d : Str} (h : d.all isDigitCh = true) :
    d.all (fun c => !isLineTerm c) = true := by
  rw [List.all_eq_true] at h ⊢
  intro c hc
  simpa using not_lineTerm_of_digit (by simpa using h c hc)

theorem digit_ne_dot {c : Char} (h : isDigitCh c = true) : c ≠ '.' := by
  rintro rfl; exact absurd h (by decide)

theorem all_ne_dot_of_digits {d : Str} (h : d.all isDigitCh = true) : ∀ c ∈ d, c ≠ '.' := by
  rw [List.all_eq_true] at h
  intro c hc
  exact digit_ne_dot (by simpa using h c hc)

/-- `matchSessionParser` never fires on a string whose first character is `p`. -/
theorem matchSessionParser_cons_p (t : Str) : matchSessionParser ('p' :: t) = none := by
  unfold matchSessionParser
  rw [show cs "session.parser." = 's' :: cs "ession.parser." from by decide]
  simp [stripPfx]

/-- Branch lemma: behaviour of the normalizer when the session matcher fails. -/
theorem normalize_of_msp_none {s : Str} (h : matchSessionParser s = none) :
    normalizeParserNodeNameForGraph s = s := by
  unfold normalizeParserNodeNameForGraph
  rw [h]

/-- Branch lemma: behaviour of the normalizer when the session matcher succeeds. -/
theorem normalize_of_msp_some {s rest : Str} (h : matchSessionParser s = some rest) :
    normalizeParserNodeNameForGraph s =
      match matchToolPre (cs "parser." ++ rest) with
      | some (tool, idx) => cs "parser.pre_" ++ tool ++ [ '.' ] ++ idx
      | none =>
        match matchParserTurnTool (cs "tool_result") (cs "parser." ++ rest) with
        | some (tool, idx) => cs "parser." ++ tool ++ [ '.' ] ++ idx
        | none => cs "parser." ++ rest := by
  unfold normalizeParserNodeNameForGraph
  rw [h]

/-! ## Claim C6: idempotence of `normalizeParserNodeNameForGraph` -/

/--
**C6** — `normalizeParserNodeNameForGraph` is idempotent: applying it twice gives
the same result as applying it once, for every input string. Either the input is
returned unchanged (a fixed point), or the result starts with `parser.`, on which
the session-prefix matcher — the only rewriting entry point — cannot fire again.
-/
theorem claim_C6_normalize_idempotent (s : Str) :
    normalizeParserNodeNameForGraph (normalizeParserNodeNameForGraph s) =
      normalizeParserNodeNameForGraph s := by
  cases h : matchSessionParser s with
  | none =>
    have hs : normalizeParserNodeNameForGraph s = s := normalize_of_msp_none h
    rw [hs, hs]
  | some rest =>
    have hp : ∃ t, normalizeParserNodeNameForGraph s = 'p' :: t := by
      rw [normalize_of_msp_some h]
      cases hpre : matchToolPre (cs "parser." ++ rest) with
      | some pr =>
        obtain ⟨tool, idx⟩ := pr
        refine ⟨cs "arser.pre_" ++ tool ++ [ '.' ] ++ idx, ?_⟩
        show cs "parser.pre_" ++ tool ++ [ '.' ] ++ idx =
          'p' :: (cs "arser.pre_" ++ tool ++ [ '.' ] ++ idx)
        rw [show cs "parser.pre_" = 'p' :: cs "arser.pre_" from by decide]
        simp
      | none =>
        cases hres : matchParserTurnTool (cs "tool_result") (cs "parser." ++ rest) with
        | some pr =>
          obtain ⟨tool, idx⟩ := pr
          refine ⟨cs "arser." ++ tool ++ [ '.' ] ++ idx, ?_⟩
          show cs "parser." ++ tool ++ [ '.' ] ++ idx =
            'p' :: (cs "arser." ++ tool ++ [ '.' ] ++ idx)
          rw [show cs "parser." = 'p' :: cs "arser." from by decide]
          simp
        | none =>
          refine ⟨cs "arser." ++ rest, ?_⟩
          show cs "parser." ++ rest = 'p' :: (cs "arser." ++ rest)
          rw [show cs "parser." = 'p' :: cs "arser." from by decide]
          simp
    obtain ⟨t, ht⟩ := hp
    rw [ht]
    unfold normalizeParserNodeNameForGraph
    rw [matchSessionParser_cons_p]

/-- Pointwise properties distribute over append. -/
theorem mem_append_prop {p : Char → Prop} {a b : Str} (ha : ∀ c ∈ a, p c)
    (hb : ∀ c ∈ b, p c) : ∀ c ∈ a ++ b, p c := by
  intro c hc
  rcases List.mem_append.1 hc with h | h
  · exact ha c h
  · exact hb c h

theorem all_eq_not_lineTerm {a : Str} (h : ∀ c ∈ a, isLineTerm c = false) :
    a.all (fun c => !isLineTerm c) = true := by
  rw [List.all_eq_true]
  intro c hc
  simp [h c hc]

theorem lineTerm_false_of_digits {d : Str} (h : d.all isDigitCh = true) :
    ∀ c ∈ d, isLineTerm c = false := by
  rw [List.all_eq_true] at h
  intro c hc
  exact not_lineTerm_of_digit (by simpa using h c hc)

/-! ## Claim C4: rewriting behaviour of `normalizeParserNodeNameForGraph` -/

/--
**C4 counterexample** — the claim states that every raw name matching
`parser.turn_<n>.tool_result.<tool>.<index>` (or its `tool_call`/`pre_`
variants), with or without a leading `session.` prefix, is rewritten to the
compact display form, and that every other string is returned unchanged. The
code disagrees twice: a matching name *without* the `session.` prefix is
returned unchanged (not compacted), and a `session.`-prefixed `tool_call` name
is only stripped of its session prefix (neither compacted nor unchanged).
-/
theorem claim_C4_counterexample :
    normalizeParserNodeNameForGraph (cs "parser.turn_2.tool_result.web_search.4") =
        cs "parser.turn_2.tool_result.web_search.4" ∧
      normalizeParserNodeNameForGraph (cs "parser.turn_2.tool_result.web_search.4") ≠
        cs "parser.web_search.4" ∧
      normalizeParserNodeNameForGraph (cs "session.parser.turn_2.tool_call.web_search.4") =
        cs "parser.turn_2.tool_call.web_search.4" ∧
      normalizeParserNodeNameForGraph (cs "session.parser.turn_2.tool_call.web_search.4") ≠
        cs "parser.web_search.4" ∧
      normalizeParserNodeNameForGraph (cs "session.parser.turn_2.tool_call.web_search.4") ≠
        cs "session.parser.turn_2.tool_call.web_search.4" := by
  exact ⟨by decide, by decide, by decide, by decide, by decide⟩

/--
**C4 amended** — only `session.`-prefixed parser names are rewritten:
`session.parser.turn_<n>.tool_result.<tool>.<i>` becomes `parser.<tool>.<i>` and
`session.parser.turn_<n>.pre_<tool>.<i>` becomes `parser.pre_<tool>.<i>` (for a
nonempty digit run `<n>`, a nonempty dot-free line-terminator-free `<tool>`, and
a nonempty digit run `<i>`), while every string that does not start with
`session.parser.` is returned unchanged — in particular the `tool_call` variant
is never compacted, merely stripped of its `session.` prefix.
-/
theorem claim_C4_amended :
    (∀ turn tool idx : Str,
        turn ≠ [] → turn.all isDigitCh = true →
        tool ≠ [] → (∀ c ∈ tool, c ≠ '.') → (∀ c ∈ tool, isLineTerm c = false) →
        idx ≠ [] → idx.all isDigitCh = true →
        normalizeParserNodeNameForGraph
            (cs "session.parser.turn_" ++ turn ++ cs ".tool_result." ++ tool ++ [ '.' ] ++ idx) =
          cs "parser." ++ tool ++ [ '.' ] ++ idx ∧
        normalizeParserNodeNameForGraph
            (cs "session.parser.turn_" ++ turn ++ cs ".pre_" ++ tool ++ [ '.' ] ++ idx) =
          cs "parser.pre_" ++ tool ++ [ '.' ] ++ idx) ∧
    (∀ s : Str, ¬ cs "session.parser." <+: s → normalizeParserNodeNameForGraph s = s) := by
  constructor
  · intro turn tool idx hT hTd hN hNd hNl hI hId
    have hturnLT : ∀ c ∈ turn, isLineTerm c = false := lineTerm_false_of_digits hTd
    have hidxLT : ∀ c ∈ idx, isLineTerm c = false := lineTerm_false_of_digits hId
    have hturnDot : ∀ c ∈ cs "turn_" ++ turn, c ≠ '.' :=
      mem_append_prop (by decide) (all_ne_dot_of_digits hTd)
    have hidxDot : ∀ c ∈ idx, c ≠ '.' := all_ne_dot_of_digits hId
    constructor
    · -- the tool_result rewriting
      have hS : cs "session.parser.turn_" ++ turn ++ cs ".tool_result." ++ tool ++ [ '.' ] ++ idx
          = cs "session.parser." ++
              (cs "turn_" ++ turn ++ cs ".tool_result." ++ tool ++ [ '.' ] ++ idx) := by
        rw [show cs "session.parser.turn_" = cs "session.parser." ++ cs "turn_" from by decide]
        simp [List.append_assoc]
      have hRne : cs "turn_" ++ turn ++ cs ".tool_result." ++ tool ++ [ '.' ] ++ idx ≠ [] := by
        rw [show cs "turn_" = 't' :: cs "urn_" from by decide]
        simp
      have hRall :
          (cs "turn_" ++ turn ++ cs ".tool_result." ++ tool ++ [ '.' ] ++ idx).all
              (fun c => !isLineTerm c) = true :=
        all_eq_not_lineTerm
          (mem_append_prop
            (mem_append_prop
              (mem_append_prop
                (mem_append_prop (mem_append_prop (by decide) hturnLT) (by decide)) hNl)
              (by decide))
            hidxLT)
      have hmsp :
          matchSessionParser
              (cs "session.parser.turn_" ++ turn ++ cs ".tool_result." ++ tool ++ [ '.' ] ++ idx) =
            some (cs "turn_" ++ turn ++ cs ".tool_result." ++ tool ++ [ '.' ] ++ idx) := by
        unfold matchSessionParser
        rw [hS, stripPfx_append]
        simp [hRne, hRall]
        exact ⟨by decide, hturnLT, by decide, hNl, by decide, hidxLT⟩
      have hW : cs "parser." ++ (cs "turn_" ++ turn ++ cs ".tool_result." ++ tool ++ [ '.' ] ++ idx)
          = cs "parser" ++ '.' :: ((cs "turn_" ++ turn) ++
              '.' :: (cs "tool_result" ++ '.' :: (tool ++ '.' :: idx))) := by
        rw [show cs "parser." = cs "parser" ++ [ '.' ] from by decide,
            show cs ".tool_result." = [ '.' ] ++ cs "tool_result" ++ [ '.' ] from by decide]
        simp [List.append_assoc]
      have hsplit :
          splitCh '.' (cs "parser." ++
              (cs "turn_" ++ turn ++ cs ".tool_result." ++ tool ++ [ '.' ] ++ idx)) =
            [cs "parser", cs "turn_" ++ turn, cs "tool_result", tool, idx] := by
        rw [hW, splitCh_append _ (by decide), splitCh_append _ hturnDot,
            splitCh_append _ (by decide), splitCh_append _ hNd, splitCh_no_sep hidxDot]
      have hpre :
          matchToolPre (cs "parser." ++
              (cs "turn_" ++ turn ++ cs ".tool_result." ++ tool ++ [ '.' ] ++ idx)) = none := by
        unfold matchToolPre
        rw [hsplit]
      have hres :
          matchParserTurnTool (cs "tool_result") (cs "parser." ++
              (cs "turn_" ++ turn ++ cs ".tool_result." ++ tool ++ [ '.' ] ++ idx)) =
            some (tool, idx) := by
        unfold matchParserTurnTool
        rw [hsplit]
        simp [stripPfx_append, hT, hTd, hN, hI, hId]
      rw [normalize_of_msp_some hmsp, hpre, hres]
    · -- the pre_ rewriting
      have hS : cs "session.parser.turn_" ++ turn ++ cs ".pre_" ++ tool ++ [ '.' ] ++ idx
          = cs "session.parser." ++
              (cs "turn_" ++ turn ++ cs ".pre_" ++ tool ++ [ '.' ] ++ idx) := by
        rw [show cs "session.parser.turn_" = cs "session.parser." ++ cs "turn_" from by decide]
        simp [List.append_assoc]
      have hRne : cs "turn_" ++ turn ++ cs ".pre_" ++ tool ++ [ '.' ] ++ idx ≠ [] := by
        rw [show cs "turn_" = 't' :: cs "urn_" from by decide]
        simp
      have hRall :
          (cs "turn_" ++ turn ++ cs ".pre_" ++ tool ++ [ '.' ] ++ idx).all
              (fun c => !isLineTerm c) = true :=
        all_eq_not_lineTerm
          (mem_append_prop
            (mem_append_prop
              (mem_append_prop
                (mem_append_prop (mem_append_prop (by decide) hturnLT) (by decide)) hNl)
              (by decide))
            hidxLT)
      have hmsp :
          matchSessionParser
              (cs "session.parser.turn_" ++ turn ++ cs ".pre_" ++ tool ++ [ '.' ] ++ idx) =
            some (cs "turn_" ++ turn ++ cs ".pre_" ++ tool ++ [ '.' ] ++ idx) := by
        unfold matchSessionParser
        rw [hS, stripPfx_append]
        simp [hRne, hRall]
        exact ⟨by decide, hturnLT, by decide, hNl, by decide, hidxLT⟩
      have hpreDot : ∀ c ∈ cs "pre_" ++ tool, c ≠ '.' :=
        mem_append_prop (by decide) hNd
      have hW : cs "parser." ++ (cs "turn_" ++ turn ++ cs ".pre_" ++ tool ++ [ '.' ] ++ idx)
          = cs "parser" ++ '.' :: ((cs "turn_" ++ turn) ++
              '.' :: ((cs "pre_" ++ tool) ++ '.' :: idx)) := by
        rw [show cs "parser." = cs "parser" ++ [ '.' ] from by decide,
            show cs ".pre_" = [ '.' ] ++ cs "pre_" from by decide]
        simp [List.append_assoc]
      have hsplit :
          splitCh '.' (cs "parser." ++
              (cs "turn_" ++ turn ++ cs ".pre_" ++ tool ++ [ '.' ] ++ idx)) =
            [cs "parser", cs "turn_" ++ turn, cs "pre_" ++ tool, idx] := by
        rw [hW, splitCh_append _ (by decide), splitCh_append _ hturnDot,
            splitCh_append _ hpreDot, splitCh_no_sep hidxDot]
      have hpre :
          matchToolPre (cs "parser." ++
              (cs "turn_" ++ turn ++ cs ".pre_" ++ tool ++ [ '.' ] ++ idx)) =
            some (tool, idx) := by
        unfold matchToolPre
        rw [hsplit]
        simp [stripPfx_append, hT, hTd, hN, hI, hId]
      rw [normalize_of_msp_some hmsp, hpre]
  · intro s hnp
    exact normalize_of_msp_none (by unfold matchSessionParser; rw [stripPfx_eq_none hnp])

/--
**C4 witness** — the amended theorem instantiated at concrete inputs.
-/
theorem claim_C4_amended_witness :
    normalizeParserNodeNameForGraph (cs "session.parser.turn_7.tool_result.grep.12") =
        cs "parser.grep.12" ∧
      normalizeParserNodeNameForGraph (cs "session.parser.turn_7.pre_grep.12") =
        cs "parser.pre_grep.12" ∧
      normalizeParserNodeNameForGraph (cs "plain.node") = cs "plain.node" := by
  have h := claim_C4_amended
  have h1 := h.1 (cs "7") (cs "grep") (cs "12") (by decide) (by decide) (by decide)
    (by decide) (by decide) (by decide) (by decide)
  refine ⟨?_, ?_, ?_⟩
  · have := h1.1
    rwa [show cs "session.parser.turn_" ++ cs "7" ++ cs ".tool_result." ++ cs "grep" ++
        [ '.' ] ++ cs "12" = cs "session.parser.turn_7.tool_result.grep.12" from by decide,
      show cs "parser." ++ cs "grep" ++ [ '.' ] ++ cs "12" = cs "parser.grep.12" from by decide]
      at this
  · have := h1.2
    rwa [show cs "session.parser.turn_" ++ cs "7" ++ cs ".pre_" ++ cs "grep" ++
        [ '.' ] ++ cs "12" = cs "session.parser.turn_7.pre_grep.12" from by decide,
      show cs "parser.pre_" ++ cs "grep" ++ [ '.' ] ++ cs "12" = cs "parser.pre_grep.12" from by
        decide] at this
  · exact h.2 (cs "plain.node") (by decide)

/-! ## Execution Graph Builder (source file `buildGraphCanvasData.ts`)

JavaScript `Map`s are modelled as insertion-ordered association lists
(`aget`/`aset`/`adel`/`ahas`), JS `Set`s as insertion-ordered duplicate-free
lists (`sadd`), and the stable JS `Array.prototype.sort` as insertion sort
(for a consistent comparator a stable sort is uniquely determined, and
insertion sort is stable).
-/

def aget [DecidableEq κ] : List (κ × ν) → κ → Option ν
  | [], _ => none
  | (k', v) :: rest, k => if k' = k then some v else aget rest k

def aset [DecidableEq κ] : List (κ × ν) → κ → ν → List (κ × ν)
  | [], k, v => [(k, v)]
  | (k', v') :: rest, k, v =>
    if k' = k then (k, v) :: rest else (k', v') :: aset rest k v

def adel [DecidableEq κ] (m : List (κ × ν)) (k : κ) : List (κ × ν) :=
  m.filter (fun e => e.1 ≠ k)

def ahas [DecidableEq κ] (m : List (κ × ν)) (k : κ) : Bool :=
  (aget m k).isSome

def akeys (m : List (κ × ν)) : List κ := m.map Prod.fst

def sadd [DecidableEq α] (s : List α) (a : α) : List α :=
  if a ∈ s then s else s ++ [a]

/-- `new Set(list)`: deduplicate keeping first occurrences. -/
def dedupKeepFirst [DecidableEq α] (l : List α) : List α :=
  l.foldl sadd []

/-- Stable JS `Array.prototype.sort` under the boolean comparator `le`. -/
def jsSortBy (le : α → α → Bool) (l : List α) : List α :=
  List.insertionSort (fun a b => le a b = true) l

/-- `s.startsWith(p)`. -/
def startsWith (p s : Str) : Bool := (stripPfx p s).isSome

/-- `s.includes(sub)`. -/
def containsSub (sub : Str) : Str → Bool
  | [] => startsWith sub []
  | c :: rest => startsWith sub (c :: rest) || containsSub sub rest

/-- Decimal rendering of a natural number (string interpolation `${n}`). -/
def natDigitsAux : Nat → Nat → Str → Str
  | 0, _, acc => acc
  | fuel + 1, n, acc =>
    let d := Char.ofNat ('0'.toNat + n % 10)
    if n < 10 then d :: acc else natDigitsAux fuel (n / 10) (d :: acc)

def natToDigits (n : Nat) : Str := natDigitsAux (n + 1) n []

example : natToDigits 1 = cs "1" := by decide
example : natToDigits 42 = cs "42" := by decide

/-- Lexicographic string comparison (model of `String.prototype.localeCompare`
returning a non-positive value). -/
def strLe : Str → Str → Bool
  | [], _ => true
  | _ :: _, [] => false
  | a :: as, b :: bs => if a < b then true else if b < a then false else strLe as bs

/--
One record of `AgentGraphDataResponse` as consumed by `buildGraphFromStepData`;
`startTime`/`endTime` are modelled directly as epoch milliseconds
(`new Date(x).getTime()`).
-/
structure AgentObs where
  id : Str
  name : Str
  node : Option Str
  step : Option Int
  parentObservationId : Option Str
  startTime : Int
  endTime : Option Int
  observationType : Str
  level : Option Str
  statusMessage : Option Str
  deriving DecidableEq, Repr

/--
Modelled from the spec: the synthetic node-name constants live in
`trace-graph-view/types.ts`, which is not under `src/`; the client tests pin
the synthetic start and end identities to `__start__` and `__end__`, and the
LangGraph constants use the same conventional spellings.
-/
def LANGFUSE_START_NODE_NAME : Str := cs "__start__"

def LANGFUSE_END_NODE_NAME : Str := cs "__end__"

/-- Graph node produced by `buildGraphFromStepData`. -/
structure GraphNodeData where
  id : Str
  label : Str
  nodeType : Str
  title : Option Str
  level : Option Str
  deriving DecidableEq, Repr

/-- Graph edge; `efrom`/`eto` model the `from`/`to` fields. -/
structure GraphEdge where
  efrom : Str
  eto : Str
  deriving DecidableEq, Repr

structure GraphParseResult where
  nodes : List GraphNodeData
  edges : List GraphEdge
  nodeToObservationsMap : List (Str × List Str)
  deriving DecidableEq, Repr

/-- Comparator of the failure-observation sort: start time, then id. -/
def failureLe (a b : AgentObs) : Bool :=
  if a.startTime = b.startTime then strLe a.id b.id else decide (a.startTime < b.startTime)

/-- Stable numbering of `session.failure` observations (`session.failure.<k>`). -/
def failureNameMap (data : List AgentObs) : List (Str × Str) :=
  let failureObservations :=
    jsSortBy failureLe (data.filter (fun o => o.name = cs "session.failure"))
  failureObservations.enum.foldl
    (fun m p => aset m p.2.id (cs "session.failure." ++ natToDigits (p.1 + 1))) []

/-- `getEffectiveRawNodeName`: failure override, else the raw `node` label. -/
def getEffectiveRawNodeName (fmap : List (Str × Str)) (obs : AgentObs) : Option Str :=
  match aget fmap obs.id with
  | some n => some n
  | none => obs.node

/-- Is the label one of the synthetic system node names? -/
def isSystemNodeName (node : Str) : Bool :=
  node = LANGFUSE_START_NODE_NAME || node = LANGFUSE_END_NODE_NAME

/-- One record's contribution to `stepToNodesMap`. -/
def bucketStepMapUpd (m : List (Int × List Str)) (step? : Option Int)
    (node? : Option Str) : List (Int × List Str) :=
  match step?, node? with
  | some step, some n =>
    match aget m step with
    | none => aset m step (sadd [] n)
    | some s => aset m step (sadd s n)
  | _, _ => m

/-- One record's contribution to the raw `nodeToObservationsMap`. -/
def bucketNodeMapUpd (m : List (Str × List Str)) (node? : Option Str) (oid : Str) :
    List (Str × List Str) :=
  match node? with
  | some n =>
    if isSystemNodeName n then m
    else
      match aget m n with
      | none => aset m n [oid]
      | some l => aset m n (l ++ [oid])
  | none => m

/-- One iteration of the bucketing pass. -/
def bucketStep (fmap : List (Str × Str))
    (acc : List (Int × List Str) × List (Str × List Str)) (obs : AgentObs) :
    List (Int × List Str) × List (Str × List Str) :=
  let node := getEffectiveRawNodeName fmap obs
  (bucketStepMapUpd acc.1 obs.step node, bucketNodeMapUpd acc.2 node obs.id)

/-- First bucketing pass: `stepToNodesMap` and (raw) `nodeToObservationsMap`. -/
def bucketize (fmap : List (Str × Str)) (data : List AgentObs) :
    List (Int × List Str) × List (Str × List Str) :=
  data.foldl (bucketStep fmap) ([], [])

/-- One step-bucketed label's contribution to `parserNodesByTurn` inside
`getRedundantParserNodes`. -/
def grpStep (acc : List (Nat × List (Str × Str × Bool))) (nodeName : Str) :
    List (Nat × List (Str × Str × Bool)) :=
  match parseParserNodeName nodeName with
  | none => acc
  | some parsed =>
    let info := (nodeName, List.intercalate [ '.' ] parsed.suffixSegments,
      decide (parsed.suffixSegments ≠ []))
    match aget acc parsed.turn with
    | none => aset acc parsed.turn [info]
    | some l => aset acc parsed.turn (l ++ [info])

/-- The `parserNodesByTurn` grouping pass of `getRedundantParserNodes`. -/
def grpFold (stepMap : List (Int × List Str)) : List (Nat × List (Str × Str × Bool)) :=
  stepMap.foldl (fun acc entry => entry.2.foldl grpStep acc) []

/-- One grouped parser-node record's contribution to the pruned set; note the
container-kind set here deliberately excludes `structured_output` (unlike
`isParserContainerNodeName`). -/
def prunedStep (pruned : List Str) (info : Str × Str × Bool) : List Str :=
  let isContainerNode :=
    !info.2.2 || info.2.1 = cs "tool_calls" || info.2.1 = cs "tool_results" ||
      info.2.1 = cs "tool_call" || info.2.1 = cs "tool_result"
  if isContainerNode then sadd pruned info.1 else pruned

/--
`getRedundantParserNodes`: parser-named labels in the step buckets whose suffix
is empty or a single container kind; note this set deliberately excludes
`structured_output` (unlike `isParserContainerNodeName`).
-/
def getRedundantParserNodes (stepMap : List (Int × List Str)) : List Str :=
  (grpFold stepMap).foldl (fun pruned entry => entry.2.foldl prunedStep pruned) []

/-- Remove pruned labels from the step buckets, dropping now-empty buckets. -/
def pruneStepMap (pruned : List Str) (stepMap : List (Int × List Str)) :
    List (Int × List Str) :=
  if pruned = [] then stepMap
  else
    stepMap.foldl
      (fun m entry =>
        let remaining := entry.2.filter (fun n => ¬ n ∈ pruned)
        if remaining = [] then adel m entry.1 else aset m entry.1 remaining)
      stepMap

/-- Remove pruned labels from the raw node-to-observations map. -/
def pruneNodeMap (pruned : List Str) (nodeMap : List (Str × List Str)) :
    List (Str × List Str) :=
  if pruned = [] then nodeMap else pruned.foldl (fun m n => adel m n) nodeMap

/-- Normalization pass over the step buckets: earliest step per normalized name. -/
def normalizedMinStep (stepMap : List (Int × List Str)) : List (Str × Int) :=
  stepMap.foldl
    (fun acc entry =>
      entry.2.foldl
        (fun acc raw =>
          let norm := normalizeParserNodeNameForGraph raw
          match aget acc norm with
          | none => aset acc norm entry.1
          | some existing => if entry.1 < existing then aset acc norm entry.1 else acc)
        acc)
    []

/-- Regroup normalized names by their earliest step. -/
def normalizedStepToNodes (minStep : List (Str × Int)) : List (Int × List Str) :=
  minStep.foldl
    (fun m e =>
      match aget m e.2 with
      | none => aset m e.2 (sadd [] e.1)
      | some s => aset m e.2 (sadd s e.1))
    []

/-- Merge observation-id lists of raw labels that normalize to the same name. -/
def normalizedObsMap (nodeMap : List (Str × List Str)) : List (Str × List Str) :=
  nodeMap.foldl
    (fun acc e =>
      let norm := normalizeParserNodeNameForGraph e.1
      match aget acc norm with
      | some existing => aset acc norm (existing ++ e.2)
      | none => aset acc norm e.2)
    []

/-- `severityRank` for level sorting. -/
def severityRank (level : Option Str) : Int :=
  if level = some (cs "ERROR") then 3
  else if level = some (cs "WARNING") then 2
  else if level = some (cs "DEFAULT") then 1
  else if level = some (cs "DEBUG") then 0
  else -1

/-- Build the graph node for one (normalized) node name. -/
def mkGraphNode (dataById : List (Str × AgentObs)) (normODM : List (Str × List Str))
    (nodeName : Str) : GraphNodeData :=
  if nodeName = LANGFUSE_END_NODE_NAME || nodeName = LANGFUSE_START_NODE_NAME then
    { id := nodeName, label := nodeName, nodeType := cs "LANGGRAPH_SYSTEM",
      title := none, level := none }
  else
    let isParserNode := startsWith (cs "parser.") nodeName
    let obsIds := (aget normODM nodeName).getD []
    let observations := obsIds.filterMap (aget dataById)
    let obs := observations.head?
    let nodeLevel :=
      (jsSortBy (fun a b => severityRank b ≤ severityRank a)
        (observations.map (fun o => o.level))).head?.join
    let firstErrorStatus :=
      match (observations.find? (fun o => o.level = some (cs "ERROR"))).bind
          (fun o => o.statusMessage) with
      | some m => some m
      | none =>
        (observations.find? (fun o => o.level = some (cs "WARNING"))).bind
          (fun o => o.statusMessage)
    { id := nodeName, label := nodeName,
      nodeType :=
        if isParserNode then cs "PARSER"
        else
          match obs with
          | none => cs "UNKNOWN"
          | some o => if o.observationType = [] then cs "UNKNOWN" else o.observationType,
      title := firstErrorStatus,
      level := nodeLevel }

/-- One entry of the chronologically sorted working list `obsChrono`. -/
structure ChronoObs where
  name : Str
  normalizedNodeName : Str
  startMs : Int
  endMs : Option Int
  deriving DecidableEq, Repr

/-- `obsChrono`: stepped, unpruned, truthy-labelled records sorted by start time. -/
def obsChrono (fmap : List (Str × Str)) (pruned : List Str) (data : List AgentObs) :
    List ChronoObs :=
  jsSortBy (fun a b => a.startMs ≤ b.startMs)
    (data.filterMap (fun o =>
      match o.step, getEffectiveRawNodeName fmap o with
      | some _, some raw =>
        if raw = [] then none
        else if raw ∈ pruned then none
        else some { name := o.name,
                    normalizedNodeName := normalizeParserNodeNameForGraph raw,
                    startMs := o.startTime, endMs := o.endTime }
      | _, _ => none))

/-- `SESSION_TURN_NODE_RE = /^session\.turn\.(?<turn>\d+)$/` (test only). -/
def isSessionTurnName (s : Str) : Bool :=
  match stripPfx (cs "session.turn.") s with
  | some d => d ≠ [] && d.all isDigitCh
  | none => false

/-- A detected `session.turn.<n>` marker. -/
structure TurnInfo where
  nodeName : Str
  start : Int
  endMs : Option Int
  deriving DecidableEq, Repr

/-- Turn markers among the chronological list, sorted by start time. -/
def sessionTurnsOf (chrono : List ChronoObs) : List TurnInfo :=
  jsSortBy (fun a b => a.start ≤ b.start)
    (chrono.filterMap (fun o =>
      if isSessionTurnName o.normalizedNodeName then
        some { nodeName := o.normalizedNodeName, start := o.startMs, endMs := o.endMs }
      else none))

/-- `sessionTurnEndBounds[i]`: the next turn's start, `none` meaning `+∞`. -/
def turnEndBound (turns : List TurnInfo) (i : Nat) : Option Int :=
  (turns.get? (i + 1)).map (fun t => t.start)

/-- `x < bound` where `none` plays `Number.POSITIVE_INFINITY`. -/
def ltBound (x : Int) (b : Option Int) : Bool :=
  match b with
  | none => true
  | some v => decide (x < v)

/-- The `while` loop advancing `activeTurnIndex` past ended turn windows. -/
def advanceTurnIdx (turns : List TurnInfo) (startMs : Int) : Nat → Nat → Nat
  | 0, idx => idx
  | fuel + 1, idx =>
    if idx < turns.length && !ltBound startMs (turnEndBound turns idx) then
      advanceTurnIdx turns startMs fuel (idx + 1)
    else idx

/-- `TOOL_RESULT_UI_NODE_RE = /^parser\.(?<toolName>[^.]+)\.(?<index>\d+)$/`. -/
def matchToolResultUi (s : Str) : Option (Str × Str) :=
  match splitCh '.' s with
  | [seg0, tool, idx] =>
    if seg0 = cs "parser" && tool ≠ [] && idx ≠ [] && idx.all isDigitCh then
      some (tool, idx)
    else none
  | _ => none

/-- `STRUCTURED_OUTPUT_UI_NODE_RE = /^parser\.turn_\d+\.structured_output$/`. -/
def isStructuredOutputUi (s : Str) : Bool :=
  match splitCh '.' s with
  | [seg0, seg1, seg2] =>
    seg0 = cs "parser" &&
      (match stripPfx (cs "turn_") seg1 with
       | some d => d ≠ [] && d.all isDigitCh
       | none => false) &&
      seg2 = cs "structured_output"
  | _ => false

/-- State of the forced-parent scan. -/
structure ForcedScanState where
  forced : List (Str × Str)
  latestKernelNodeName : Option Str
  activeTurnIndex : Nat

/-- Forced-parent rule: group non-parser nodes under the active session turn. -/
def forcedRule1 (nodeExists : Str → Bool) (forced : List (Str × Str)) (o : ChronoObs)
    (activeTurn : Option TurnInfo) (bound : Option Int) : List (Str × Str) :=
  match activeTurn with
  | some t =>
    if o.normalizedNodeName ≠ t.nodeName &&
        !startsWith (cs "parser.") o.normalizedNodeName &&
        decide (t.start ≤ o.startMs) && ltBound o.startMs bound &&
        nodeExists t.nodeName && nodeExists o.normalizedNodeName &&
        !ahas forced o.normalizedNodeName then
      aset forced o.normalizedNodeName t.nodeName
    else forced
  | none => forced

/-- Forced-parent rule: attach parser tool-result nodes under `<tool>.<n>`. -/
def forcedRule2 (nodeExists : Str → Bool) (forced : List (Str × Str)) (o : ChronoObs) :
    List (Str × Str) :=
  match matchToolResultUi o.normalizedNodeName with
  | some (tool, idxs) =>
    let targetParentName := tool ++ '.' :: idxs
    if nodeExists o.normalizedNodeName && nodeExists targetParentName then
      aset forced o.normalizedNodeName targetParentName
    else forced
  | none => forced

/-- Kernel-node tracking of the forced-parent scan. -/
def forcedKernelUpd (nodeExists : Str → Bool) (latest : Option Str) (o : ChronoObs) :
    Option Str :=
  if containsSub (cs " - kernel.") o.name && nodeExists o.normalizedNodeName then
    some o.normalizedNodeName
  else latest

/-- Forced-parent rule: attach structured-output nodes under the latest kernel. -/
def forcedRule4 (nodeExists : Str → Bool) (forced : List (Str × Str)) (o : ChronoObs)
    (latest : Option Str) : List (Str × Str) :=
  if isStructuredOutputUi o.normalizedNodeName then
    match latest with
    | some k =>
      if nodeExists o.normalizedNodeName && nodeExists k then
        aset forced o.normalizedNodeName k
      else forced
    | none => forced
  else forced

/-- One iteration of the forced-parent scan over `obsChrono`. -/
def forcedParentStep (turns : List TurnInfo) (nodeExists : Str → Bool)
    (st : ForcedScanState) (o : ChronoObs) : ForcedScanState :=
  let idx := advanceTurnIdx turns o.startMs turns.length st.activeTurnIndex
  let latestKernel1 := forcedKernelUpd nodeExists st.latestKernelNodeName o
  { forced :=
      forcedRule4 nodeExists
        (forcedRule2 nodeExists
          (forcedRule1 nodeExists st.forced o (turns.get? idx) (turnEndBound turns idx)) o)
        o latestKernel1,
    latestKernelNodeName := latestKernel1, activeTurnIndex := idx }

/-- The full forced-parent scan. -/
def forcedParents (turns : List TurnInfo) (nodeExists : Str → Bool)
    (chrono : List ChronoObs) : List (Str × Str) :=
  (chrono.foldl (forcedParentStep turns nodeExists)
    { forced := [], latestKernelNodeName := none, activeTurnIndex := 0 }).forced

/-- The `addEdge` guard and the `from→to` key encoding. -/
def addEdge (edges : List Str) (f t : Str) : List Str :=
  if f = [] || t = [] || f = t then edges
  else if t = LANGFUSE_START_NODE_NAME then edges
  else if f = LANGFUSE_END_NODE_NAME then edges
  else if startsWith (cs "parser.") f then edges
  else sadd edges (f ++ '→' :: t)

/-- First-occurrence start time per normalized node name. -/
def nodeFirstStartOf (chrono : List ChronoObs) : List (Str × Int) :=
  chrono.foldl
    (fun m o =>
      match aget m o.normalizedNodeName with
      | none => aset m o.normalizedNodeName o.startMs
      | some e => if o.startMs < e then aset m o.normalizedNodeName o.startMs else m)
    []

/-- `findTurnForNode`: the turn whose window contains the node's first start. -/
def findTurnForNode (turns : List TurnInfo) (nfs : List (Str × Int)) (nodeName : Str) :
    Option Str :=
  match aget nfs nodeName with
  | none => none
  | some ts =>
    (turns.enum.find? (fun p =>
      decide (p.2.start ≤ ts) && ltBound ts (turnEndBound turns p.1))).map
      (fun p => p.2.nodeName)

/-- State of the per-turn chain scan (turn path). -/
structure TurnScanState where
  byTurn : List (Str × List (Str × Int))
  latestKernelByTurn : List (Str × Str)
  activeIdx : Nat

/-- Kernel-node tracking of the per-turn scan. -/
def turnScanKernelUpd (st : TurnScanState) (o : ChronoObs) (t : TurnInfo) :
    List (Str × Str) :=
  if containsSub (cs " - kernel.") o.name then
    aset st.latestKernelByTurn t.nodeName o.normalizedNodeName
  else st.latestKernelByTurn

/-- Main-chain candidate recording of the per-turn scan. -/
def turnScanByTurnUpd (nodeExists : Str → Bool) (st : TurnScanState) (o : ChronoObs)
    (t : TurnInfo) : List (Str × List (Str × Int)) :=
  if !startsWith (cs "parser.") o.normalizedNodeName &&
      nodeExists o.normalizedNodeName then
    match aget st.byTurn t.nodeName with
    | some m =>
      if !ahas m o.normalizedNodeName then
        aset st.byTurn t.nodeName (aset m o.normalizedNodeName o.startMs)
      else st.byTurn
    | none => st.byTurn
  else st.byTurn

/-- Body of one per-turn scan iteration, after the turn index has advanced. -/
def turnScanGo (turns : List TurnInfo) (nodeExists : Str → Bool)
    (st : TurnScanState) (o : ChronoObs) (idx : Nat) : TurnScanState :=
  match turns.get? idx with
  | none => { st with activeIdx := idx }
  | some t =>
    if !decide (t.start ≤ o.startMs) || !ltBound o.startMs (turnEndBound turns idx) then
      { st with activeIdx := idx }
    else
      { byTurn := turnScanByTurnUpd nodeExists st o t,
        latestKernelByTurn := turnScanKernelUpd st o t,
        activeIdx := idx }

/-- One iteration of the per-turn chain scan over `obsChrono`. -/
def turnScanStep (turns : List TurnInfo) (nodeExists : Str → Bool)
    (st : TurnScanState) (o : ChronoObs) : TurnScanState :=
  turnScanGo turns nodeExists st o
    (advanceTurnIdx turns o.startMs turns.length st.activeIdx)

/-- One step of the chain assembly: append this turn's ordered chain. -/
def turnChainStep (byTurn : List (Str × List (Str × Int)))
    (chains : List (Str × List Str)) (turn : TurnInfo) : List (Str × List Str) :=
  match aget byTurn turn.nodeName with
  | none => chains
  | some m =>
    let chain := (jsSortBy (fun a b => a.2 ≤ b.2) m).map Prod.fst
    if turn.nodeName ∈ chain then
      chains ++ [(turn.nodeName, turn.nodeName :: chain.filter (fun n => n ≠ turn.nodeName))]
    else chains ++ [(turn.nodeName, chain)]

/-- Per-turn main chains, turn marker first when present. -/
def turnChainsOf (turns : List TurnInfo) (byTurn : List (Str × List (Str × Int))) :
    List (Str × List Str) :=
  turns.foldl (turnChainStep byTurn) []

/-- Parser leaf attachment for one normalized node name (turn path). -/
def parserAttachEdge (turns : List TurnInfo) (lkByTurn : List (Str × Str))
    (nfs : List (Str × Int)) (nodeExists : Str → Bool) (es : List Str)
    (nodeName : Str) : List Str :=
  if !startsWith (cs "parser.") nodeName then es
  else
    match matchToolResultUi nodeName with
    | some (tool, idxs) =>
      let parent := tool ++ '.' :: idxs
      if nodeExists parent then addEdge es parent nodeName else es
    | none =>
      match matchParserTurnTool (cs "tool_call") nodeName with
      | some (tool, idxs) =>
        let parent := tool ++ '.' :: idxs
        if nodeExists parent then addEdge es parent nodeName else es
      | none =>
        if isStructuredOutputUi nodeName then
          match (findTurnForNode turns nfs nodeName).bind (fun tn => aget lkByTurn tn) with
          | some k => if k ≠ [] && nodeExists k then addEdge es k nodeName else es
          | none => es
        else es

/-- Initial `byTurnNodeName` map: each turn mapped to its own singleton entry. -/
def byTurn0Of (turns : List TurnInfo) : List (Str × List (Str × Int)) :=
  turns.foldl (fun m t => aset m t.nodeName [(t.nodeName, t.start)]) []

/-- The full per-turn chain scan over `obsChrono`. -/
def turnScanOf (turns : List TurnInfo) (nodeExists : Str → Bool)
    (chrono : List ChronoObs) : TurnScanState :=
  chrono.foldl (turnScanStep turns nodeExists)
    { byTurn := byTurn0Of turns, latestKernelByTurn := [], activeIdx := 0 }

/-- The per-turn main chains of the turn path. -/
def chainsOf (turns : List TurnInfo) (nodeExists : Str → Bool)
    (chrono : List ChronoObs) : List (Str × List Str) :=
  turnChainsOf turns (turnScanOf turns nodeExists chrono).byTurn

/-- The single node allowed to point at the synthetic end node. -/
def lastMainNodeOf (turns : List TurnInfo) (nodeExists : Str → Bool)
    (chrono : List ChronoObs) : Option Str :=
  ((chainsOf turns nodeExists chrono).reverse.find? (fun t => t.2 ≠ [])).bind
    (fun t => t.2.getLast?)

/-- All edge keys produced on the turn-chain path, including the final cleanup
that purges every key into `__end__` not sourced at the last main node. -/
def turnPathEdges (turns : List TurnInfo) (nodeExists : Str → Bool)
    (chrono : List ChronoObs) (normODM : List (Str × List Str)) : List Str :=
  let scan := turnScanOf turns nodeExists chrono
  let chains := chainsOf turns nodeExists chrono
  let nfs := nodeFirstStartOf chrono
  let e1 := chains.foldl
    (fun es p => (p.2.zip p.2.tail).foldl (fun es q => addEdge es q.1 q.2) es) []
  let e2 := (chains.zip chains.tail).foldl
    (fun es pq =>
      match pq.1.2.getLast? with
      | some l => addEdge es l pq.2.1
      | none => es)
    e1
  let e3 := (akeys normODM).foldl
    (fun es nodeName =>
      parserAttachEdge turns scan.latestKernelByTurn nfs nodeExists es nodeName) e2
  let firstTurnMainNode := (chains.find? (fun t => t.2 ≠ [])).bind (fun t => t.2.head?)
  let traceStartNode :=
    if nodeExists (cs "session.trace.start") then some (cs "session.trace.start") else none
  let startAnchor :=
    match traceStartNode with
    | some x => some x
    | none => firstTurnMainNode
  let e4 :=
    match startAnchor with
    | some a => addEdge e3 LANGFUSE_START_NODE_NAME a
    | none => e3
  let e5 :=
    match traceStartNode, firstTurnMainNode with
    | some ts, some f => if ts ≠ f then addEdge e4 ts f else e4
    | _, _ => e4
  let lastMainNode := lastMainNodeOf turns nodeExists chrono
  let e6 :=
    match lastMainNode with
    | some l => addEdge e5 l LANGFUSE_END_NODE_NAME
    | none => e5
  match lastMainNode with
  | some l =>
    e6.filter (fun key =>
      ¬ ((splitCh '→' key).getD 1 [] = LANGFUSE_END_NODE_NAME ∧
        (splitCh '→' key).getD 0 [] ≠ l))
  | none => e6

/-- `generateEdgesWithParallelBranches` (step-based fallback path). -/
def genEdges (sorted : List (Int × List Str)) : List (Str × Str) :=
  sorted.enum.foldl
    (fun acc p =>
      let targets :=
        if p.1 = sorted.length - 1 then [LANGFUSE_END_NODE_NAME]
        else ((sorted.get? (p.1 + 1)).map (fun e => e.2)).getD []
      p.2.2.foldl
        (fun acc2 cur =>
          if cur = LANGFUSE_END_NODE_NAME then acc2
          else acc2 ++ targets.filterMap (fun t => if cur ≠ t then some (cur, t) else none))
        acc)
    []

/-! The successive intermediate values of `buildGraphFromStepData` are factored
into named stages (each a pure function of the input collection). -/

def fmapOf (data : List AgentObs) : List (Str × Str) := failureNameMap data

def bucketsOf (data : List AgentObs) : List (Int × List Str) × List (Str × List Str) :=
  bucketize (fmapOf data) data

def prunedOf (data : List AgentObs) : List Str := getRedundantParserNodes (bucketsOf data).1

def stepMapOf (data : List AgentObs) : List (Int × List Str) :=
  pruneStepMap (prunedOf data) (bucketsOf data).1

def nodeMapOf (data : List AgentObs) : List (Str × List Str) :=
  pruneNodeMap (prunedOf data) (bucketsOf data).2

def normStepMapOf (data : List AgentObs) : List (Int × List Str) :=
  normalizedStepToNodes (normalizedMinStep (stepMapOf data))

def normODMOf (data : List AgentObs) : List (Str × List Str) :=
  normalizedObsMap (nodeMapOf data)

def nodeNamesOf (data : List AgentObs) : List Str :=
  dedupKeepFirst
    (LANGFUSE_START_NODE_NAME :: (akeys (normODMOf data) ++ [LANGFUSE_END_NODE_NAME]))

def dataByIdOf (data : List AgentObs) : List (Str × AgentObs) :=
  data.foldl (fun m o => aset m o.id o) []

def nodeExistsOf (data : List AgentObs) : Str → Bool :=
  fun name => ahas (normODMOf data) name

def chronoOf (data : List AgentObs) : List ChronoObs :=
  obsChrono (fmapOf data) (prunedOf data) data

def turnsOf (data : List AgentObs) : List TurnInfo := sessionTurnsOf (chronoOf data)

def forcedOf (data : List AgentObs) : List (Str × Str) :=
  forcedParents (turnsOf data) (nodeExistsOf data) (chronoOf data)

/-- The deduplicated edge keys produced by either path. -/
def edgeKeysOf (data : List AgentObs) : List Str :=
  if 0 < (turnsOf data).length then
    turnPathEdges (turnsOf data) (nodeExistsOf data) (chronoOf data) (normODMOf data)
  else
    let stepEdges := genEdges (jsSortBy (fun a b => a.1 ≤ b.1) (normStepMapOf data))
    (forcedOf data).foldl (fun es e => addEdge es e.2 e.1)
      (stepEdges.foldl (fun es p => addEdge es p.1 p.2) [])

/-- `const [from, to] = key.split("→"); return { from: from!, to: to! }`. -/
def decodeEdge (key : Str) : GraphEdge :=
  { efrom := (splitCh '→' key).getD 0 [], eto := (splitCh '→' key).getD 1 [] }

/-- `buildGraphFromStepData`. -/
def buildGraphFromStepData (data : List AgentObs) : GraphParseResult :=
  if data = [] then { nodes := [], edges := [], nodeToObservationsMap := [] }
  else
    { nodes := (nodeNamesOf data).map (mkGraphNode (dataByIdOf data) (normODMOf data)),
      edges := (edgeKeysOf data).map decodeEdge,
      nodeToObservationsMap := normODMOf data }

/-! ## Membership lemmas for the set/map model -/

theorem mem_sadd [DecidableEq α] {s : List α} {a b : α} :
    a ∈ sadd s b ↔ a ∈ s ∨ a = b := by
  unfold sadd
  by_cases h : b ∈ s
  · simp only [if_pos h]
    constructor
    · exact Or.inl
    · rintro (ha | rfl)
      · exact ha
      · exact h
  · simp [if_neg h]

theorem mem_foldl_sadd [DecidableEq α] {l : List α} :
    ∀ {s : List α} {a : α}, a ∈ l.foldl sadd s ↔ a ∈ s ∨ a ∈ l := by
  induction l with
  | nil => simp
  | cons x xs ih =>
    intro s a
    simp only [List.foldl_cons]
    rw [ih, mem_sadd]
    simp only [List.mem_cons]
    tauto

theorem mem_dedupKeepFirst [DecidableEq α] {l : List α} {a : α} :
    a ∈ dedupKeepFirst l ↔ a ∈ l := by
  unfold dedupKeepFirst
  rw [mem_foldl_sadd]
  simp

theorem mkGraphNode_id (d : List (Str × AgentObs)) (m : List (Str × List Str))
    (n : Str) : (mkGraphNode d m n).id = n := by
  unfold mkGraphNode
  split <;> rfl

theorem buildGraph_nodes_eq {data : List AgentObs} (h : data ≠ []) :
    (buildGraphFromStepData data).nodes =
      (nodeNamesOf data).map (mkGraphNode (dataByIdOf data) (normODMOf data)) := by
  unfold buildGraphFromStepData
  rw [if_neg h]

theorem buildGraph_edges_eq {data : List AgentObs} (h : data ≠ []) :
    (buildGraphFromStepData data).edges = (edgeKeysOf data).map decodeEdge := by
  unfold buildGraphFromStepData
  rw [if_neg h]

theorem buildGraph_map_eq {data : List AgentObs} (h : data ≠ []) :
    (buildGraphFromStepData data).nodeToObservationsMap = normODMOf data := by
  unfold buildGraphFromStepData
  rw [if_neg h]

/-! ## Claim C10: empty input and synthetic system nodes -/

/--
**C10** — the empty collection produces the fully empty result (no synthetic
nodes), while every non-empty collection produces a node set containing both
the synthetic start node and the synthetic end node.
-/
theorem claim_C10_empty_and_system_nodes :
    buildGraphFromStepData [] =
        { nodes := [], edges := [], nodeToObservationsMap := [] } ∧
      ∀ data : List AgentObs, data ≠ [] →
        (buildGraphFromStepData data).nodes.any
            (fun n => n.id = LANGFUSE_START_NODE_NAME) = true ∧
          (buildGraphFromStepData data).nodes.any
            (fun n => n.id = LANGFUSE_END_NODE_NAME) = true := by
  refine ⟨rfl, ?_⟩
  intro data h
  rw [buildGraph_nodes_eq h]
  have hstart : LANGFUSE_START_NODE_NAME ∈ nodeNamesOf data := by
    unfold nodeNamesOf
    rw [mem_dedupKeepFirst]
    simp
  have hend : LANGFUSE_END_NODE_NAME ∈ nodeNamesOf data := by
    unfold nodeNamesOf
    rw [mem_dedupKeepFirst]
    simp
  constructor
  · rw [List.any_eq_true]
    exact ⟨mkGraphNode (dataByIdOf data) (normODMOf data) LANGFUSE_START_NODE_NAME,
      List.mem_map_of_mem _ hstart, by simp [mkGraphNode_id]⟩
  · rw [List.any_eq_true]
    exact ⟨mkGraphNode (dataByIdOf data) (normODMOf data) LANGFUSE_END_NODE_NAME,
      List.mem_map_of_mem _ hend, by simp [mkGraphNode_id]⟩

/-- A generic single observation used in witnesses. -/
def obsW : AgentObs :=
  { id := cs "w1", name := cs "w", node := some (cs "w"), step := some 1,
    parentObservationId := none, startTime := 0, endTime := some 1,
    observationType := cs "TOOL", level := none, statusMessage := none }

/-- **C10 witness** — the theorem applied to a concrete one-record collection. -/
theorem claim_C10_witness :
    ([obsW] : List AgentObs) ≠ [] ∧
      (buildGraphFromStepData [obsW]).nodes.any
          (fun n => n.id = LANGFUSE_START_NODE_NAME) = true ∧
        (buildGraphFromStepData [obsW]).nodes.any
          (fun n => n.id = LANGFUSE_END_NODE_NAME) = true :=
  ⟨by decide, claim_C10_empty_and_system_nodes.2 [obsW] (by decide)⟩

/-! ## Counterexample inputs for claims C2, C3, C5 and C8 -/

def ceC2 : List AgentObs :=
  [ { id := cs "1", name := cs "a", node := some (cs "a"), step := some 1,
      parentObservationId := none, startTime := 0, endTime := some 1,
      observationType := cs "TOOL", level := none, statusMessage := none },
    { id := cs "2", name := cs "b", node := some (cs "b"), step := some 1,
      parentObservationId := none, startTime := 10, endTime := some 11,
      observationType := cs "TOOL", level := none, statusMessage := none } ]

/--
**C2 counterexample** — on the step-based fallback path (no turn markers) every
node of the final step is connected to the synthetic end node: a two-node final
step yields two distinct edges into `__end__`, refuting "at most one edge
targets the end node" for arbitrary inputs.
-/
theorem claim_C2_counterexample :
    ((buildGraphFromStepData ceC2).edges.filter
        (fun e => e.eto = LANGFUSE_END_NODE_NAME)) =
      [ { efrom := cs "a", eto := cs "__end__" },
        { efrom := cs "b", eto := cs "__end__" } ] := by
  decide

def ceC3 : List AgentObs :=
  [ { id := cs "1", name := cs "x", node := some (cs "a→a"), step := some 1,
      parentObservationId := none, startTime := 0, endTime := some 1,
      observationType := cs "TOOL", level := none, statusMessage := none },
    { id := cs "2", name := cs "y", node := some (cs "b"), step := some 2,
      parentObservationId := none, startTime := 10, endTime := some 11,
      observationType := cs "TOOL", level := none, statusMessage := none } ]

/--
**C3 counterexample** — with arbitrary node labels allowed, a label containing
the edge-key separator `→` breaks the `from→to` key decoding: the label `a→a`
at step 1 followed by `b` at step 2 produces the output edge `(a, a)`, a
self-loop, refuting `from ≠ to` for arbitrary labels.
-/
theorem claim_C3_counterexample :
    (buildGraphFromStepData ceC3).edges.any (fun e => e.efrom = e.eto) = true := by
  decide

def ceC5 : List AgentObs :=
  [ { id := cs "c1", name := cs "container",
      node := some (cs "session.parser.turn_002.structured_output"), step := some 1,
      parentObservationId := none, startTime := 0, endTime := some 1,
      observationType := cs "SPAN", level := none, statusMessage := none } ]

/--
**C5 counterexample** — `session.parser.turn_002.structured_output` is
classified as a parser container by `isParserContainerNodeName`, yet the graph
builder does not prune it: it yields a graph node under its normalized identity
and its observation id stays in `nodeToObservationsMap`.
-/
theorem claim_C5_counterexample :
    isParserContainerNodeName (cs "session.parser.turn_002.structured_output") = true ∧
      ((buildGraphFromStepData ceC5).nodeToObservationsMap.map Prod.fst).contains
          (cs "parser.turn_002.structured_output") = true ∧
        ((buildGraphFromStepData ceC5).nodes.map (fun n => n.id)).contains
            (cs "parser.turn_002.structured_output") = true ∧
          ((buildGraphFromStepData ceC5).nodeToObservationsMap.any
              (fun e => e.2.contains (cs "c1"))) = true := by
  refine ⟨by decide, by decide, by decide, by decide⟩

def ceC8A : AgentObs :=
  { id := cs "1", name := cs "x", node := some (cs "n"), step := some 1,
    parentObservationId := none, startTime := 0, endTime := some 1,
    observationType := cs "TOOL", level := some (cs "ERROR"),
    statusMessage := some (cs "boom-a") }

def ceC8B : AgentObs :=
  { id := cs "2", name := cs "y", node := some (cs "n"), step := some 1,
    parentObservationId := none, startTime := 1000, endTime := some 1001,
    observationType := cs "AGENT", level := some (cs "ERROR"),
    statusMessage := some (cs "boom-b") }

/--
**C8 counterexample** — permuting the input collection changes the output of
`buildGraphFromStepData`: two observations with distinct start times sharing
one node label but differing in type and status message produce a node whose
`type` and `title` fields follow input encounter order.
-/
theorem claim_C8_counterexample :
    List.Perm [ceC8A, ceC8B] [ceC8B, ceC8A] ∧
      buildGraphFromStepData [ceC8A, ceC8B] ≠ buildGraphFromStepData [ceC8B, ceC8A] := by
  exact ⟨List.Perm.swap ceC8B ceC8A [], by decide⟩

/-! ## Association-list lemmas -/

theorem aget_aset_self [DecidableEq κ] (m : List (κ × ν)) (k : κ) (v : ν) :
    aget (aset m k v) k = some v := by
  induction m with
  | nil => simp [aget, aset]
  | cons e rest ih =>
    obtain ⟨k', v'⟩ := e
    by_cases h : k' = k
    · subst h
      simp [aset, aget]
    · simp [aset, aget, h, ih]


theorem aget_aset_ne [DecidableEq κ] {m : List (κ × ν)} {k k' : κ} (v : ν)
    (h : k' ≠ k) : aget (aset m k v) k' = aget m k' := by
  induction m with
  | nil => simp [aget, aset, Ne.symm h]
  | cons e rest ih =>
    obtain ⟨k'', v''⟩ := e
    by_cases hk : k'' = k
    · subst hk
      simp [aset, aget, Ne.symm h]
    · simp [aset, aget, hk, ih]

theorem aset_ne_nil [DecidableEq κ] (m : List (κ × ν)) (k : κ) (v : ν) :
    aset m k v ≠ [] := by
  cases m with
  | nil => simp [aset]
  | cons e rest =>
    obtain ⟨k', v'⟩ := e
    by_cases h : k' = k <;> simp [aset, h]

theorem aget_isSome_aset [DecidableEq κ] {m : List (κ × ν)} {k' : κ} (k : κ) (v : ν)
    (h : (aget m k').isSome) : (aget (aset m k v) k').isSome := by
  by_cases hk : k' = k
  · subst hk
    simp [aget_aset_self]
  · rwa [aget_aset_ne v hk]

/-- All values of the map are nonempty lists. -/
def NonNilVals [DecidableEq κ] (m : List (κ × List ν)) : Prop :=
  ∀ k m', aget m k = some m' → m' ≠ []

theorem nonNilVals_aset [DecidableEq κ] {m : List (κ × List ν)} {k : κ} {v : List ν}
    (hm : NonNilVals m) (hv : v ≠ []) : NonNilVals (aset m k v) := by
  intro k' m' h
  by_cases hk : k' = k
  · subst hk
    rw [aget_aset_self] at h
    cases h
    exact hv
  · rw [aget_aset_ne v hk] at h
    exact hm k' m' h

/-! ## The last main node of the turn path exists when turns do -/

theorem byTurn0_has (turns : List TurnInfo) :
    ∀ t ∈ turns, (aget (byTurn0Of turns) t.nodeName).isSome := by
  unfold byTurn0Of
  suffices h : ∀ (init : List (Str × List (Str × Int))), ∀ t ∈ turns,
      (aget (turns.foldl (fun m t => aset m t.nodeName [(t.nodeName, t.start)]) init)
        t.nodeName).isSome from h []
  induction turns with
  | nil => simp
  | cons x xs ih =>
    intro init t ht
    rcases List.mem_cons.1 ht with rfl | hmem
    · simp only [List.foldl_cons]
      have hbase : (aget (aset init t.nodeName [(t.nodeName, t.start)]) t.nodeName).isSome := by
        simp [aget_aset_self]
      revert hbase
      generalize aset init t.nodeName [(t.nodeName, t.start)] = m0
      intro hbase
      clear ih ht
      induction xs generalizing m0 with
      | nil => simpa using hbase
      | cons y ys ihy =>
        simp only [List.foldl_cons]
        exact ihy _ (aget_isSome_aset _ _ hbase)
    · simp only [List.foldl_cons]
      exact ih _ t hmem

theorem byTurn0_nonNil (turns : List TurnInfo) : NonNilVals (byTurn0Of turns) := by
  unfold byTurn0Of
  suffices h : ∀ (init : List (Str × List (Str × Int))), NonNilVals init →
      NonNilVals (turns.foldl (fun m t => aset m t.nodeName [(t.nodeName, t.start)]) init) by
    refine h [] ?_
    intro k m' hk
    simp [aget] at hk
  induction turns with
  | nil => exact fun init h => h
  | cons x xs ih =>
    intro init hinit
    simp only [List.foldl_cons]
    exact ih _ (nonNilVals_aset hinit (by simp))

theorem turnScanByTurnUpd_has (ne : Str → Bool) (st : TurnScanState) (o : ChronoObs)
    (t : TurnInfo) {k : Str} (h : (aget st.byTurn k).isSome) :
    (aget (turnScanByTurnUpd ne st o t) k).isSome := by
  unfold turnScanByTurnUpd
  split
  · split
    · split
      · exact aget_isSome_aset _ _ h
      · exact h
    · exact h
  · exact h

theorem turnScanByTurnUpd_nonNil (ne : Str → Bool) (st : TurnScanState) (o : ChronoObs)
    (t : TurnInfo) (h : NonNilVals st.byTurn) :
    NonNilVals (turnScanByTurnUpd ne st o t) := by
  unfold turnScanByTurnUpd
  split
  · split
    · split
      · exact nonNilVals_aset h (aset_ne_nil _ _ _)
      · exact h
    · exact h
  · exact h

theorem turnScanStep_byTurn_has (turns : List TurnInfo) (ne : Str → Bool)
    (st : TurnScanState) (o : ChronoObs) {k : Str}
    (h : (aget st.byTurn k).isSome) :
    (aget (turnScanStep turns ne st o).byTurn k).isSome := by
  unfold turnScanStep turnScanGo
  split
  · exact h
  · split
    · exact h
    · exact turnScanByTurnUpd_has ne st o _ h

theorem turnScanStep_byTurn_nonNil (turns : List TurnInfo) (ne : Str → Bool)
    (st : TurnScanState) (o : ChronoObs) (h : NonNilVals st.byTurn) :
    NonNilVals (turnScanStep turns ne st o).byTurn := by
  unfold turnScanStep turnScanGo
  split
  · exact h
  · split
    · exact h
    · exact turnScanByTurnUpd_nonNil ne st o _ h

theorem foldl_turnScan_byTurn_has (turns : List TurnInfo) (ne : Str → Bool)
    (chrono : List ChronoObs) :
    ∀ (st0 : TurnScanState) (k : Str), (aget st0.byTurn k).isSome →
      (aget (chrono.foldl (turnScanStep turns ne) st0).byTurn k).isSome := by
  induction chrono with
  | nil => exact fun st0 k h => h
  | cons o os ih =>
    intro st0 k h
    simp only [List.foldl_cons]
    exact ih _ k (turnScanStep_byTurn_has turns ne st0 o h)

theorem foldl_turnScan_byTurn_nonNil (turns : List TurnInfo) (ne : Str → Bool)
    (chrono : List ChronoObs) :
    ∀ (st0 : TurnScanState), NonNilVals st0.byTurn →
      NonNilVals (chrono.foldl (turnScanStep turns ne) st0).byTurn := by
  induction chrono with
  | nil => exact fun st0 h => h
  | cons o os ih =>
    intro st0 h
    simp only [List.foldl_cons]
    exact ih _ (turnScanStep_byTurn_nonNil turns ne st0 o h)

theorem turnScanOf_byTurn_has (turns : List TurnInfo) (ne : Str → Bool)
    (chrono : List ChronoObs) :
    ∀ t ∈ turns, (aget (turnScanOf turns ne chrono).byTurn t.nodeName).isSome :=
  fun t ht => foldl_turnScan_byTurn_has turns ne chrono _ _ (byTurn0_has turns t ht)

theorem turnScanOf_byTurn_nonNil (turns : List TurnInfo) (ne : Str → Bool)
    (chrono : List ChronoObs) : NonNilVals (turnScanOf turns ne chrono).byTurn :=
  foldl_turnScan_byTurn_nonNil turns ne chrono _ (byTurn0_nonNil turns)

theorem jsSortBy_length (le : α → α → Bool) (l : List α) :
    (jsSortBy le l).length = l.length :=
  (List.perm_insertionSort _ l).length_eq

theorem turnChainStep_ne_nil {BT : List (Str × List (Str × Int))}
    {acc : List (Str × List Str)} (t : TurnInfo) (h : acc ≠ []) :
    turnChainStep BT acc t ≠ [] := by
  unfold turnChainStep
  split
  · exact h
  · dsimp only
    split <;> simp

theorem foldl_turnChainStep_ne_nil {BT : List (Str × List (Str × Int))}
    (l : List TurnInfo) :
    ∀ {acc : List (Str × List Str)}, acc ≠ [] → l.foldl (turnChainStep BT) acc ≠ [] := by
  induction l with
  | nil => exact fun h => h
  | cons t ts ih =>
    intro acc h
    simp only [List.foldl_cons]
    exact ih (turnChainStep_ne_nil t h)

theorem turnChainsOf_ne_nil {turns : List TurnInfo} {BT : List (Str × List (Str × Int))}
    (h : turns ≠ []) (hhas : ∀ t ∈ turns, (aget BT t.nodeName).isSome) :
    turnChainsOf turns BT ≠ [] := by
  unfold turnChainsOf
  obtain ⟨t0, rest, rfl⟩ : ∃ t0 rest, turns = t0 :: rest := by
    cases turns with
    | nil => exact absurd rfl h
    | cons a b => exact ⟨a, b, rfl⟩
  simp only [List.foldl_cons]
  obtain ⟨m, hm⟩ := Option.isSome_iff_exists.1 (hhas t0 (by simp))
  apply foldl_turnChainStep_ne_nil
  unfold turnChainStep
  rw [hm]
  dsimp only
  split <;> simp

theorem turnChainStep_entries {BT : List (Str × List (Str × Int))}
    {acc : List (Str × List Str)} (t : TurnInfo) (hnn : NonNilVals BT)
    (hacc : ∀ e ∈ acc, e.2 ≠ []) :
    ∀ e ∈ turnChainStep BT acc t, e.2 ≠ [] := by
  unfold turnChainStep
  split
  · exact hacc
  · next m hm =>
    have hmne : m ≠ [] := hnn _ _ hm
    have hchain : ((jsSortBy (fun a b => a.2 ≤ b.2) m).map Prod.fst) ≠ [] := by
      have : ((jsSortBy (fun a b => a.2 ≤ b.2) m).map Prod.fst).length = m.length := by
        rw [List.length_map, jsSortBy_length]
      intro hc
      rw [hc] at this
      exact hmne (List.length_eq_zero.1 this.symm)
    dsimp only
    split
    · intro e he
      rcases List.mem_append.1 he with h | h
      · exact hacc e h
      · rcases List.mem_singleton.1 h with rfl
        simp
    · intro e he
      rcases List.mem_append.1 he with h | h
      · exact hacc e h
      · rcases List.mem_singleton.1 h with rfl
        exact hchain

theorem foldl_turnChainStep_entries {BT : List (Str × List (Str × Int))}
    (l : List TurnInfo) (hnn : NonNilVals BT) :
    ∀ {acc : List (Str × List Str)}, (∀ e ∈ acc, e.2 ≠ []) →
      ∀ e ∈ l.foldl (turnChainStep BT) acc, e.2 ≠ [] := by
  induction l with
  | nil => exact fun h => h
  | cons t ts ih =>
    intro acc h
    simp only [List.foldl_cons]
    exact ih (turnChainStep_entries t hnn h)

theorem chainsOf_entries (turns : List TurnInfo) (ne : Str → Bool)
    (chrono : List ChronoObs) : ∀ e ∈ chainsOf turns ne chrono, e.2 ≠ [] := by
  unfold chainsOf turnChainsOf
  exact foldl_turnChainStep_entries turns (turnScanOf_byTurn_nonNil turns ne chrono)
    (by simp)

theorem lastMainNodeOf_isSome (turns : List TurnInfo) (ne : Str → Bool)
    (chrono : List ChronoObs) (h : turns ≠ []) :
    ∃ l, lastMainNodeOf turns ne chrono = some l := by
  unfold lastMainNodeOf
  have hne : chainsOf turns ne chrono ≠ [] := by
    unfold chainsOf
    exact turnChainsOf_ne_nil h (turnScanOf_byTurn_has turns ne chrono)
  obtain ⟨c, rest, hrev⟩ : ∃ c rest, (chainsOf turns ne chrono).reverse = c :: rest := by
    cases hr : (chainsOf turns ne chrono).reverse with
    | nil => exact absurd (List.reverse_eq_nil_iff.1 hr) hne
    | cons a b => exact ⟨a, b, rfl⟩
  have hc2 : c.2 ≠ [] := by
    refine chainsOf_entries turns ne chrono c ?_
    rw [← List.mem_reverse, hrev]
    simp
  rw [hrev, List.find?_cons_of_pos _ (by simpa using hc2)]
  obtain ⟨l, hl⟩ := Option.isSome_iff_exists.1 (List.getLast?_isSome.2 hc2)
  exact ⟨l, by simp [hl]⟩

theorem turnPathEdges_end_source {turns : List TurnInfo} {ne : Str → Bool}
    {chrono : List ChronoObs} {normODM : List (Str × List Str)} {l : Str}
    (hl : lastMainNodeOf turns ne chrono = some l) :
    ∀ key ∈ turnPathEdges turns ne chrono normODM,
      (splitCh '→' key).getD 1 [] = LANGFUSE_END_NODE_NAME →
      (splitCh '→' key).getD 0 [] = l := by
  intro key hk hEnd
  unfold turnPathEdges at hk
  rw [hl] at hk
  have hP := (List.mem_filter.1 hk).2
  simp only [decide_eq_true_eq] at hP
  by_contra hne
  exact hP ⟨hEnd, hne⟩

/-- The two-turn spec scenario: each turn holds one representative kernel node. -/
def scenTwoTurns : List AgentObs :=
  [ { id := cs "turn-1", name := cs "session.turn.001", node := some (cs "session.turn.001"),
      step := some 1, parentObservationId := none, startTime := 0, endTime := some 10000,
      observationType := cs "CHAIN", level := none, statusMessage := none },
    { id := cs "a", name := cs "A - kernel.cognitive_core__respond",
      node := some (cs "A - kernel.cognitive_core__respond"), step := some 2,
      parentObservationId := none, startTime := 1000, endTime := some 1001,
      observationType := cs "AGENT", level := none, statusMessage := none },
    { id := cs "turn-2", name := cs "session.turn.002", node := some (cs "session.turn.002"),
      step := some 3, parentObservationId := none, startTime := 20000, endTime := some 30000,
      observationType := cs "CHAIN", level := none, statusMessage := none },
    { id := cs "b", name := cs "B - kernel.cognitive_core__respond",
      node := some (cs "B - kernel.cognitive_core__respond"), step := some 4,
      parentObservationId := none, startTime := 21000, endTime := some 21001,
      observationType := cs "AGENT", level := none, statusMessage := none } ]

/--
**C2 amended** — on the turn-chain path (turn markers present) all edges whose
target is the synthetic end node coincide: distinct edges into `__end__` do not
exist, and in the two-turn kernel scenario exactly one such edge remains,
sourced from the later turn's kernel node. On the step-based fallback path
(no turn markers) every final-step node is connected to the end node, so the
"at most one" bound does not hold there (see the counterexample).
-/
theorem claim_C2_amended :
    (∀ data : List AgentObs, turnsOf data ≠ [] →
        ∀ e1 ∈ (buildGraphFromStepData data).edges,
          ∀ e2 ∈ (buildGraphFromStepData data).edges,
            e1.eto = LANGFUSE_END_NODE_NAME → e2.eto = LANGFUSE_END_NODE_NAME →
              e1 = e2) ∧
      ((buildGraphFromStepData scenTwoTurns).edges.filter
          (fun e => e.eto = LANGFUSE_END_NODE_NAME)) =
        [ { efrom := cs "B - kernel.cognitive_core__respond", eto := cs "__end__" } ] := by
  constructor
  · intro data ht e1 he1 e2 he2 h1 h2
    have hdata : data ≠ [] := by
      rintro rfl
      exact ht (by decide)
    rw [buildGraph_edges_eq hdata] at he1 he2
    have hkeys : edgeKeysOf data =
        turnPathEdges (turnsOf data) (nodeExistsOf data) (chronoOf data) (normODMOf data) := by
      unfold edgeKeysOf
      rw [if_pos (List.length_pos.2 ht)]
    rw [hkeys] at he1 he2
    obtain ⟨k1, hk1, rfl⟩ := List.mem_map.1 he1
    obtain ⟨k2, hk2, rfl⟩ := List.mem_map.1 he2
    obtain ⟨l, hl⟩ := lastMainNodeOf_isSome (turnsOf data) (nodeExistsOf data)
      (chronoOf data) ht
    have h1' : (splitCh '→' k1).getD 1 [] = LANGFUSE_END_NODE_NAME := h1
    have h2' : (splitCh '→' k2).getD 1 [] = LANGFUSE_END_NODE_NAME := h2
    have hf1 := turnPathEdges_end_source hl k1 hk1 h1'
    have hf2 := turnPathEdges_end_source hl k2 hk2 h2'
    show decodeEdge k1 = decodeEdge k2
    unfold decodeEdge
    rw [hf1, hf2, h1', h2']
  · decide

/--
**C2 witness** — the amended theorem applied to the concrete two-turn scenario.
-/
theorem claim_C2_amended_witness :
    turnsOf scenTwoTurns ≠ [] ∧
      ({ efrom := cs "B - kernel.cognitive_core__respond", eto := cs "__end__" } : GraphEdge) ∈
          (buildGraphFromStepData scenTwoTurns).edges ∧
        ({ efrom := cs "B - kernel.cognitive_core__respond", eto := cs "__end__" } : GraphEdge) =
          { efrom := cs "B - kernel.cognitive_core__respond", eto := cs "__end__" } :=
  ⟨by decide, by decide,
    claim_C2_amended.1 scenTwoTurns (by decide)
      { efrom := cs "B - kernel.cognitive_core__respond", eto := cs "__end__" } (by decide)
      { efrom := cs "B - kernel.cognitive_core__respond", eto := cs "__end__" } (by decide)
      (by decide) (by decide)⟩


/-! ## Character provenance: keeping node labels free of the edge separator -/

/-- The string does not contain the edge-key separator `→`. -/
def NoSep (s : Str) : Prop := '→' ∉ s

theorem splitCh_chars {sep : Char} {s : Str} :
    ∀ seg ∈ splitCh sep s, ∀ c ∈ seg, c ∈ s := by
  induction s with
  | nil =>
    intro seg hseg c hc
    simp [splitCh] at hseg
    subst hseg
    simp at hc
  | cons d rest ih =>
    intro seg hseg c hc
    rw [splitCh_cons] at hseg
    rcases hr : splitCh sep rest with _ | ⟨r, rs⟩
    · exact absurd hr (splitCh_ne_nil sep rest)
    · rw [hr] at hseg
      dsimp only at hseg
      by_cases hd : d = sep
      · rw [if_pos hd] at hseg
        rcases List.mem_cons.1 hseg with rfl | hseg'
        · simp at hc
        · exact List.mem_cons_of_mem d (ih seg (by rw [hr]; exact hseg') c hc)
      · rw [if_neg hd] at hseg
        rcases List.mem_cons.1 hseg with rfl | hseg'
        · rcases List.mem_cons.1 hc with rfl | hc'
          · simp
          · exact List.mem_cons_of_mem d (ih r (by rw [hr]; simp) c hc')
        · exact List.mem_cons_of_mem d
            (ih seg (by rw [hr]; exact List.mem_cons_of_mem r hseg') c hc)

theorem stripPfx_chars {p s r : Str} (h : stripPfx p s = some r) : ∀ c ∈ r, c ∈ s := by
  intro c hc
  rw [stripPfx_some_eq h]
  exact List.mem_append_right p hc

theorem matchSessionParser_chars {s rest : Str} (h : matchSessionParser s = some rest) :
    ∀ c ∈ rest, c ∈ s := by
  unfold matchSessionParser at h
  cases hp : stripPfx (cs "session.parser.") s with
  | none => rw [hp] at h; cases h
  | some r =>
    rw [hp] at h
    dsimp only at h
    by_cases hc : (decide (r ≠ []) && r.all fun c => !isLineTerm c) = true
    · rw [if_pos hc] at h
      cases h
      exact stripPfx_chars hp
    · rw [if_neg hc] at h
      cases h

theorem matchParserTurnTool_segs {kindSeg s tool idx : Str}
    (h : matchParserTurnTool kindSeg s = some (tool, idx)) :
    tool ∈ splitCh '.' s ∧ idx ∈ splitCh '.' s := by
  unfold matchParserTurnTool at h
  split at h
  · next seg0 seg1 seg2 t0 i0 heq =>
    split at h
    · cases h
      rw [heq]
      exact ⟨by simp, by simp⟩
    · cases h
  · cases h

theorem matchToolPre_provenance {s tool idx : Str}
    (h : matchToolPre s = some (tool, idx)) :
    (∃ seg ∈ splitCh '.' s, ∀ c ∈ tool, c ∈ seg) ∧ idx ∈ splitCh '.' s := by
  unfold matchToolPre at h
  split at h
  · next seg0 seg1 seg2 i0 heq =>
    split at h
    · cases hpre : stripPfx (cs "pre_") seg2 with
      | none => rw [hpre] at h; cases h
      | some tl =>
        rw [hpre] at h
        dsimp only at h
        by_cases htl : tl ≠ []
        · rw [if_pos htl] at h
          cases h
          rw [heq]
          exact ⟨⟨seg2, by simp, stripPfx_chars hpre⟩, by simp⟩
        · rw [if_neg htl] at h
          cases h
    · cases h
  · cases h

theorem matchToolResultUi_segs {s tool idx : Str}
    (h : matchToolResultUi s = some (tool, idx)) :
    tool ∈ splitCh '.' s ∧ idx ∈ splitCh '.' s := by
  unfold matchToolResultUi at h
  split at h
  · next seg0 t0 i0 heq =>
    split at h
    · cases h
      rw [heq]
      exact ⟨by simp, by simp⟩
    · cases h
  · cases h

theorem noSep_normalize {s : Str} (h : NoSep s) :
    NoSep (normalizeParserNodeNameForGraph s) := by
  cases hm : matchSessionParser s with
  | none => rw [normalize_of_msp_none hm]; exact h
  | some rest =>
    have hrest : NoSep rest := fun hc => h (matchSessionParser_chars hm _ hc)
    have hws : NoSep (cs "parser." ++ rest) := by
      intro hc
      rcases List.mem_append.1 hc with hl | hr
      · revert hl; decide
      · exact hrest hr
    rw [normalize_of_msp_some hm]
    cases hpre : matchToolPre (cs "parser." ++ rest) with
    | some pr =>
      obtain ⟨tool, idx⟩ := pr
      obtain ⟨⟨seg, hsegmem, htool⟩, hidx⟩ := matchToolPre_provenance hpre
      intro hc
      simp only [List.append_assoc, List.mem_append, List.mem_singleton] at hc
      rcases hc with hl | hl | hl | hl
      · revert hl; decide
      · exact hws (splitCh_chars seg hsegmem _ (htool _ hl))
      · simp at hl
      · exact hws (splitCh_chars _ hidx _ hl)
    | none =>
      cases hres : matchParserTurnTool (cs "tool_result") (cs "parser." ++ rest) with
      | some pr =>
        obtain ⟨tool, idx⟩ := pr
        obtain ⟨htool, hidx⟩ := matchParserTurnTool_segs hres
        intro hc
        simp only [List.append_assoc, List.mem_append, List.mem_singleton] at hc
        rcases hc with hl | hl | hl | hl
        · revert hl; decide
        · exact hws (splitCh_chars _ htool _ hl)
        · simp at hl
        · exact hws (splitCh_chars _ hidx _ hl)
      | none => exact hws

theorem mem_aset [DecidableEq κ] {m : List (κ × ν)} {k : κ} {v : ν} :
    ∀ e ∈ aset m k v, e = (k, v) ∨ e ∈ m := by
  induction m with
  | nil => simp [aset]
  | cons f rest ih =>
    obtain ⟨k', v'⟩ := f
    intro e he
    by_cases hk : k' = k
    · subst hk
      simp only [aset, if_pos rfl] at he
      rcases List.mem_cons.1 he with rfl | h
      · exact Or.inl rfl
      · exact Or.inr (List.mem_cons_of_mem _ h)
    · simp only [aset, if_neg hk] at he
      rcases List.mem_cons.1 he with rfl | h
      · exact Or.inr (by simp)
      · rcases ih e h with h' | h'
        · exact Or.inl h'
        · exact Or.inr (List.mem_cons_of_mem _ h')

theorem aget_mem [DecidableEq κ] {m : List (κ × ν)} {k : κ} {v : ν}
    (h : aget m k = some v) : (k, v) ∈ m := by
  induction m with
  | nil => simp [aget] at h
  | cons f rest ih =>
    obtain ⟨k', v'⟩ := f
    by_cases hk : k' = k
    · subst hk
      simp only [aget, if_pos rfl] at h
      cases h
      simp
    · simp only [aget, if_neg hk] at h
      exact List.mem_cons_of_mem _ (ih h)

theorem aget_aset_cases [DecidableEq κ] {m : List (κ × ν)} {k k' : κ} {v v' : ν}
    (h : aget (aset m k v) k' = some v') : v' = v ∨ aget m k' = some v' := by
  by_cases hk : k' = k
  · subst hk
    rw [aget_aset_self] at h
    cases h
    exact Or.inl rfl
  · rw [aget_aset_ne v hk] at h
    exact Or.inr h

theorem natDigitsAux_digits :
    ∀ (fuel n : Nat) (acc : Str), (∀ c ∈ acc, isDigitCh c = true) →
      ∀ c ∈ natDigitsAux fuel n acc, isDigitCh c = true := by
  intro fuel
  induction fuel with
  | zero => exact fun n acc h => h
  | succ f ih =>
    intro n acc h
    unfold natDigitsAux
    dsimp only
    have hd : isDigitCh (Char.ofNat ('0'.toNat + n % 10)) = true := by
      have h10 : n % 10 < 10 := Nat.mod_lt _ (by norm_num)
      set k := n % 10 with hk
      interval_cases k <;> decide
    have hcons : ∀ c ∈ (Char.ofNat ('0'.toNat + n % 10)) :: acc, isDigitCh c = true := by
      intro c hc
      rcases List.mem_cons.1 hc with rfl | hc'
      · exact hd
      · exact h c hc'
    split
    · exact hcons
    · exact ih _ _ hcons

theorem noSep_natToDigits (n : Nat) : NoSep (natToDigits n) := by
  intro hc
  exact absurd (natDigitsAux_digits _ _ _ (by simp) _ hc) (by decide)

theorem noSep_failureLabel {n : Nat} : NoSep (cs "session.failure." ++ natToDigits n) := by
  intro hc
  rcases List.mem_append.1 hc with h | h
  · revert h; decide
  · exact noSep_natToDigits n h

theorem failureNameMap_noSep (data : List AgentObs) :
    ∀ k v, aget (failureNameMap data) k = some v → NoSep v := by
  unfold failureNameMap
  generalize jsSortBy failureLe (data.filter fun o => o.name = cs "session.failure") = l
  suffices h : ∀ (l' : List (Nat × AgentObs)) (m : List (Str × Str)),
      (∀ k v, aget m k = some v → NoSep v) →
      ∀ k v, aget (l'.foldl
        (fun m p => aset m p.2.id (cs "session.failure." ++ natToDigits (p.1 + 1))) m)
          k = some v → NoSep v by
    exact h l.enum [] (by intro k v hv; simp [aget] at hv)
  intro l'
  induction l' with
  | nil => exact fun m hm => hm
  | cons p ps ih =>
    intro m hm
    simp only [List.foldl_cons]
    refine ih _ ?_
    intro k v hv
    rcases aget_aset_cases hv with rfl | h
    · exact noSep_failureLabel
    · exact hm k v h

theorem noSep_eff {data : List AgentObs}
    (hnode : ∀ o ∈ data, ∀ r, o.node = some r → NoSep r) :
    ∀ o ∈ data, ∀ r, getEffectiveRawNodeName (fmapOf data) o = some r → NoSep r := by
  intro o ho r hr
  unfold getEffectiveRawNodeName at hr
  cases hf : aget (fmapOf data) o.id with
  | some v =>
    rw [hf] at hr
    cases hr
    exact failureNameMap_noSep data _ _ hf
  | none =>
    rw [hf] at hr
    exact hnode o ho r hr

theorem mem_jsSortBy {le : α → α → Bool} {l : List α} {a : α} :
    a ∈ jsSortBy le l ↔ a ∈ l :=
  (List.perm_insertionSort _ l).mem_iff

theorem mem_adel [DecidableEq κ] {m : List (κ × ν)} {k : κ} :
    ∀ e ∈ adel m k, e ∈ m := fun e he => (List.mem_filter.1 he).1

/-- `NoSep` invariant for step-bucket maps. -/
def StepMapNoSep (m : List (Int × List Str)) : Prop :=
  ∀ e ∈ m, ∀ n ∈ e.2, NoSep n

/-- `NoSep` invariant for string-keyed maps. -/
def KeysNoSep {ν : Type} (m : List (Str × ν)) : Prop :=
  ∀ e ∈ m, NoSep e.1

theorem bucketStepMapUpd_noSep {m : List (Int × List Str)} {step? : Option Int}
    {node? : Option Str} (hm : StepMapNoSep m)
    (hn : ∀ n, node? = some n → NoSep n) :
    StepMapNoSep (bucketStepMapUpd m step? node?) := by
  unfold bucketStepMapUpd
  split
  · next step n =>
    have hnn : NoSep n := hn n rfl
    split
    · intro e he
      rcases mem_aset e he with rfl | h
      · intro x hx
        have hx' : x ∈ sadd [] n := hx
        rcases mem_sadd.1 hx' with h' | rfl
        · simp at h'
        · exact hnn
      · exact hm e h
    · next s hs =>
      intro e he
      rcases mem_aset e he with rfl | h
      · intro x hx
        have hx' : x ∈ sadd s n := hx
        rcases mem_sadd.1 hx' with h' | rfl
        · exact hm _ (aget_mem hs) x h'
        · exact hnn
      · exact hm e h
  · exact hm

theorem bucketNodeMapUpd_keysNoSep {m : List (Str × List Str)} {node? : Option Str}
    {oid : Str} (hm : KeysNoSep m) (hn : ∀ n, node? = some n → NoSep n) :
    KeysNoSep (bucketNodeMapUpd m node? oid) := by
  unfold bucketNodeMapUpd
  split
  · next n =>
    have hnn : NoSep n := hn n rfl
    split
    · exact hm
    · split
      · intro e he
        rcases mem_aset e he with rfl | h
        · exact hnn
        · exact hm e h
      · intro e he
        rcases mem_aset e he with rfl | h
        · exact hnn
        · exact hm e h
  · exact hm

theorem bucketize_noSep {data : List AgentObs} {f : List (Str × Str)}
    (hlab : ∀ o ∈ data, ∀ r, getEffectiveRawNodeName f o = some r → NoSep r) :
    StepMapNoSep (bucketize f data).1 ∧ KeysNoSep (bucketize f data).2 := by
  unfold bucketize
  suffices h : ∀ (l : List AgentObs),
      (∀ o ∈ l, ∀ r, getEffectiveRawNodeName f o = some r → NoSep r) →
      ∀ (acc : List (Int × List Str) × List (Str × List Str)),
        StepMapNoSep acc.1 → KeysNoSep acc.2 →
        StepMapNoSep (l.foldl (bucketStep f) acc).1 ∧
          KeysNoSep (l.foldl (bucketStep f) acc).2 by
    refine h data hlab ([], []) ?_ ?_ <;> intro e he <;> simp at he
  intro l
  induction l with
  | nil => exact fun _ acc h1 h2 => ⟨h1, h2⟩
  | cons o os ih =>
    intro hl acc h1 h2
    simp only [List.foldl_cons]
    refine ih (fun o' ho' => hl o' (List.mem_cons_of_mem _ ho')) _ ?_ ?_
    · exact bucketStepMapUpd_noSep h1 (fun n hn => hl o (by simp) n hn)
    · exact bucketNodeMapUpd_keysNoSep h2 (fun n hn => hl o (by simp) n hn)

theorem pruneStepMap_noSep {pruned : List Str} {m : List (Int × List Str)}
    (hm : StepMapNoSep m) : StepMapNoSep (pruneStepMap pruned m) := by
  unfold pruneStepMap
  split
  · exact hm
  · suffices h : ∀ (l : List (Int × List Str)), StepMapNoSep l →
        ∀ (acc : List (Int × List Str)), StepMapNoSep acc →
        StepMapNoSep (l.foldl (fun m entry =>
          let remaining := entry.2.filter (fun n => ¬ n ∈ pruned)
          if remaining = [] then adel m entry.1 else aset m entry.1 remaining) acc) from
      h m hm m hm
    intro l
    induction l with
    | nil => exact fun _ acc h => h
    | cons e es ih =>
      intro hl acc hacc
      simp only [List.foldl_cons]
      refine ih (fun e' he' => hl e' (List.mem_cons_of_mem _ he')) _ ?_
      dsimp only
      split
      · exact fun x hx => hacc x (mem_adel x hx)
      · intro x hx
        rcases mem_aset x hx with rfl | h
        · intro n hn
          exact hl e (by simp) n (List.mem_filter.1 hn).1
        · exact hacc x h

theorem pruneNodeMap_keysNoSep {pruned : List Str} {m : List (Str × List Str)}
    (hm : KeysNoSep m) : KeysNoSep (pruneNodeMap pruned m) := by
  unfold pruneNodeMap
  split
  · exact hm
  · suffices h : ∀ (l : List Str) (acc : List (Str × List Str)), KeysNoSep acc →
        KeysNoSep (l.foldl (fun m n => adel m n) acc) from h pruned m hm
    intro l
    induction l with
    | nil => exact fun acc h => h
    | cons n ns ih =>
      intro acc hacc
      simp only [List.foldl_cons]
      exact ih _ (fun e he => hacc e (mem_adel e he))

theorem normalizedMinStep_keysNoSep {m : List (Int × List Str)}
    (hm : StepMapNoSep m) : KeysNoSep (normalizedMinStep m) := by
  unfold normalizedMinStep
  suffices h : ∀ (l : List (Int × List Str)), StepMapNoSep l →
      ∀ (acc : List (Str × Int)), KeysNoSep acc →
      KeysNoSep (l.foldl (fun acc entry =>
        entry.2.foldl (fun acc raw =>
          let norm := normalizeParserNodeNameForGraph raw
          match aget acc norm with
          | none => aset acc norm entry.1
          | some existing => if entry.1 < existing then aset acc norm entry.1 else acc)
          acc) acc) from
    h m hm [] (by intro e he; simp at he)
  intro l
  induction l with
  | nil => exact fun _ acc h => h
  | cons e es ih =>
    intro hl acc hacc
    simp only [List.foldl_cons]
    refine ih (fun e' he' => hl e' (List.mem_cons_of_mem _ he')) _ ?_
    have hlabels : ∀ n ∈ e.2, NoSep n := hl e (by simp)
    revert hacc
    generalize acc = acc0
    have : ∀ (labels : List Str), (∀ n ∈ labels, NoSep n) →
        ∀ (acc1 : List (Str × Int)), KeysNoSep acc1 →
        KeysNoSep (labels.foldl (fun acc raw =>
          let norm := normalizeParserNodeNameForGraph raw
          match aget acc norm with
          | none => aset acc norm e.1
          | some existing => if e.1 < existing then aset acc norm e.1 else acc)
          acc1) := by
      intro labels
      induction labels with
      | nil => exact fun _ acc1 h => h
      | cons raw rs ihr =>
        intro hrs acc1 hacc1
        simp only [List.foldl_cons]
        refine ihr (fun n hn => hrs n (List.mem_cons_of_mem _ hn)) _ ?_
        have hraw : NoSep (normalizeParserNodeNameForGraph raw) :=
          noSep_normalize (hrs raw (by simp))
        split
        · intro x hx
          rcases mem_aset x hx with rfl | h
          · exact hraw
          · exact hacc1 x h
        · split
          · intro x hx
            rcases mem_aset x hx with rfl | h
            · exact hraw
            · exact hacc1 x h
          · exact hacc1
    exact this e.2 hlabels acc0

theorem normalizedStepToNodes_noSep {minStep : List (Str × Int)}
    (hm : KeysNoSep minStep) : StepMapNoSep (normalizedStepToNodes minStep) := by
  unfold normalizedStepToNodes
  suffices h : ∀ (l : List (Str × Int)), KeysNoSep l →
      ∀ (acc : List (Int × List Str)), StepMapNoSep acc →
      StepMapNoSep (l.foldl (fun m e =>
        match aget m e.2 with
        | none => aset m e.2 (sadd [] e.1)
        | some s => aset m e.2 (sadd s e.1)) acc) from
    h minStep hm [] (by intro e he; simp at he)
  intro l
  induction l with
  | nil => exact fun _ acc h => h
  | cons e es ih =>
    intro hl acc hacc
    simp only [List.foldl_cons]
    refine ih (fun e' he' => hl e' (List.mem_cons_of_mem _ he')) _ ?_
    have he1 : NoSep e.1 := hl e (by simp)
    split
    · intro x hx
      rcases mem_aset x hx with rfl | h
      · intro n hn
        have hn' : n ∈ sadd [] e.1 := hn
        rcases mem_sadd.1 hn' with h' | rfl
        · simp at h'
        · exact he1
      · exact hacc x h
    · next s hs =>
      intro x hx
      rcases mem_aset x hx with rfl | h
      · intro n hn
        have hn' : n ∈ sadd s e.1 := hn
        rcases mem_sadd.1 hn' with h' | rfl
        · exact hacc _ (aget_mem hs) n h'
        · exact he1
      · exact hacc x h

theorem normalizedObsMap_keysNoSep {m : List (Str × List Str)}
    (hm : KeysNoSep m) : KeysNoSep (normalizedObsMap m) := by
  unfold normalizedObsMap
  suffices h : ∀ (l : List (Str × List Str)), KeysNoSep l →
      ∀ (acc : List (Str × List Str)), KeysNoSep acc →
      KeysNoSep (l.foldl (fun acc e =>
        let norm := normalizeParserNodeNameForGraph e.1
        match aget acc norm with
        | some existing => aset acc norm (existing ++ e.2)
        | none => aset acc norm e.2) acc) from
    h m hm [] (by intro e he; simp at he)
  intro l
  induction l with
  | nil => exact fun _ acc h => h
  | cons e es ih =>
    intro hl acc hacc
    simp only [List.foldl_cons]
    refine ih (fun e' he' => hl e' (List.mem_cons_of_mem _ he')) _ ?_
    have he1 : NoSep (normalizeParserNodeNameForGraph e.1) :=
      noSep_normalize (hl e (by simp))
    split <;>
      (intro x hx
       rcases mem_aset x hx with rfl | h
       · exact he1
       · exact hacc x h)

theorem chronoOf_noSep {data : List AgentObs}
    (hnode : ∀ o ∈ data, ∀ r, o.node = some r → NoSep r) :
    ∀ o ∈ chronoOf data, NoSep o.normalizedNodeName := by
  intro o ho
  unfold chronoOf obsChrono at ho
  rw [mem_jsSortBy] at ho
  obtain ⟨b, hb, hg⟩ := List.mem_filterMap.1 ho
  cases h1 : b.step with
  | none => rw [h1] at hg; cases hg
  | some st =>
    cases h2 : getEffectiveRawNodeName (fmapOf data) b with
    | none => rw [h1, h2] at hg; cases hg
    | some raw =>
      rw [h1, h2] at hg
      dsimp only at hg
      split at hg
      · cases hg
      · split at hg
        · cases hg
        · cases hg
          exact noSep_normalize (noSep_eff hnode b hb raw h2)

theorem turnsOf_noSep {data : List AgentObs}
    (hnode : ∀ o ∈ data, ∀ r, o.node = some r → NoSep r) :
    ∀ t ∈ turnsOf data, NoSep t.nodeName := by
  intro t ht
  unfold turnsOf sessionTurnsOf at ht
  rw [mem_jsSortBy] at ht
  obtain ⟨o, ho, hg⟩ := List.mem_filterMap.1 ht
  split at hg
  · cases hg
    exact chronoOf_noSep hnode o ho
  · cases hg

/-! ## Invariants of the edge-key set -/

/-- A well-formed edge key: a separator-free source and target joined by `→`,
satisfying every `addEdge` guard. -/
def GoodKey (key : Str) : Prop :=
  ∃ f t, key = f ++ '→' :: t ∧ NoSep f ∧ NoSep t ∧ f ≠ [] ∧ t ≠ [] ∧ f ≠ t ∧
    t ≠ LANGFUSE_START_NODE_NAME ∧ f ≠ LANGFUSE_END_NODE_NAME ∧
    startsWith (cs "parser.") f = false

def GoodKeys (es : List Str) : Prop := ∀ k ∈ es, GoodKey k

theorem addEdge_goodKeys {es : List Str} {f t : Str} (hes : GoodKeys es)
    (hf : NoSep f) (ht : NoSep t) : GoodKeys (addEdge es f t) := by
  unfold addEdge
  split
  · exact hes
  · next h1 =>
    split
    · exact hes
    · next h2 =>
      split
      · exact hes
      · next h3 =>
        split
        · exact hes
        · next h4 =>
          intro k hk
          rcases mem_sadd.1 hk with h | rfl
          · exact hes k h
          · simp only [Bool.or_eq_true, decide_eq_true_eq, not_or] at h1
            refine ⟨f, t, rfl, hf, ht, h1.1.1, h1.1.2, h1.2, h2, h3, ?_⟩
            cases hsw : startsWith (cs "parser.") f with
            | false => rfl
            | true => exact absurd hsw h4

theorem goodKeys_filter {es : List Str} {p : Str → Bool} (hes : GoodKeys es) :
    GoodKeys (es.filter p) := fun k hk => hes k (List.mem_filter.1 hk).1

theorem foldl_goodKeys {β : Type} {g : List Str → β → List Str} {l : List β}
    (hstep : ∀ es b, b ∈ l → GoodKeys es → GoodKeys (g es b)) :
    ∀ {es : List Str}, GoodKeys es → GoodKeys (l.foldl g es) := by
  induction l with
  | nil => exact fun h => h
  | cons b bs ih =>
    intro es hes
    simp only [List.foldl_cons]
    exact ih (fun es' b' hb' => hstep es' b' (List.mem_cons_of_mem _ hb'))
      (hstep es b (by simp) hes)

/-- All forced-parent pairs are separator-free. -/
def ForcedNoSep (m : List (Str × Str)) : Prop := ∀ e ∈ m, NoSep e.1 ∧ NoSep e.2

/-- The constructed `<tool>.<index>` parent of a tool-result node keeps `NoSep`. -/
theorem noSep_toolParent {tool idxs nodeName : Str}
    (hseg : tool ∈ splitCh '.' nodeName ∧ idxs ∈ splitCh '.' nodeName)
    (hn : NoSep nodeName) : NoSep (tool ++ '.' :: idxs) := by
  intro hc
  rcases List.mem_append.1 hc with h | h
  · exact hn (splitCh_chars _ hseg.1 _ h)
  · rcases List.mem_cons.1 h with h' | h'
    · exact absurd h' (by decide)
    · exact hn (splitCh_chars _ hseg.2 _ h')

theorem forcedRule1_noSep {ne : Str → Bool} {forced : List (Str × Str)} {o : ChronoObs}
    {activeTurn : Option TurnInfo} {bound : Option Int} (h : ForcedNoSep forced)
    (ho : NoSep o.normalizedNodeName)
    (hturn : ∀ t, activeTurn = some t → NoSep t.nodeName) :
    ForcedNoSep (forcedRule1 ne forced o activeTurn bound) := by
  unfold forcedRule1
  cases hat : activeTurn with
  | none => exact h
  | some t =>
    dsimp only
    split
    · intro e he
      rcases mem_aset e he with rfl | h'
      · exact ⟨ho, hturn t hat⟩
      · exact h e h'
    · exact h

theorem forcedRule2_noSep {ne : Str → Bool} {forced : List (Str × Str)} {o : ChronoObs}
    (h : ForcedNoSep forced) (ho : NoSep o.normalizedNodeName) :
    ForcedNoSep (forcedRule2 ne forced o) := by
  unfold forcedRule2
  split
  · next tool idxs hm =>
    dsimp only
    split
    · intro e he
      rcases mem_aset e he with rfl | h'
      · exact ⟨ho, noSep_toolParent (matchToolResultUi_segs hm) ho⟩
      · exact h e h'
    · exact h
  · exact h

theorem forcedKernelUpd_noSep {ne : Str → Bool} {latest : Option Str} {o : ChronoObs}
    (h : ∀ k, latest = some k → NoSep k) (ho : NoSep o.normalizedNodeName) :
    ∀ k, forcedKernelUpd ne latest o = some k → NoSep k := by
  unfold forcedKernelUpd
  split
  · intro k hk
    cases hk
    exact ho
  · exact h

theorem forcedRule4_noSep {ne : Str → Bool} {forced : List (Str × Str)} {o : ChronoObs}
    {latest : Option Str} (h : ForcedNoSep forced) (ho : NoSep o.normalizedNodeName)
    (hlat : ∀ k, latest = some k → NoSep k) :
    ForcedNoSep (forcedRule4 ne forced o latest) := by
  unfold forcedRule4
  split
  · cases hl : latest with
    | none => exact h
    | some k =>
      dsimp only
      split
      · intro e he
        rcases mem_aset e he with rfl | h'
        · exact ⟨ho, hlat k hl⟩
        · exact h e h'
      · exact h
  · exact h

theorem forcedParentStep_noSep {turns : List TurnInfo} {ne : Str → Bool}
    {st : ForcedScanState} {o : ChronoObs}
    (hf : ForcedNoSep st.forced)
    (hlat : ∀ k, st.latestKernelNodeName = some k → NoSep k)
    (ho : NoSep o.normalizedNodeName) (hturns : ∀ t ∈ turns, NoSep t.nodeName) :
    ForcedNoSep (forcedParentStep turns ne st o).forced ∧
      ∀ k, (forcedParentStep turns ne st o).latestKernelNodeName = some k → NoSep k := by
  unfold forcedParentStep
  dsimp only
  constructor
  · refine forcedRule4_noSep (forcedRule2_noSep (forcedRule1_noSep hf ho ?_) ho) ho
      (forcedKernelUpd_noSep hlat ho)
    intro t ht
    exact hturns t (List.get?_mem ht)
  · exact forcedKernelUpd_noSep hlat ho

theorem forcedOf_noSep {data : List AgentObs}
    (hnode : ∀ o ∈ data, ∀ r, o.node = some r → NoSep r) :
    ForcedNoSep (forcedOf data) := by
  unfold forcedOf forcedParents
  have hchrono := chronoOf_noSep hnode
  have hturns := turnsOf_noSep hnode
  suffices h : ∀ (l : List ChronoObs), (∀ o ∈ l, NoSep o.normalizedNodeName) →
      ∀ (st : ForcedScanState), ForcedNoSep st.forced →
        (∀ k, st.latestKernelNodeName = some k → NoSep k) →
        ForcedNoSep (l.foldl (forcedParentStep (turnsOf data) (nodeExistsOf data)) st).forced by
    exact h (chronoOf data) hchrono _ (by intro e he; simp at he) (by intro k hk; cases hk)
  intro l
  induction l with
  | nil => exact fun _ st h _ => h
  | cons o os ih =>
    intro hl st hf hlat
    simp only [List.foldl_cons]
    obtain ⟨hf', hlat'⟩ := forcedParentStep_noSep hf hlat (hl o (by simp)) hturns
    exact ih (fun o' ho' => hl o' (List.mem_cons_of_mem _ ho')) _ hf' hlat'

/-- `latestKernelByTurn` values are separator-free. -/
def LKNoSep (m : List (Str × Str)) : Prop := ∀ e ∈ m, NoSep e.2

/-- Inner chain-map keys are separator-free. -/
def ByTurnNoSep (m : List (Str × List (Str × Int))) : Prop :=
  ∀ e ∈ m, ∀ p ∈ e.2, NoSep p.1

theorem byTurn0_noSep {turns : List TurnInfo} (h : ∀ t ∈ turns, NoSep t.nodeName) :
    ByTurnNoSep (byTurn0Of turns) := by
  unfold byTurn0Of
  suffices hh : ∀ (l : List TurnInfo), (∀ t ∈ l, NoSep t.nodeName) →
      ∀ (acc : List (Str × List (Str × Int))), ByTurnNoSep acc →
      ByTurnNoSep (l.foldl (fun m t => aset m t.nodeName [(t.nodeName, t.start)]) acc) from
    hh turns h [] (by intro e he; simp at he)
  intro l
  induction l with
  | nil => exact fun _ acc h => h
  | cons t ts ih =>
    intro hl acc hacc
    simp only [List.foldl_cons]
    refine ih (fun t' ht' => hl t' (List.mem_cons_of_mem _ ht')) _ ?_
    intro e he
    rcases mem_aset e he with rfl | h'
    · intro p hp
      have hp' : p ∈ [(t.nodeName, t.start)] := hp
      rcases List.mem_singleton.1 hp' with rfl
      exact hl t (by simp)
    · exact hacc e h'

theorem turnScanStep_noSep {turns : List TurnInfo} {ne : Str → Bool}
    {st : TurnScanState} {o : ChronoObs} (hbt : ByTurnNoSep st.byTurn)
    (hlk : LKNoSep st.latestKernelByTurn) (ho : NoSep o.normalizedNodeName) :
    ByTurnNoSep (turnScanStep turns ne st o).byTurn ∧
      LKNoSep (turnScanStep turns ne st o).latestKernelByTurn := by
  unfold turnScanStep turnScanGo
  split
  · exact ⟨hbt, hlk⟩
  · split
    · exact ⟨hbt, hlk⟩
    · constructor
      · unfold turnScanByTurnUpd
        split
        · split
          · next m hm =>
            split
            · intro e he
              rcases mem_aset e he with rfl | h'
              · intro p hp
                have hp' : p ∈ aset m o.normalizedNodeName o.startMs := hp
                rcases mem_aset p hp' with rfl | h''
                · exact ho
                · exact hbt _ (aget_mem hm) p h''
              · exact hbt e h'
            · exact hbt
          · exact hbt
        · exact hbt
      · unfold turnScanKernelUpd
        split
        · intro e he
          rcases mem_aset e he with rfl | h'
          · exact ho
          · exact hlk e h'
        · exact hlk

theorem turnScanOf_noSep {turns : List TurnInfo} {ne : Str → Bool}
    {chrono : List ChronoObs} (hturns : ∀ t ∈ turns, NoSep t.nodeName)
    (hchrono : ∀ o ∈ chrono, NoSep o.normalizedNodeName) :
    ByTurnNoSep (turnScanOf turns ne chrono).byTurn ∧
      LKNoSep (turnScanOf turns ne chrono).latestKernelByTurn := by
  unfold turnScanOf
  suffices h : ∀ (l : List ChronoObs), (∀ o ∈ l, NoSep o.normalizedNodeName) →
      ∀ (st : TurnScanState), ByTurnNoSep st.byTurn → LKNoSep st.latestKernelByTurn →
      ByTurnNoSep (l.foldl (turnScanStep turns ne) st).byTurn ∧
        LKNoSep (l.foldl (turnScanStep turns ne) st).latestKernelByTurn by
    exact h chrono hchrono _ (byTurn0_noSep hturns) (by intro e he; simp at he)
  intro l
  induction l with
  | nil => exact fun _ st h1 h2 => ⟨h1, h2⟩
  | cons o os ih =>
    intro hl st h1 h2
    simp only [List.foldl_cons]
    obtain ⟨h1', h2'⟩ := turnScanStep_noSep h1 h2 (hl o (by simp))
    exact ih (fun o' ho' => hl o' (List.mem_cons_of_mem _ ho')) _ h1' h2'

/-- All chain entries are separator-free. -/
def ChainsNoSep (chains : List (Str × List Str)) : Prop :=
  ∀ e ∈ chains, NoSep e.1 ∧ ∀ n ∈ e.2, NoSep n

theorem turnChainStep_noSep {BT : List (Str × List (Str × Int))}
    {acc : List (Str × List Str)} {t : TurnInfo} (hbt : ByTurnNoSep BT)
    (ht : NoSep t.nodeName) (hacc : ChainsNoSep acc) :
    ChainsNoSep (turnChainStep BT acc t) := by
  unfold turnChainStep
  split
  · exact hacc
  · next m hm =>
    have hchainEls : ∀ n ∈ (jsSortBy (fun a b => a.2 ≤ b.2) m).map Prod.fst, NoSep n := by
      intro n hn
      obtain ⟨p, hp, rfl⟩ := List.mem_map.1 hn
      exact hbt _ (aget_mem hm) p (mem_jsSortBy.1 hp)
    dsimp only
    split
    · intro e he
      rcases List.mem_append.1 he with h | h
      · exact hacc e h
      · rcases List.mem_singleton.1 h with rfl
        refine ⟨ht, ?_⟩
        intro n hn
        rcases List.mem_cons.1 hn with rfl | hn'
        · exact ht
        · exact hchainEls n (List.mem_filter.1 hn').1
    · intro e he
      rcases List.mem_append.1 he with h | h
      · exact hacc e h
      · rcases List.mem_singleton.1 h with rfl
        exact ⟨ht, hchainEls⟩

theorem chainsOf_noSep {turns : List TurnInfo} {ne : Str → Bool}
    {chrono : List ChronoObs} (hturns : ∀ t ∈ turns, NoSep t.nodeName)
    (hchrono : ∀ o ∈ chrono, NoSep o.normalizedNodeName) :
    ChainsNoSep (chainsOf turns ne chrono) := by
  unfold chainsOf turnChainsOf
  have hbt := (@turnScanOf_noSep turns ne chrono hturns hchrono).1
  suffices h : ∀ (l : List TurnInfo), (∀ t ∈ l, NoSep t.nodeName) →
      ∀ (acc : List (Str × List Str)), ChainsNoSep acc →
      ChainsNoSep (l.foldl (turnChainStep (turnScanOf turns ne chrono).byTurn) acc) from
    h turns hturns [] (by intro e he; simp at he)
  intro l
  induction l with
  | nil => exact fun _ acc h => h
  | cons t ts ih =>
    intro hl acc hacc
    simp only [List.foldl_cons]
    exact ih (fun t' ht' => hl t' (List.mem_cons_of_mem _ ht')) _
      (turnChainStep_noSep hbt (hl t (by simp)) hacc)

theorem mem_of_headOpt {l : List α} {a : α} (h : l.head? = some a) : a ∈ l := by
  cases l with
  | nil => cases h
  | cons x xs =>
    have hx : x = a := by simpa using h
    exact hx ▸ List.mem_cons_self x xs

theorem mem_of_getLastOpt {l : List α} {a : α} (h : l.getLast? = some a) : a ∈ l := by
  induction l with
  | nil => cases h
  | cons x xs ih =>
    cases xs with
    | nil =>
      have hx : x = a := by simpa [List.getLast?] using h
      exact hx ▸ List.mem_cons_self x []
    | cons y ys =>
      rw [List.getLast?_cons_cons] at h
      exact List.mem_cons_of_mem _ (ih h)

theorem parserAttachEdge_goodKeys {turns : List TurnInfo} {lk : List (Str × Str)}
    {nfs : List (Str × Int)} {ne : Str → Bool} {es : List Str} {nodeName : Str}
    (hlk : LKNoSep lk) (hn : NoSep nodeName) (hes : GoodKeys es) :
    GoodKeys (parserAttachEdge turns lk nfs ne es nodeName) := by
  unfold parserAttachEdge
  split
  · exact hes
  · split
    · next tool idxs hm =>
      dsimp only
      split
      · exact addEdge_goodKeys hes (noSep_toolParent (matchToolResultUi_segs hm) hn) hn
      · exact hes
    · split
      · next tool idxs hm =>
        dsimp only
        split
        · exact addEdge_goodKeys hes (noSep_toolParent (matchParserTurnTool_segs hm) hn) hn
        · exact hes
      · split
        · split
          · next k hk =>
            split
            · refine addEdge_goodKeys hes ?_ hn
              rcases Option.bind_eq_some.1 hk with ⟨tn, _, hget⟩
              exact hlk _ (aget_mem hget)
            · exact hes
          · exact hes
        · exact hes

theorem normODMOf_keysNoSep {data : List AgentObs}
    (hnode : ∀ o ∈ data, ∀ r, o.node = some r → NoSep r) :
    KeysNoSep (normODMOf data) := by
  unfold normODMOf nodeMapOf bucketsOf
  exact normalizedObsMap_keysNoSep
    (pruneNodeMap_keysNoSep (bucketize_noSep (noSep_eff hnode)).2)

theorem normStepMapOf_noSep {data : List AgentObs}
    (hnode : ∀ o ∈ data, ∀ r, o.node = some r → NoSep r) :
    StepMapNoSep (normStepMapOf data) := by
  unfold normStepMapOf stepMapOf bucketsOf prunedOf
  exact normalizedStepToNodes_noSep
    (normalizedMinStep_keysNoSep
      (pruneStepMap_noSep (bucketize_noSep (noSep_eff hnode)).1))


theorem noSep_START : NoSep LANGFUSE_START_NODE_NAME := by
  show '→' ∉ _
  decide

theorem noSep_END : NoSep LANGFUSE_END_NODE_NAME := by
  show '→' ∉ _
  decide

theorem noSep_traceStart : NoSep (cs "session.trace.start") := by
  show '→' ∉ _
  decide


theorem turnPathEdges_goodKeys {turns : List TurnInfo} {ne : Str → Bool}
    {chrono : List ChronoObs} {normODM : List (Str × List Str)}
    (hturns : ∀ t ∈ turns, NoSep t.nodeName)
    (hchrono : ∀ o ∈ chrono, NoSep o.normalizedNodeName)
    (hODM : KeysNoSep normODM) :
    GoodKeys (turnPathEdges turns ne chrono normODM) := by
  have hchains := @chainsOf_noSep turns ne chrono hturns hchrono
  have hlk := (@turnScanOf_noSep turns ne chrono hturns hchrono).2
  have hmemChain : ∀ p ∈ chainsOf turns ne chrono, ∀ n ∈ p.2, NoSep n :=
    fun p hp => (hchains p hp).2
  have he1 : GoodKeys ((chainsOf turns ne chrono).foldl
      (fun es p => (p.2.zip p.2.tail).foldl (fun es q => addEdge es q.1 q.2) es) []) := by
    refine foldl_goodKeys ?_ (by intro k hk; cases hk)
    intro es p hp hes
    refine foldl_goodKeys ?_ hes
    intro es' q hq hes'
    obtain ⟨hq1, hq2⟩ := List.of_mem_zip hq
    exact addEdge_goodKeys hes' (hmemChain p hp q.1 hq1)
      (hmemChain p hp q.2 (List.mem_of_mem_tail hq2))
  have he2 : GoodKeys
      (((chainsOf turns ne chrono).zip (chainsOf turns ne chrono).tail).foldl
        (fun es pq =>
          match pq.1.2.getLast? with
          | some l => addEdge es l pq.2.1
          | none => es)
        ((chainsOf turns ne chrono).foldl
          (fun es p => (p.2.zip p.2.tail).foldl (fun es q => addEdge es q.1 q.2) es) [])) := by
    refine foldl_goodKeys ?_ he1
    intro es pq hpq hes
    obtain ⟨hp1, hp2⟩ := List.of_mem_zip hpq
    cases hgl : pq.1.2.getLast? with
    | none => exact hes
    | some l =>
      refine addEdge_goodKeys hes (hmemChain pq.1 hp1 l (mem_of_getLastOpt hgl)) ?_
      exact (hchains pq.2 (List.mem_of_mem_tail hp2)).1
  have he3 : GoodKeys ((akeys normODM).foldl
      (fun es nodeName =>
        parserAttachEdge turns (turnScanOf turns ne chrono).latestKernelByTurn
          (nodeFirstStartOf chrono) ne es nodeName)
      (((chainsOf turns ne chrono).zip (chainsOf turns ne chrono).tail).foldl
        (fun es pq =>
          match pq.1.2.getLast? with
          | some l => addEdge es l pq.2.1
          | none => es)
        ((chainsOf turns ne chrono).foldl
          (fun es p => (p.2.zip p.2.tail).foldl (fun es q => addEdge es q.1 q.2) es) []))) := by
    refine foldl_goodKeys ?_ he2
    intro es n hn hes
    refine parserAttachEdge_goodKeys hlk ?_ hes
    obtain ⟨e, he, rfl⟩ := List.mem_map.1 hn
    exact hODM e he
  have hfm : ∀ x,
      ((chainsOf turns ne chrono).find? (fun t => t.2 ≠ [])).bind
        (fun t => t.2.head?) = some x → NoSep x := by
    intro x hx
    rcases Option.bind_eq_some.1 hx with ⟨t, ht, hh⟩
    exact hmemChain t (List.mem_of_find?_eq_some ht) x (mem_of_headOpt hh)
  have hlm : ∀ x, lastMainNodeOf turns ne chrono = some x → NoSep x := by
    intro x hx
    unfold lastMainNodeOf at hx
    rcases Option.bind_eq_some.1 hx with ⟨t, ht, hh⟩
    have hmem := List.mem_of_find?_eq_some ht
    rw [List.mem_reverse] at hmem
    exact hmemChain t hmem x (mem_of_getLastOpt hh)
  unfold turnPathEdges
  dsimp only
  cases h1 : (if ne (cs "session.trace.start") = true then
      some (cs "session.trace.start") else none) with
  | some ts =>
    have hts : NoSep ts := by
      split at h1
      · cases h1
        exact noSep_traceStart
      · cases h1
    cases h2 : ((chainsOf turns ne chrono).find? (fun t => t.2 ≠ [])).bind
        (fun t => t.2.head?) with
    | some f =>
      have hf := hfm f h2
      dsimp only
      have he4 := addEdge_goodKeys he3 noSep_START hts
      have he5 : GoodKeys (if ts ≠ f then
          addEdge (addEdge ((akeys normODM).foldl
            (fun es nodeName =>
              parserAttachEdge turns (turnScanOf turns ne chrono).latestKernelByTurn
                (nodeFirstStartOf chrono) ne es nodeName)
            (((chainsOf turns ne chrono).zip (chainsOf turns ne chrono).tail).foldl
              (fun es pq =>
                match pq.1.2.getLast? with
                | some l => addEdge es l pq.2.1
                | none => es)
              ((chainsOf turns ne chrono).foldl
                (fun es p =>
                  (p.2.zip p.2.tail).foldl (fun es q => addEdge es q.1 q.2) es) [])))
            LANGFUSE_START_NODE_NAME ts) ts f
          else addEdge ((akeys normODM).foldl
            (fun es nodeName =>
              parserAttachEdge turns (turnScanOf turns ne chrono).latestKernelByTurn
                (nodeFirstStartOf chrono) ne es nodeName)
            (((chainsOf turns ne chrono).zip (chainsOf turns ne chrono).tail).foldl
              (fun es pq =>
                match pq.1.2.getLast? with
                | some l => addEdge es l pq.2.1
                | none => es)
              ((chainsOf turns ne chrono).foldl
                (fun es p =>
                  (p.2.zip p.2.tail).foldl (fun es q => addEdge es q.1 q.2) es) [])))
            LANGFUSE_START_NODE_NAME ts) := by
        split
        · exact addEdge_goodKeys he4 hts hf
        · exact he4
      cases h3 : lastMainNodeOf turns ne chrono with
      | some l =>
        exact goodKeys_filter (addEdge_goodKeys he5 (hlm l h3) noSep_END)
      | none => exact he5
    | none =>
      dsimp only
      have he4 := addEdge_goodKeys he3 noSep_START hts
      cases h3 : lastMainNodeOf turns ne chrono with
      | some l =>
        exact goodKeys_filter (addEdge_goodKeys he4 (hlm l h3) noSep_END)
      | none => exact he4
  | none =>
    cases h2 : ((chainsOf turns ne chrono).find? (fun t => t.2 ≠ [])).bind
        (fun t => t.2.head?) with
    | some f =>
      dsimp only
      have he4 := addEdge_goodKeys he3 noSep_START (hfm f h2)
      cases h3 : lastMainNodeOf turns ne chrono with
      | some l =>
        exact goodKeys_filter (addEdge_goodKeys he4 (hlm l h3) noSep_END)
      | none => exact he4
    | none =>
      dsimp only
      cases h3 : lastMainNodeOf turns ne chrono with
      | some l =>
        exact goodKeys_filter (addEdge_goodKeys he3 (hlm l h3) noSep_END)
      | none => exact he3

theorem snd_mem_of_mem_enumFrom {l : List α} :
    ∀ {n : Nat} {p : Nat × α}, p ∈ l.enumFrom n → p.2 ∈ l := by
  induction l with
  | nil =>
    intro n p h
    cases h
  | cons x xs ih =>
    intro n p h
    simp only [List.enumFrom] at h
    rcases List.mem_cons.1 h with rfl | h'
    · exact List.mem_cons_self _ _
    · exact List.mem_cons_of_mem _ (ih h')

/-- Every edge produced by the fallback generator joins two separator-free
node names, provided the sorted step map holds only separator-free names. -/
theorem genEdges_noSep {sorted : List (Int × List Str)} (hs : StepMapNoSep sorted) :
    ∀ p ∈ genEdges sorted, NoSep p.1 ∧ NoSep p.2 := by
  unfold genEdges
  have htgt : ∀ (i : Nat) (t : Str),
      t ∈ (if i = sorted.length - 1 then [LANGFUSE_END_NODE_NAME]
        else ((sorted.get? (i + 1)).map (fun e => e.2)).getD []) → NoSep t := by
    intro i t ht
    split at ht
    · rcases List.mem_singleton.1 ht with rfl
      exact noSep_END
    · cases hget : sorted.get? (i + 1) with
      | none =>
        rw [hget] at ht
        cases ht
      | some e =>
        rw [hget] at ht
        exact hs e (List.get?_mem hget) t ht
  suffices h : ∀ (l : List (Nat × (Int × List Str))),
      (∀ q ∈ l, ∀ n ∈ q.2.2, NoSep n) →
      ∀ (acc : List (Str × Str)), (∀ p ∈ acc, NoSep p.1 ∧ NoSep p.2) →
      ∀ p ∈ l.foldl
        (fun acc p =>
          let targets :=
            if p.1 = sorted.length - 1 then [LANGFUSE_END_NODE_NAME]
            else ((sorted.get? (p.1 + 1)).map (fun e => e.2)).getD []
          p.2.2.foldl
            (fun acc2 cur =>
              if cur = LANGFUSE_END_NODE_NAME then acc2
              else acc2 ++ targets.filterMap
                (fun t => if cur ≠ t then some (cur, t) else none))
            acc)
        acc, NoSep p.1 ∧ NoSep p.2 by
    refine h sorted.enum ?_ [] (by intro p hp; cases hp)
    intro q hq
    exact hs q.2 (snd_mem_of_mem_enumFrom hq)
  intro l
  induction l with
  | nil => exact fun _ acc hacc => hacc
  | cons q qs ih =>
    intro hl acc hacc
    simp only [List.foldl_cons]
    refine ih (fun q' hq' => hl q' (List.mem_cons_of_mem _ hq')) _ ?_
    dsimp only
    have hq := hl q (by simp)
    suffices hin : ∀ (inner : List Str), (∀ n ∈ inner, NoSep n) →
        ∀ (acc2 : List (Str × Str)), (∀ p ∈ acc2, NoSep p.1 ∧ NoSep p.2) →
        ∀ p ∈ inner.foldl
          (fun acc2 cur =>
            if cur = LANGFUSE_END_NODE_NAME then acc2
            else acc2 ++ (if q.1 = sorted.length - 1 then [LANGFUSE_END_NODE_NAME]
              else ((sorted.get? (q.1 + 1)).map (fun e => e.2)).getD []).filterMap
                (fun t => if cur ≠ t then some (cur, t) else none))
          acc2, NoSep p.1 ∧ NoSep p.2 from hin q.2.2 hq acc hacc
    intro inner
    induction inner with
    | nil => exact fun _ acc2 hacc2 => hacc2
    | cons cur rest ihn =>
      intro hinner acc2 hacc2
      simp only [List.foldl_cons]
      refine ihn (fun n hn => hinner n (List.mem_cons_of_mem _ hn)) _ ?_
      split
      · exact hacc2
      · intro p hp
        rcases List.mem_append.1 hp with hp' | hp'
        · exact hacc2 p hp'
        · rcases List.mem_filterMap.1 hp' with ⟨t, ht, hf⟩
          have hcur : NoSep cur := hinner cur (by simp)
          have ht' : NoSep t := htgt q.1 t ht
          split at hf
          · cases hf
            exact ⟨hcur, ht'⟩
          · cases hf

/-- Every deduplicated edge key of either path is well-formed, provided every
raw node label of the input is free of the `→` key separator. -/
theorem edgeKeysOf_goodKeys {data : List AgentObs}
    (hnode : ∀ o ∈ data, ∀ r, o.node = some r → NoSep r) :
    GoodKeys (edgeKeysOf data) := by
  unfold edgeKeysOf
  split
  · exact turnPathEdges_goodKeys (turnsOf_noSep hnode) (chronoOf_noSep hnode)
      (normODMOf_keysNoSep hnode)
  · dsimp only
    have hsorted : StepMapNoSep (jsSortBy (fun a b => a.1 ≤ b.1) (normStepMapOf data)) :=
      fun e he => normStepMapOf_noSep hnode e (mem_jsSortBy.1 he)
    have hgen := genEdges_noSep hsorted
    have hforced := forcedOf_noSep hnode
    refine foldl_goodKeys ?_ (foldl_goodKeys ?_ (by intro k hk; cases hk))
    · intro es b hb hes
      exact addEdge_goodKeys hes (hforced b hb).2 (hforced b hb).1
    · intro es p hp hes
      exact addEdge_goodKeys hes (hgen p hp).1 (hgen p hp).2

/--
**C3 (amended)** — for every input collection whose raw node labels are free of
the `→` character used as the edge-key separator, every edge of
`buildGraphFromStepData` — on both the turn-chain path and the step-based
fallback path — has distinct endpoints, never targets the synthetic start node,
is never sourced at the synthetic end node, and is never sourced at a node
whose identity begins with the `parser.` prefix. (The unconditional claim is
refuted by the counterexample above: a label containing `→` breaks the
`from→to` key decoding.)
-/
theorem claim_C3_amended (data : List AgentObs)
    (hnode : ∀ o ∈ data, ∀ r, o.node = some r → '→' ∉ r) :
    ∀ e ∈ (buildGraphFromStepData data).edges,
      e.efrom ≠ e.eto ∧ e.eto ≠ LANGFUSE_START_NODE_NAME ∧
        e.efrom ≠ LANGFUSE_END_NODE_NAME ∧
        startsWith (cs "parser.") e.efrom = false := by
  intro e he
  by_cases hd : data = []
  · subst hd
    simp [buildGraphFromStepData] at he
  · rw [buildGraph_edges_eq hd] at he
    obtain ⟨k, hk, rfl⟩ := List.mem_map.1 he
    obtain ⟨f, t, rfl, hf, ht, hfnil, htnil, hfnt, htS, hfE, hpref⟩ :=
      edgeKeysOf_goodKeys hnode k hk
    have hsf : splitCh '→' (f ++ '→' :: t) = [f, t] := by
      rw [splitCh_append t (fun c hc hceq => hf (by rw [hceq] at hc; exact hc)),
        splitCh_no_sep (fun c hc hceq => ht (by rw [hceq] at hc; exact hc))]
    unfold decodeEdge
    rw [hsf]
    exact ⟨hfnt, htS, hfE, hpref⟩

def dataC3W : List AgentObs :=
  [ { id := cs "m1", name := cs "alpha", node := some (cs "alpha"), step := some 1,
      parentObservationId := none, startTime := 0, endTime := some 1,
      observationType := cs "TOOL", level := none, statusMessage := none },
    { id := cs "m2", name := cs "beta", node := some (cs "beta"), step := some 2,
      parentObservationId := none, startTime := 10, endTime := some 11,
      observationType := cs "TOOL", level := none, statusMessage := none } ]

/-- **C3 witness** — the amended theorem applied to a concrete two-step
collection with separator-free labels. -/
theorem claim_C3_amended_witness :
    (∀ o ∈ dataC3W, ∀ r, o.node = some r → '→' ∉ r) ∧
      ∀ e ∈ (buildGraphFromStepData dataC3W).edges,
        e.efrom ≠ e.eto ∧ e.eto ≠ LANGFUSE_START_NODE_NAME ∧
          e.efrom ≠ LANGFUSE_END_NODE_NAME ∧
          startsWith (cs "parser.") e.efrom = false :=
  ⟨by decide, claim_C3_amended dataC3W (by decide)⟩

/-! ## Container pruning: membership and deletion lemmas (claim C5) -/

theorem foldl_pres {β α : Type} {P : β → Prop} {step : β → α → β}
    (hpres : ∀ acc a, P acc → P (step acc a)) :
    ∀ (l : List α) (acc : β), P acc → P (l.foldl step acc) := by
  intro l
  induction l with
  | nil => exact fun acc h => h
  | cons a as ih =>
    intro acc h
    simp only [List.foldl_cons]
    exact ih _ (hpres acc a h)

theorem foldl_estab {β α : Type} {P : β → Prop} {step : β → α → β}
    (hpres : ∀ acc a, P acc → P (step acc a)) {x : α}
    (hest : ∀ acc, P (step acc x)) :
    ∀ (l : List α), x ∈ l → ∀ (acc : β), P (l.foldl step acc) := by
  intro l
  induction l with
  | nil =>
    intro hx
    cases hx
  | cons a as ih =>
    intro hx acc
    simp only [List.foldl_cons]
    rcases List.mem_cons.1 hx with rfl | hx'
    · exact foldl_pres hpres as _ (hest acc)
    · exact ih hx' _

/-- The container classifier applied inside `getRedundantParserNodes` (suffix
empty or a single plural/singular tool kind; `structured_output` excluded). -/
def codeContainer (n : Str) : Bool :=
  match parseParserNodeName n with
  | none => false
  | some parsed =>
    !(decide (parsed.suffixSegments ≠ [])) ||
      List.intercalate [ '.' ] parsed.suffixSegments = cs "tool_calls" ||
      List.intercalate [ '.' ] parsed.suffixSegments = cs "tool_results" ||
      List.intercalate [ '.' ] parsed.suffixSegments = cs "tool_call" ||
      List.intercalate [ '.' ] parsed.suffixSegments = cs "tool_result"

theorem grpStep_pres {parsed : ParserNodeParts} {info : Str × Str × Bool}
    {acc : List (Nat × List (Str × Str × Bool))} {nodeName : Str}
    (h : ∃ l, aget acc parsed.turn = some l ∧ info ∈ l) :
    ∃ l, aget (grpStep acc nodeName) parsed.turn = some l ∧ info ∈ l := by
  obtain ⟨l, hl, hil⟩ := h
  unfold grpStep
  cases hp : parseParserNodeName nodeName with
  | none => exact ⟨l, hl, hil⟩
  | some parsed' =>
    dsimp only
    by_cases ht : parsed'.turn = parsed.turn
    · rw [ht, hl]
      refine ⟨l ++ [(nodeName, List.intercalate [ '.' ] parsed'.suffixSegments,
        decide (parsed'.suffixSegments ≠ []))], ?_, List.mem_append_left _ hil⟩
      show aget (aset acc parsed.turn _) parsed.turn = _
      rw [aget_aset_self]
    · cases hg : aget acc parsed'.turn with
      | none =>
        refine ⟨l, ?_, hil⟩
        rw [aget_aset_ne _ (fun he => ht he.symm)]
        exact hl
      | some l' =>
        refine ⟨l, ?_, hil⟩
        rw [aget_aset_ne _ (fun he => ht he.symm)]
        exact hl

theorem grpStep_estab {parsed : ParserNodeParts} {n : Str}
    (hp : parseParserNodeName n = some parsed) :
    ∀ acc, ∃ l, aget (grpStep acc n) parsed.turn = some l ∧
      (n, List.intercalate [ '.' ] parsed.suffixSegments,
        decide (parsed.suffixSegments ≠ [])) ∈ l := by
  intro acc
  unfold grpStep
  rw [hp]
  dsimp only
  cases hg : aget acc parsed.turn with
  | none =>
    exact ⟨_, aget_aset_self _ _ _, by simp⟩
  | some l =>
    exact ⟨_, aget_aset_self _ _ _, by simp⟩

theorem grpFold_has {stepMap : List (Int × List Str)} {n : Str}
    {parsed : ParserNodeParts} (hp : parseParserNodeName n = some parsed)
    (hmem : ∃ e ∈ stepMap, n ∈ e.2) :
    ∃ l, aget (grpFold stepMap) parsed.turn = some l ∧
      (n, List.intercalate [ '.' ] parsed.suffixSegments,
        decide (parsed.suffixSegments ≠ [])) ∈ l := by
  obtain ⟨e0, he0, hn0⟩ := hmem
  unfold grpFold
  refine @foldl_estab (List (Nat × List (Str × Str × Bool))) (Int × List Str)
    (fun acc => ∃ l, aget acc parsed.turn = some l ∧
      (n, List.intercalate [ '.' ] parsed.suffixSegments,
        decide (parsed.suffixSegments ≠ [])) ∈ l)
    (fun acc entry => entry.2.foldl grpStep acc) ?_ e0 ?_ stepMap he0 []
  · intro acc e h
    obtain ⟨l, h1, h2⟩ := h
    refine @foldl_pres (List (Nat × List (Str × Str × Bool))) Str
      (fun acc => ∃ l, aget acc parsed.turn = some l ∧
        (n, List.intercalate [ '.' ] parsed.suffixSegments,
          decide (parsed.suffixSegments ≠ [])) ∈ l)
      grpStep ?_ e.2 acc ⟨l, h1, h2⟩
    intro acc' nm h'
    exact grpStep_pres h'
  · intro acc
    refine @foldl_estab (List (Nat × List (Str × Str × Bool))) Str
      (fun acc => ∃ l, aget acc parsed.turn = some l ∧
        (n, List.intercalate [ '.' ] parsed.suffixSegments,
          decide (parsed.suffixSegments ≠ [])) ∈ l)
      grpStep ?_ n (grpStep_estab hp) e0.2 hn0 acc
    intro acc' nm h'
    exact grpStep_pres h'

/-- Every step-bucketed label that the code classifies as a container is
collected into the pruned set. -/
theorem mem_getRedundantParserNodes {stepMap : List (Int × List Str)} {n : Str}
    (hmem : ∃ e ∈ stepMap, n ∈ e.2) (hc : codeContainer n = true) :
    n ∈ getRedundantParserNodes stepMap := by
  unfold codeContainer at hc
  cases hp : parseParserNodeName n with
  | none =>
    rw [hp] at hc
    cases hc
  | some parsed =>
    rw [hp] at hc
    dsimp only at hc
    obtain ⟨l, hl, hil⟩ := grpFold_has hp hmem
    unfold getRedundantParserNodes
    refine @foldl_estab (List Str) (Nat × List (Str × Str × Bool))
      (fun pruned => n ∈ pruned)
      (fun pruned entry => entry.2.foldl prunedStep pruned) ?_ (parsed.turn, l) ?_
      (grpFold stepMap) (aget_mem hl) []
    · intro acc e h
      refine @foldl_pres (List Str) (Str × Str × Bool) (fun pruned => n ∈ pruned)
        prunedStep ?_ e.2 acc h
      intro acc' i h'
      unfold prunedStep
      dsimp only
      split
      · exact mem_sadd.2 (Or.inl h')
      · exact h'
    · intro acc
      refine @foldl_estab (List Str) (Str × Str × Bool) (fun pruned => n ∈ pruned)
        prunedStep ?_ _ ?_ l hil acc
      · intro acc' i h'
        unfold prunedStep
        dsimp only
        split
        · exact mem_sadd.2 (Or.inl h')
        · exact h'
      · intro acc'
        unfold prunedStep
        dsimp only
        rw [if_pos hc]
        exact mem_sadd.2 (Or.inr rfl)

theorem ahas_true_of_mem [DecidableEq κ] {m : List (κ × ν)} {k : κ} {v : ν}
    (h : (k, v) ∈ m) : ahas m k = true := by
  induction m with
  | nil => cases h
  | cons e rest ih =>
    obtain ⟨k', v'⟩ := e
    rcases List.mem_cons.1 h with he | he
    · cases he
      simp [ahas, aget]
    · unfold ahas aget
      split
    
      · rfl
      · exact ih he

theorem mem_foldl_adel [DecidableEq κ] {l : List κ} :
    ∀ {m : List (κ × ν)} {e : κ × ν}, e ∈ l.foldl adel m → e ∈ m := by
  induction l with
  | nil => exact fun h => h
  | cons a as ih =>
    intro m e h
    simp only [List.foldl_cons] at h
    exact mem_adel e (ih h)

theorem ahas_false_of_no_key [DecidableEq κ] {m : List (κ × ν)} {k : κ}
    (h : ∀ e ∈ m, e.1 ≠ k) : ahas m k = false := by
  induction m with
  | nil => rfl
  | cons e rest ih =>
    unfold ahas aget
    split
    · next heq =>
      exact absurd heq (h e (by simp))
    · exact ih (fun e' he' => h e' (List.mem_cons_of_mem _ he'))

theorem foldl_adel_removes [DecidableEq κ] {l : List κ} {k : κ} (hk : k ∈ l) :
    ∀ (m : List (κ × ν)), ahas (l.foldl adel m) k = false := by
  induction l with
  | nil => cases hk
  | cons a as ih =>
    intro m
    simp only [List.foldl_cons]
    rcases List.mem_cons.1 hk with rfl | hk'
    · refine ahas_false_of_no_key ?_
      intro e he
      have he' : e ∈ adel m k := mem_foldl_adel he
      have := List.mem_filter.1 he'
      simpa using this.2
    · exact ih hk' _

/-- A key that survives `pruneNodeMap` was a key of the raw map and is not in
the pruned set. -/
theorem pruneNodeMap_key_inv {pruned : List Str} {m : List (Str × List Str)}
    {e : Str × List Str} (h : e ∈ pruneNodeMap pruned m) : e ∈ m ∧ e.1 ∉ pruned := by
  unfold pruneNodeMap at h
  split at h
  · next hp => exact ⟨h, by rw [hp]; intro hc; cases hc⟩
  · refine ⟨mem_foldl_adel h, ?_⟩
    intro hc
    have := foldl_adel_removes hc m
    rw [ahas_true_of_mem h] at this
    cases this

theorem pruneNodeMap_removes {pruned : List Str} {m : List (Str × List Str)}
    {k : Str} (hk : k ∈ pruned) : ahas (pruneNodeMap pruned m) k = false := by
  unfold pruneNodeMap
  split
  · next hp =>
    rw [hp] at hk
    cases hk
  · exact foldl_adel_removes hk m


/-- Under the all-steps-present hypothesis, every key of the raw
`nodeToObservationsMap` occurs in some step bucket. -/
theorem bucket_node_key_in_step {fmap : List (Str × Str)} {data : List AgentObs}
    (hstep : ∀ o ∈ data, o.step ≠ none) :
    ∀ e ∈ (bucketize fmap data).2, ∃ b : Int × List Str,
      aget (bucketize fmap data).1 b.1 = some b.2 ∧ e.1 ∈ b.2 := by
  unfold bucketize
  suffices h : ∀ (l : List AgentObs), (∀ o ∈ l, o.step ≠ none) →
      ∀ (acc : List (Int × List Str) × List (Str × List Str)),
      (∀ e ∈ acc.2, ∃ b : Int × List Str, aget acc.1 b.1 = some b.2 ∧ e.1 ∈ b.2) →
      ∀ e ∈ (l.foldl (bucketStep fmap) acc).2,
        ∃ b : Int × List Str, aget (l.foldl (bucketStep fmap) acc).1 b.1 = some b.2 ∧
          e.1 ∈ b.2 by
    exact h data hstep ([], []) (by intro e he; cases he)
  intro l
  induction l with
  | nil => exact fun _ acc h => h
  | cons o os ih =>
    intro hl acc hacc
    simp only [List.foldl_cons]
    refine ih (fun o' ho' => hl o' (List.mem_cons_of_mem _ ho')) _ ?_
    unfold bucketStep
    intro e he
    dsimp only at he ⊢
    cases hnd : getEffectiveRawNodeName fmap o with
    | none =>
      rw [hnd] at he
      unfold bucketNodeMapUpd at he
      dsimp only at he
      obtain ⟨b, hb, hbe⟩ := hacc e he
      refine ⟨b, ?_, hbe⟩
      cases o.step with
      | none => exact hb
      | some st => exact hb
    | some nd =>
      rw [hnd] at he
      cases hos : o.step with
      | none => exact absurd hos (hl o (by simp))
      | some st =>
        have hupd : ∀ (b : Int × List Str), aget acc.1 b.1 = some b.2 →
            ∃ b' : Int × List Str,
              aget (bucketStepMapUpd acc.1 (some st) (some nd)) b'.1 = some b'.2 ∧
                ∀ x ∈ b.2, x ∈ b'.2 := by
          intro b hb
          unfold bucketStepMapUpd
          dsimp only
          by_cases hbst : b.1 = st
          · rw [hbst] at hb
            rw [hb]
            refine ⟨(st, sadd b.2 nd), ?_, ?_⟩
            · exact aget_aset_self _ _ _
            · intro x hx
              exact mem_sadd.2 (Or.inl hx)
          · cases hg : aget acc.1 st with
            | none =>
              refine ⟨b, ?_, fun x hx => hx⟩
              show aget (aset acc.1 st (sadd [] nd)) b.1 = some b.2
              rw [aget_aset_ne _ hbst]
              exact hb
            | some s =>
              refine ⟨b, ?_, fun x hx => hx⟩
              show aget (aset acc.1 st (sadd s nd)) b.1 = some b.2
              rw [aget_aset_ne _ hbst]
              exact hb
        have hnew : ∃ b' : Int × List Str,
            aget (bucketStepMapUpd acc.1 (some st) (some nd)) b'.1 = some b'.2 ∧
              nd ∈ b'.2 := by
          unfold bucketStepMapUpd
          dsimp only
          cases hg : aget acc.1 st with
          | none =>
            refine ⟨(st, sadd [] nd), ?_, ?_⟩
            · exact aget_aset_self _ _ _
            · show nd ∈ sadd [] nd
              exact mem_sadd.2 (Or.inr rfl)
          | some s =>
            refine ⟨(st, sadd s nd), ?_, ?_⟩
            · exact aget_aset_self _ _ _
            · show nd ∈ sadd s nd
              exact mem_sadd.2 (Or.inr rfl)
        unfold bucketNodeMapUpd at he
        dsimp only at he
        split at he
        · obtain ⟨b, hb, hbe⟩ := hacc e he
          obtain ⟨b', hb', hsub⟩ := hupd b hb
          exact ⟨b', hb', hsub _ hbe⟩
        · split at he
          · rcases mem_aset e he with rfl | he'
            · exact hnew
            · obtain ⟨b, hb, hbe⟩ := hacc e he'
              obtain ⟨b', hb', hsub⟩ := hupd b hb
              exact ⟨b', hb', hsub _ hbe⟩
          · rcases mem_aset e he with rfl | he'
            · exact hnew
            · obtain ⟨b, hb, hbe⟩ := hacc e he'
              obtain ⟨b', hb', hsub⟩ := hupd b hb
              exact ⟨b', hb', hsub _ hbe⟩

/-- A surviving key of the pruned node map is never container-classified,
provided every record carries a step. -/
theorem surviving_key_not_container {data : List AgentObs}
    (hstep : ∀ o ∈ data, o.step ≠ none) {e : Str × List Str}
    (he : e ∈ nodeMapOf data) : codeContainer e.1 = false := by
  by_contra hc
  rw [Bool.not_eq_false] at hc
  unfold nodeMapOf at he
  obtain ⟨hraw, hnp⟩ := pruneNodeMap_key_inv he
  unfold bucketsOf at hraw
  obtain ⟨b, hb, hbe⟩ := bucket_node_key_in_step hstep e hraw
  refine hnp ?_
  unfold prunedOf bucketsOf
  exact mem_getRedundantParserNodes ⟨b, aget_mem hb, hbe⟩ hc

/-- Every key of the merged observation map is the normalized name of some key
of the input map. -/
theorem normalizedObsMap_key_src {m : List (Str × List Str)} :
    ∀ e ∈ normalizedObsMap m, ∃ k0 ∈ m, e.1 = normalizeParserNodeNameForGraph k0.1 := by
  unfold normalizedObsMap
  suffices h : ∀ (l : List (Str × List Str)), (∀ x ∈ l, x ∈ m) →
      ∀ (acc : List (Str × List Str)),
      (∀ e ∈ acc, ∃ k0 ∈ m, e.1 = normalizeParserNodeNameForGraph k0.1) →
      ∀ e ∈ l.foldl
        (fun acc e =>
          match aget acc (normalizeParserNodeNameForGraph e.1) with
          | some existing => aset acc (normalizeParserNodeNameForGraph e.1) (existing ++ e.2)
          | none => aset acc (normalizeParserNodeNameForGraph e.1) e.2)
        acc, ∃ k0 ∈ m, e.1 = normalizeParserNodeNameForGraph k0.1 by
    exact h m (fun x hx => hx) [] (by intro e he; cases he)
  intro l
  induction l with
  | nil => exact fun _ acc h => h
  | cons x xs ih =>
    intro hl acc hacc
    simp only [List.foldl_cons]
    refine ih (fun x' hx' => hl x' (List.mem_cons_of_mem _ hx')) _ ?_
    intro e he
    have hx : x ∈ m := hl x (by simp)
    cases hg : aget acc (normalizeParserNodeNameForGraph x.1) with
    | some existing =>
      rw [hg] at he
      dsimp only at he
      rcases mem_aset e he with rfl | he'
      · exact ⟨x, hx, rfl⟩
      · exact hacc e he'
    | none =>
      rw [hg] at he
      dsimp only at he
      rcases mem_aset e he with rfl | he'
      · exact ⟨x, hx, rfl⟩
      · exact hacc e he'

/-- Segments produced by `splitCh` never contain the separator. -/
theorem sep_not_mem_splitCh {sep : Char} :
    ∀ {s : Str}, ∀ seg ∈ splitCh sep s, sep ∉ seg := by
  intro s
  induction s with
  | nil =>
    intro seg hseg
    rcases List.mem_singleton.1 hseg with rfl
    intro h
    cases h
  | cons c rest ih =>
    intro seg hseg
    rw [splitCh_cons] at hseg
    cases hr : splitCh sep rest with
    | nil =>
      rw [hr] at hseg
      rcases List.mem_singleton.1 hseg with rfl
      intro h
      cases h
    | cons r rs =>
      rw [hr] at hseg
      dsimp only at hseg
      by_cases hc : c = sep
      · rw [if_pos hc] at hseg
        rcases List.mem_cons.1 hseg with rfl | h'
        · intro h
          cases h
        · exact ih seg (hr ▸ h')
      · rw [if_neg hc] at hseg
        rcases List.mem_cons.1 hseg with rfl | h'
        · intro h
          rcases List.mem_cons.1 h with rfl | h''
          · exact hc rfl
          · exact ih r (hr ▸ List.mem_cons_self r rs) h''
        · exact ih seg (hr ▸ List.mem_cons_of_mem r h')

theorem matchSessionParser_some {k rest : Str} (h : matchSessionParser k = some rest) :
    k = cs "session.parser." ++ rest := by
  unfold matchSessionParser at h
  cases hs : stripPfx (cs "session.parser.") k with
  | none =>
    rw [hs] at h
    cases h
  | some r =>
    rw [hs] at h
    dsimp only at h
    split at h
    · cases h
      exact stripPfx_some_eq hs
    · cases h

theorem matchToolPre_facts {s tool idx : Str} (h : matchToolPre s = some (tool, idx)) :
    tool ≠ [] ∧ ('.' ∉ tool) ∧ idx ≠ [] ∧ idx.all isDigitCh = true ∧ ('.' ∉ idx) := by
  unfold matchToolPre at h
  split at h
  · next seg0 seg1 seg2 idx' hsplit =>
    split at h
    · next hcond =>
      simp only [Bool.and_eq_true, decide_eq_true_eq] at hcond
      have hidxmem : idx' ∈ splitCh '.' s := by
        rw [hsplit]
        simp
      have hseg2mem : seg2 ∈ splitCh '.' s := by
        rw [hsplit]
        simp
      cases hp : stripPfx (cs "pre_") seg2 with
      | none =>
        rw [hp] at h
        cases h
      | some tool' =>
        rw [hp] at h
        dsimp only at h
        split at h
        · next htool =>
          cases h
          refine ⟨htool, ?_, hcond.1.2, hcond.2, ?_⟩
          · intro hd
            have hseq := stripPfx_some_eq hp
            have : ('.' : Char) ∈ seg2 := by
              rw [hseq]
              exact List.mem_append_right _ hd
            exact sep_not_mem_splitCh seg2 hseg2mem this
          · exact fun hd => sep_not_mem_splitCh _ hidxmem hd
        · cases h
    · cases h
  · cases h

theorem matchParserTurnTool_facts {kindSeg s tool idx : Str}
    (h : matchParserTurnTool kindSeg s = some (tool, idx)) :
    tool ≠ [] ∧ ('.' ∉ tool) ∧ idx ≠ [] ∧ idx.all isDigitCh = true ∧ ('.' ∉ idx) := by
  unfold matchParserTurnTool at h
  split at h
  · next seg0 seg1 seg2 tool' idx' hsplit =>
    split at h
    · next hcond =>
      cases h
      simp only [Bool.and_eq_true, decide_eq_true_eq] at hcond
      have htoolmem : tool ∈ splitCh '.' s := by
        rw [hsplit]
        simp
      have hidxmem : idx ∈ splitCh '.' s := by
        rw [hsplit]
        simp
      exact ⟨hcond.1.1.2, fun hd => sep_not_mem_splitCh tool htoolmem hd,
        hcond.1.2, hcond.2, fun hd => sep_not_mem_splitCh idx hidxmem hd⟩
    · cases h
  · cases h

/-- The three provenance classes of the normalizer: identity, session strip,
or compact tool form ending in a digit-run segment. -/
theorem normalize_classes (k : Str) :
    normalizeParserNodeNameForGraph k = k ∨
    (∃ rest, k = cs "session.parser." ++ rest ∧
      normalizeParserNodeNameForGraph k = cs "parser." ++ rest) ∨
    (∃ tool idx, normalizeParserNodeNameForGraph k = cs "parser." ++ tool ++ '.' :: idx ∧
      ('.' ∉ tool) ∧ ('.' ∉ idx) ∧ idx ≠ [] ∧ idx.all isDigitCh = true) := by
  unfold normalizeParserNodeNameForGraph
  cases hm : matchSessionParser k with
  | none => exact Or.inl rfl
  | some rest =>
    dsimp only
    cases ht : matchToolPre (cs "parser." ++ rest) with
    | some ti =>
      obtain ⟨tool, idx⟩ := ti
      obtain ⟨h1, h2, h3, h4, h5⟩ := matchToolPre_facts ht
      refine Or.inr (Or.inr ⟨cs "pre_" ++ tool, idx, ?_, ?_, h5, h3, h4⟩)
      · show cs "parser.pre_" ++ tool ++ [ '.' ] ++ idx = _
        rw [show cs "parser.pre_" = cs "parser." ++ cs "pre_" by decide]
        simp
      · intro hd
        rcases List.mem_append.1 hd with hd' | hd'
        · revert hd'
          decide
        · exact h2 hd'
    | none =>
      dsimp only
      cases hr : matchParserTurnTool (cs "tool_result") (cs "parser." ++ rest) with
      | some ti =>
        obtain ⟨tool, idx⟩ := ti
        obtain ⟨h1, h2, h3, h4, h5⟩ := matchParserTurnTool_facts hr
        refine Or.inr (Or.inr ⟨tool, idx, ?_, h2, h5, h3, h4⟩)
        show cs "parser." ++ tool ++ [ '.' ] ++ idx = _
        simp
      | none =>
        exact Or.inr (Or.inl ⟨rest, matchSessionParser_some hm, rfl⟩)

theorem stripPfx_prefix_cancel (p q s : Str) : stripPfx (p ++ q) (p ++ s) = stripPfx q s := by
  induction p with
  | nil => rfl
  | cons c p' ih => simp [stripPfx, ih]

theorem stripPfx_into_append {sep : Char} {p a b r : Str} (hp : sep ∉ p) (ha : sep ∉ a)
    (h : stripPfx p (a ++ sep :: b) = some r) : ∃ u, a = p ++ u ∧ r = u ++ sep :: b := by
  induction p generalizing a with
  | nil =>
    refine ⟨a, rfl, ?_⟩
    have : some (a ++ sep :: b) = some r := by simpa [stripPfx] using h
    cases this
    rfl
  | cons c p' ih =>
    cases a with
    | nil =>
      rw [List.nil_append] at h
      unfold stripPfx at h
      split at h
      · next hcs =>
        exact absurd (by rw [← hcs]; exact List.mem_cons_self c p') hp
      · cases h
    | cons d a' =>
      rw [List.cons_append] at h
      unfold stripPfx at h
      split at h
      · next hcd =>
        obtain ⟨u, hu1, hu2⟩ := ih (fun hm => hp (List.mem_cons_of_mem _ hm))
          (fun hm => ha (List.mem_cons_of_mem _ hm)) h
        refine ⟨u, ?_, hu2⟩
        rw [hu1, ← hcd, List.cons_append]
      · cases h

theorem takeWhile_append_cons_false {p : Char → Bool} {u : Str} {x : Char}
    (hall : ∀ c ∈ u, p c = true) (hx : p x = false) :
    ∀ b : Str, (u ++ x :: b).takeWhile p = u ∧ (u ++ x :: b).dropWhile p = x :: b := by
  induction u with
  | nil =>
    intro b
    constructor
    · rw [List.nil_append, List.takeWhile_cons, hx]
      simp
    · rw [List.nil_append, List.dropWhile_cons, hx]
      simp
  | cons c u' ih =>
    intro b
    have hc : p c = true := hall c (by simp)
    have ih' := ih (fun c' hc' => hall c' (List.mem_cons_of_mem _ hc')) b
    constructor
    · rw [List.cons_append, List.takeWhile_cons, hc]
      rw [ih'.1]
      simp
    · rw [List.cons_append, List.dropWhile_cons, hc]
      simpa using ih'.2

theorem dropWhile_head_false {p : Char → Bool} {u u2 : Str} {c : Char}
    (h : u.dropWhile p = c :: u2) : p c = false := by
  induction u with
  | nil => cases h
  | cons d u' ih =>
    rw [List.dropWhile_cons] at h
    split at h
    · exact ih h
    · next hd =>
      cases h
      exact Bool.not_eq_true _ ▸ (by simpa using hd)

theorem interc_single (s x : Str) : List.intercalate s [x] = x := by
  simp [List.intercalate]

/-- A compact tool name `parser.<tool>.<digits>` is never container-classified:
its parsed suffix is the digit segment, which is not a container kind. -/
theorem compact_not_container {tool idx : Str} (hdtool : '.' ∉ tool)
    (hdidx : '.' ∉ idx) (hidx : idx ≠ []) (hdig : idx.all isDigitCh = true) :
    codeContainer (cs "parser." ++ tool ++ '.' :: idx) = false := by
  have h1 : parseParserNodeName (cs "parser." ++ tool ++ '.' :: idx) =
      parseCore (cs "parser." ++ tool ++ '.' :: idx) := rfl
  have hstrip : stripPfx (cs "parser.turn_") (cs "parser." ++ tool ++ '.' :: idx) =
      stripPfx (cs "turn_") (tool ++ '.' :: idx) := by
    rw [List.append_assoc]
    rw [show cs "parser.turn_" = cs "parser." ++ cs "turn_" by decide]
    exact stripPfx_prefix_cancel _ _ _
  unfold codeContainer
  rw [h1]
  unfold parseCore
  rw [hstrip]
  cases hst : stripPfx (cs "turn_") (tool ++ '.' :: idx) with
  | none => rfl
  | some r =>
    obtain ⟨u, htool, hr⟩ := stripPfx_into_append (by decide) hdtool hst
    subst hr
    dsimp only
    have hdu : '.' ∉ u := by
      intro hm
      refine hdtool ?_
      rw [htool]
      exact List.mem_append_right _ hm
    cases hdw : u.dropWhile isDigitCh with
    | nil =>
      have hall : ∀ c ∈ u, isDigitCh c = true := by
        have hiff := List.dropWhile_eq_nil_iff.1 hdw
        intro c hc
        simpa using hiff c hc
      obtain ⟨htw, hdw2⟩ := takeWhile_append_cons_false hall
        (show isDigitCh '.' = false by decide) idx
      rw [htw, hdw2]
      by_cases hu : u = []
      · subst hu
        rw [if_pos rfl]
      · rw [if_neg hu]
        have hcond : (decide (idx ≠ []) && idx.all (fun c => !isLineTerm c)) = true := by
          rw [all_not_lineTerm_of_digits hdig]
          simp [hidx]
        have hsegs : (splitCh '.' idx).filter (· ≠ []) = [idx] := by
          rw [splitCh_no_sep (fun c hc he => hdidx (by rw [he] at hc; exact hc))]
          simp [hidx]
        have k1 : idx ≠ cs "tool_calls" := fun he => absurd (he ▸ hdig) (by decide)
        have k2 : idx ≠ cs "tool_results" := fun he => absurd (he ▸ hdig) (by decide)
        have k3 : idx ≠ cs "tool_call" := fun he => absurd (he ▸ hdig) (by decide)
        have k4 : idx ≠ cs "tool_result" := fun he => absurd (he ▸ hdig) (by decide)
        split
        · rfl
        · next parsed hsome =>
          split at hsome
          · next heq =>
            simp at heq
          · next sfx heq =>
            rcases List.cons.inj heq with ⟨hdot, hsfx⟩
            subst hsfx
            rw [if_pos hcond] at hsome
            cases hsome
            dsimp only
            rw [hsegs, interc_single]
            simp [k1, k2, k3, k4]
          · cases hsome
    | cons c u2 =>
      have hpc : isDigitCh c = false := dropWhile_head_false hdw
      have hu : u = u.takeWhile isDigitCh ++ c :: u2 := by
        rw [← hdw, List.takeWhile_append_dropWhile]
      have hallt : ∀ x ∈ u.takeWhile isDigitCh, isDigitCh x = true :=
        fun x hx => List.mem_takeWhile_imp hx
      have hshape : u ++ '.' :: idx =
          u.takeWhile isDigitCh ++ c :: (u2 ++ '.' :: idx) := by
        conv_lhs => rw [hu]
        rw [List.append_assoc, List.cons_append]
      rw [hshape]
      obtain ⟨htw, hdw2⟩ := takeWhile_append_cons_false hallt hpc (u2 ++ '.' :: idx)
      rw [htw, hdw2]
      by_cases htwe : u.takeWhile isDigitCh = []
      · rw [if_pos htwe]
      · rw [if_neg htwe]
        have hcd : c ≠ '.' := by
          intro he
          refine hdu ?_
          rw [hu, he]
          exact List.mem_append_right _ (List.mem_cons_self _ _)
        split
        · rfl
        · next parsed hsome =>
          exfalso
          split at hsome
          · next heq =>
            simp at heq
          · next sfx heq =>
            rcases List.cons.inj heq with ⟨hc1, hc2⟩
            exact hcd hc1
          · cases hsome

theorem parse_session_append (o : Str) :
    parseParserNodeName (cs "session." ++ o) = parseCore o := by
  unfold parseParserNodeName
  rw [stripPfx_append]
  rfl

theorem parse_eq_core_of_none {o : Str} (h : stripPfx (cs "session.") o = none) :
    parseParserNodeName o = parseCore o := by
  unfold parseParserNodeName
  rw [h]
  rfl

theorem parseCore_session_none (x : Str) : parseCore (cs "session." ++ x) = none := rfl

theorem codeContainer_session_pfx (rest : Str) :
    codeContainer (cs "session.parser." ++ rest) = codeContainer (cs "parser." ++ rest) := by
  unfold codeContainer
  have h1 : parseParserNodeName (cs "session.parser." ++ rest) =
      parseParserNodeName (cs "parser." ++ rest) := by
    rw [show cs "session.parser." = cs "session." ++ cs "parser." by decide,
      List.append_assoc, parse_session_append,
      @parse_eq_core_of_none (cs "parser." ++ rest) rfl]
  rw [h1]

/--
**C5 (amended)** — pruning uses the container set without `structured_output`
(see the counterexample above). For every input whose records all carry a step,
every step-bucketed raw label that the code's own classifier marks as a
container (suffix empty, or a single segment among `tool_calls`,
`tool_results`, `tool_call`, `tool_result`) is pruned: it enters the pruned
set, its entry is removed from the raw node-to-observations map, no graph node
is emitted under its identity (neither directly nor as the session-stripped
form of a surviving label), and the output `nodeToObservationsMap` has no
entry for it — even when no more specific leaf node exists.
-/
theorem claim_C5_amended (data : List AgentObs)
    (hstep : ∀ o ∈ data, o.step ≠ none) :
    ∀ n, (∃ e ∈ (bucketsOf data).1, n ∈ e.2) → codeContainer n = true →
      n ∈ prunedOf data ∧
      ahas (nodeMapOf data) n = false ∧
      (∀ gn ∈ (buildGraphFromStepData data).nodes,
        gn.id ≠ n ∧ cs "session." ++ gn.id ≠ n) ∧
      ahas (buildGraphFromStepData data).nodeToObservationsMap n = false := by
  intro n hmem hc
  have ha : n ∈ prunedOf data := by
    unfold prunedOf
    exact mem_getRedundantParserNodes hmem hc
  have hb : ahas (nodeMapOf data) n = false := by
    unfold nodeMapOf
    exact pruneNodeMap_removes ha
  have hkey : ∀ k ∈ normODMOf data, k.1 ≠ n ∧ cs "session." ++ k.1 ≠ n := by
    intro k hk
    have hk' : k ∈ normalizedObsMap (nodeMapOf data) := by
      unfold normODMOf at hk
      exact hk
    obtain ⟨k0, hk0, hnorm⟩ := normalizedObsMap_key_src k hk'
    have hnc : codeContainer k0.1 = false := surviving_key_not_container hstep hk0
    rcases normalize_classes k0.1 with hcl |
      ⟨rest, hrk, hout⟩ | ⟨tool, idx, hout, hdt, hdi, hne, hdg⟩
    · rw [hcl] at hnorm
      constructor
      · intro heq
        rw [heq] at hnorm
        rw [← hnorm] at hnc
        rw [hnc] at hc
        cases hc
      · intro heq
        rw [hnorm] at heq
        rw [← heq] at hc
        cases hso : stripPfx (cs "session.") k0.1 with
        | none =>
          have hpe : codeContainer (cs "session." ++ k0.1) = codeContainer k0.1 := by
            unfold codeContainer
            rw [parse_session_append, parse_eq_core_of_none hso]
          rw [hpe, hnc] at hc
          cases hc
        | some o' =>
          have hk0e : k0.1 = cs "session." ++ o' := stripPfx_some_eq hso
          have hnone : codeContainer (cs "session." ++ k0.1) = false := by
            unfold codeContainer
            rw [parse_session_append, hk0e, parseCore_session_none]
          rw [hnone] at hc
          cases hc
    · have hcc : codeContainer k0.1 = codeContainer (cs "parser." ++ rest) := by
        rw [hrk]
        exact codeContainer_session_pfx rest
      have hpf : codeContainer (cs "parser." ++ rest) = false := by
        rw [← hcc]
        exact hnc
      rw [hout] at hnorm
      constructor
      · intro heq
        rw [hnorm] at heq
        rw [← heq, hpf] at hc
        cases hc
      · intro heq
        rw [hnorm] at heq
        have hsp : cs "session." ++ (cs "parser." ++ rest) = cs "session.parser." ++ rest := by
          rw [show cs "session.parser." = cs "session." ++ cs "parser." by decide,
            List.append_assoc]
        rw [hsp] at heq
        rw [← heq, ← hrk, hnc] at hc
        cases hc
    · have hpf : codeContainer (cs "parser." ++ tool ++ '.' :: idx) = false :=
        compact_not_container hdt hdi hne hdg
      rw [hout] at hnorm
      constructor
      · intro heq
        rw [hnorm] at heq
        rw [← heq, hpf] at hc
        cases hc
      · intro heq
        rw [hnorm] at heq
        rw [← heq] at hc
        have hsn : codeContainer (cs "session." ++ (cs "parser." ++ tool ++ '.' :: idx)) =
            codeContainer (cs "parser." ++ tool ++ '.' :: idx) := by
          unfold codeContainer
          rw [parse_session_append,
            @parse_eq_core_of_none (cs "parser." ++ tool ++ '.' :: idx) rfl]
        rw [hsn, hpf] at hc
        cases hc
  have hcId : ∀ gn ∈ (buildGraphFromStepData data).nodes,
      gn.id ≠ n ∧ cs "session." ++ gn.id ≠ n := by
    intro gn hgn
    by_cases hd : data = []
    · subst hd
      simp [buildGraphFromStepData] at hgn
    · rw [buildGraph_nodes_eq hd] at hgn
      obtain ⟨name, hname, rfl⟩ := List.mem_map.1 hgn
      rw [mkGraphNode_id]
      unfold nodeNamesOf at hname
      rw [mem_dedupKeepFirst] at hname
      rcases List.mem_cons.1 hname with rfl | hname'
      · constructor
        · intro heq
          rw [← heq] at hc
          exact absurd hc (by decide)
        · intro heq
          rw [← heq] at hc
          exact absurd hc (by decide)
      · rcases List.mem_append.1 hname' with hk | hend
        · obtain ⟨k, hkm, rfl⟩ := List.mem_map.1 hk
          exact hkey k hkm
        · rcases List.mem_singleton.1 hend with rfl
          constructor
          · intro heq
            rw [← heq] at hc
            exact absurd hc (by decide)
          · intro heq
            rw [← heq] at hc
            exact absurd hc (by decide)
  refine ⟨ha, hb, hcId, ?_⟩
  by_cases hd : data = []
  · subst hd
    rfl
  · rw [buildGraph_map_eq hd]
    cases hg : aget (normODMOf data) n with
    | none =>
      unfold ahas
      rw [hg]
      rfl
    | some v =>
      have hmem2 := aget_mem hg
      exact absurd rfl (hkey (n, v) hmem2).1

def dataC5W : List AgentObs :=
  [ { id := cs "w5", name := cs "container",
      node := some (cs "parser.turn_001.tool_calls"), step := some 1,
      parentObservationId := none, startTime := 0, endTime := some 1,
      observationType := cs "SPAN", level := none, statusMessage := none } ]

/-- **C5 witness** — the amended theorem applied to a one-record collection
holding only a `tool_calls` container label. -/
theorem claim_C5_amended_witness :
    (∀ o ∈ dataC5W, o.step ≠ none) ∧
    (∃ e ∈ (bucketsOf dataC5W).1, cs "parser.turn_001.tool_calls" ∈ e.2) ∧
    codeContainer (cs "parser.turn_001.tool_calls") = true ∧
    (cs "parser.turn_001.tool_calls" ∈ prunedOf dataC5W ∧
      ahas (nodeMapOf dataC5W) (cs "parser.turn_001.tool_calls") = false ∧
      (∀ gn ∈ (buildGraphFromStepData dataC5W).nodes,
        gn.id ≠ cs "parser.turn_001.tool_calls" ∧
        cs "session." ++ gn.id ≠ cs "parser.turn_001.tool_calls") ∧
      ahas (buildGraphFromStepData dataC5W).nodeToObservationsMap
        (cs "parser.turn_001.tool_calls") = false) :=
  ⟨by decide, by decide, by decide,
    claim_C5_amended dataC5W (by decide) (cs "parser.turn_001.tool_calls")
      (by decide) (by decide)⟩

/-! ## Trace tree builder (source file src/unnamed/part_006) -/

/-- `ObservationReturnType` as consumed by the tree builder; costs are exact
`Decimal` values modelled as rationals, dates as epoch milliseconds. -/
structure TObs where
  id : Str
  name : Option Str
  otype : Str
  level : Str
  parentObservationId : Option Str
  startTime : Int
  endTime : Option Int
  totalCost : Option ℚ
  inputCost : Option ℚ
  outputCost : Option ℚ
  inputUsage : Option Int
  outputUsage : Option Int
  totalUsage : Option Int
  traceId : Str
  deriving DecidableEq, Repr

/-- The `TraceType` fields the tree builder reads. -/
structure TraceInfo where
  tid : Str
  tname : Option Str
  timestamp : Int
  latency : Option Int
  rootObservationType : Option Str
  deriving DecidableEq, Repr

/-- JS truthiness of an optional string (empty string is falsy). -/
def truthyOpt : Option Str → Bool
  | none => false
  | some s => s ≠ []

def ascendingLevels : List Str :=
  [cs "DEBUG", cs "DEFAULT", cs "WARNING", cs "ERROR"]

/-- `getObservationLevels`; `indexOf` yields `-1` on a miss and `slice(-1)`
then keeps only the last level. -/
def getObservationLevels (minLevel : Option Str) : List Str :=
  match minLevel with
  | none => ascendingLevels
  | some m =>
    match ascendingLevels.findIdx? (· = m) with
    | some i => ascendingLevels.drop i
    | none => ascendingLevels.drop (ascendingLevels.length - 1)

/-- `isParserContainerNodeName` on a nullable name (falsy names never parse). -/
def isContainerOpt : Option Str → Bool
  | none => false
  | some s => if s = [] then false else isParserContainerNodeName s

/-- `getUiNodeName`: `normalizeParserNodeNameForGraph(name) ?? name ?? ""`;
the normalizer returns falsy input unchanged. -/
def getUiNodeName : Option Str → Str
  | none => []
  | some s => if s = [] then [] else normalizeParserNodeNameForGraph s

/--
The orphaned-parent rewalk: follow `parentById` upward until a kept id, a
falsy id, a miss, or a revisit (cycle guard, yielding `null`). The fuel is
chosen at call sites strictly above the number of distinct reachable ids, so
the `0` case is never taken.
-/
def rewalkLoop (kept : List Str) (pById : List (Str × Option Str)) :
    Nat → List Str → Option Str → Option Str
  | _, _, none => none
  | 0, _, some p => some p
  | f + 1, visited, some p =>
    if p ≠ [] && !decide (p ∈ kept) then
      if p ∈ visited then none
      else rewalkLoop kept pById f (p :: visited) ((aget pById p).getD none)
    else some p

/-- `SESSION_TURN_NODE_RE = /^session\.turn\.(?<turn>\d+)$/`. -/
def matchSessionTurn (s : Str) : Option Str :=
  match splitCh '.' s with
  | [seg0, seg1, d] =>
    if seg0 = cs "session" && seg1 = cs "turn" && d ≠ [] && d.all isDigitCh then
      some d
    else none
  | _ => none

/-- A `sessionTurns` entry of the tree builder. -/
structure TTurn where
  id : Str
  start : Int
  endMs : Option Int
  turn : Nat
  deriving DecidableEq, Repr

/-- `TOOL_PRE_UI_NODE_RE = /^parser\.pre_(?<toolName>[^.]+)\.(?<index>\d+)$/`. -/
def matchToolPreUi (s : Str) : Option (Str × Str) :=
  match splitCh '.' s with
  | [seg0, seg1, idx] =>
    if seg0 = cs "parser" && idx ≠ [] && idx.all isDigitCh then
      match stripPfx (cs "pre_") seg1 with
      | some tool => if tool ≠ [] then some (tool, idx) else none
      | none => none
    else none
  | _ => none

/-- The session turns of the chronological list, sorted by start time. -/
def sessionTurnsTOf (chrono : List TObs) : List TTurn :=
  jsSortBy (fun a b => a.start ≤ b.start)
    (chrono.filterMap (fun o =>
      match matchSessionTurn (o.name.getD []) with
      | some d => some ⟨o.id, o.startTime, o.endTime, digitsToNat d⟩
      | none => none))

/-- `while (activeTurnIndex < sessionTurns.length && start >= bounds[idx]) idx++`,
where `bounds[i]` is the next turn's start (`+∞` for the last turn). -/
def advanceTIdx (turns : List TTurn) (t : Int) : Nat → Nat → Nat
  | 0, i => i
  | f + 1, i =>
    if i < turns.length then
      match (turns.get? (i + 1)).map (fun x => x.start) with
      | some b => if b ≤ t then advanceTIdx turns t f (i + 1) else i
      | none => i
    else i

/-- Mutable state of the chronological heuristics pass. -/
structure TScanState where
  idx : Nat
  latestByName : List (Str × Str)
  latestPre : List (Str × Str)
  deriving DecidableEq, Repr

/--
One chronological iteration of the UI re-parenting heuristics. The observation
is paired with its index in the filtered list so that the computed parent can
be written back to the right record; the record's own current parent is read,
the maps are shared state.
-/
def tHeurStep (turns : List TTurn)
    (acc : TScanState × List (Nat × Option Str)) (io : Nat × TObs) :
    TScanState × List (Nat × Option Str) :=
  let o := io.2
  let uiName := getUiNodeName o.name
  let i := advanceTIdx turns o.startTime (turns.length + 1) acc.1.idx
  let p0 := o.parentObservationId
  let p1 :=
    match turns.get? i with
    | some turn =>
      if o.id ≠ turn.id && decide (turn.start ≤ o.startTime) &&
          (match (turns.get? (i + 1)).map (fun x => x.start) with
           | some b => decide (o.startTime < b)
           | none => true) &&
          p0 = none then
        some turn.id
      else p0
    | none => p0
  let p2 :=
    match matchToolResultUi uiName with
    | some (tool, idxs) =>
      match aget acc.1.latestByName (tool ++ '.' :: idxs) with
      | some tid => if tid ≠ [] && tid ≠ o.id then some tid else p1
      | none => p1
    | none => p1
  let latestPre1 :=
    match matchToolPreUi uiName with
    | some (tool, idxs) => aset acc.1.latestPre (tool ++ '.' :: idxs) o.id
    | none => acc.1.latestPre
  let p3 :=
    if o.otype = cs "TOOL" && ahas latestPre1 uiName then
      match aget latestPre1 uiName with
      | some pid => if pid ≠ [] && pid ≠ o.id then some pid else p2
      | none => p2
    else p2
  let latestByName1 :=
    match o.name with
    | some nm => aset acc.1.latestByName nm o.id
    | none => acc.1.latestByName
  ({ idx := i, latestByName := latestByName1, latestPre := latestPre1 },
    acc.2 ++ [(io.1, p3)])

/-! The stages of `filterAndPrepareObservations`, factored as named functions
of the input list. Note `chronological` (a sorted copy of the filtered array)
and the final `mutableList.sort(...)` are the same stable sort of the same
base array, so the post-heuristics records are produced directly in
chronological order. -/

def listNoContainersOf (list : List TObs) : List TObs :=
  list.filter (fun o => !isContainerOpt o.name)

def mutableList0Of (list : List TObs) (minLevel : Option Str) : List TObs :=
  (listNoContainersOf list).filter (fun o => (getObservationLevels minLevel).contains o.level)

def hiddenCountOf (list : List TObs) (minLevel : Option Str) : Nat :=
  (listNoContainersOf list).length - (mutableList0Of list minLevel).length

def parentByIdOf (list : List TObs) : List (Str × Option Str) :=
  list.foldl (fun m o => aset m o.id o.parentObservationId) []

def keptIdsOf (list : List TObs) (minLevel : Option Str) : List Str :=
  (mutableList0Of list minLevel).map (fun o => o.id)

/-- Phase-1 orphan cleanup applied to one kept record. -/
def phase1Parent (list : List TObs) (minLevel : Option Str) (o : TObs) : TObs :=
  { o with parentObservationId :=
      (rewalkLoop (keptIdsOf list minLevel) (parentByIdOf list) (list.length + 2) []
        o.parentObservationId) }

def mutable1Of (list : List TObs) (minLevel : Option Str) : List TObs :=
  (mutableList0Of list minLevel).map (phase1Parent list minLevel)

/-- The chronological ordering, carrying each record's index in the filtered
list so per-record parent updates can be written back. -/
def chronoIOf (list : List TObs) (minLevel : Option Str) : List (Nat × TObs) :=
  jsSortBy (fun a b => a.2.startTime ≤ b.2.startTime) (mutable1Of list minLevel).enum

def turnsTOf (list : List TObs) (minLevel : Option Str) : List TTurn :=
  sessionTurnsTOf ((chronoIOf list minLevel).map Prod.snd)

/-- The per-index parent assignments of the heuristics pass. -/
def heurAssignOf (list : List TObs) (minLevel : Option Str) : List (Nat × Option Str) :=
  ((chronoIOf list minLevel).foldl (tHeurStep (turnsTOf list minLevel))
    ({ idx := 0, latestByName := [], latestPre := [] }, [])).2

/-- `sortedObservations`: the filtered records, with final parents, in
start-time order. -/
def sortedObsOf (list : List TObs) (minLevel : Option Str) : List TObs :=
  (chronoIOf list minLevel).map (fun io =>
    { io.2 with parentObservationId :=
        ((aget (heurAssignOf list minLevel) io.1).getD io.2.parentObservationId) })

/-- `filterAndPrepareObservations`. -/
def filterAndPrepareObservations (list : List TObs) (minLevel : Option Str) :
    List TObs × Nat :=
  if list = [] then ([], 0)
  else (sortedObsOf list minLevel, hiddenCountOf list minLevel)

/-- The scalar payload of a `TreeNode` (everything except the children). -/
structure TreeNodeData where
  id : Str
  ntype : Str
  nname : Str
  startTime : Int
  endTime : Option Int
  level : Option Str
  inputUsage : Option Int
  outputUsage : Option Int
  totalUsage : Option Int
  calculatedInputCost : Option ℚ
  calculatedOutputCost : Option ℚ
  calculatedTotalCost : Option ℚ
  parentObservationId : Option Str
  traceId : Option Str
  totalCost : Option ℚ
  startTimeSinceTrace : Int
  startTimeSinceParentStart : Option Int
  depth : Int
  childrenDepth : Int
  latency : Option Int
  deriving DecidableEq, Repr

/-- `TreeNode`: payload plus children. -/
inductive TreeNode where
  | mk (data : TreeNodeData) (children : List TreeNode)

def TreeNode.data : TreeNode → TreeNodeData
  | .mk d _ => d

def TreeNode.children : TreeNode → List TreeNode
  | .mk _ c => c

/-- `ProcessingNode`. -/
structure PNode where
  observation : TObs
  childrenIds : List Str
  inDegree : Int
  depth : Int
  treeNode : Option TreeNode

def regPass1 (sorted : List TObs) : List (Str × PNode) :=
  sorted.foldl (fun m o => aset m o.id ⟨o, [], 0, 0, none⟩) []

def regPass2 (reg : List (Str × PNode)) (sorted : List TObs) : List (Str × PNode) :=
  sorted.foldl
    (fun m o =>
      match o.parentObservationId with
      | some p =>
        if p ≠ [] then
          match aget m p with
          | some parent => aset m p { parent with childrenIds := parent.childrenIds ++ [o.id] }
          | none => m
        else m
      | none => m)
    reg

def rootIds0Of (reg : List (Str × PNode)) : List Str :=
  (reg.filter (fun e => !truthyOpt e.2.observation.parentObservationId)).map Prod.fst

/-- The depth-propagating BFS; children are always registry keys, so the
`none` lookup branch is unreachable. -/
def bfsDepth : Nat → List (Str × PNode) → List Str → List (Str × PNode)
  | 0, reg, _ => reg
  | _, reg, [] => reg
  | f + 1, reg, id :: rest =>
    match aget reg id with
    | none => bfsDepth f reg rest
    | some node =>
      let step := node.childrenIds.foldl
        (fun (acc : List (Str × PNode) × List Str) cid =>
          match aget acc.1 cid with
          | some child => (aset acc.1 cid { child with depth := node.depth + 1 }, acc.2 ++ [cid])
          | none => (acc.1, acc.2))
        (reg, [])
      bfsDepth f step.1 (rest ++ step.2)

def regPass4 (reg : List (Str × PNode)) : List (Str × PNode) :=
  reg.map (fun e => (e.1, { e.2 with inDegree := (e.2.childrenIds.length : Int) }))

def leafIdsOf (reg : List (Str × PNode)) : List Str :=
  (reg.filter (fun e => e.2.childrenIds = [])).map Prod.fst

/-- `buildDependencyGraph`. -/
def buildDependencyGraph (sorted : List TObs) : List (Str × PNode) × List Str :=
  let reg2 := regPass2 (regPass1 sorted) sorted
  let reg4 := regPass4 (bfsDepth (2 * sorted.length + 2) reg2 (rootIds0Of reg2))
  (reg4, leafIdsOf reg4)

/-- The node's own cost: `totalCost` when present and non-zero; otherwise, when
`totalCost` is absent and either unit cost is present, their sum when non-zero. -/
def nodeCostOf (o : TObs) : Option ℚ :=
  match o.totalCost with
  | some t => if t ≠ 0 then some t else none
  | none =>
    if o.inputCost ≠ none || o.outputCost ≠ none then
      if o.inputCost.getD 0 + o.outputCost.getD 0 ≠ 0 then
        some (o.inputCost.getD 0 + o.outputCost.getD 0)
      else none
    else none

/-- `nodeCost && childrenTotalCost ? plus : nodeCost || childrenTotalCost`. -/
def optPlus : Option ℚ → Option ℚ → Option ℚ
  | some a, some b => some (a + b)
  | some a, none => some a
  | none, b => b

/-- The children-cost reduce: skip absent child totals, add the rest. -/
def childrenCostFold (children : List TreeNode) : Option ℚ :=
  children.foldl
    (fun acc c =>
      match c.data.totalCost with
      | none => acc
      | some q =>
        match acc with
        | some a => some (a + q)
        | none => some q)
    none

/-- `Math.max(...)` over a non-empty list (`0` on the unused empty case). -/
def jsMaxInt : List Int → Int
  | [] => 0
  | x :: xs => xs.foldl max x

/-- The `TreeNode` built for one processed observation. -/
def mkObsTreeNode (reg : List (Str × PNode)) (traceStart : Int) (node : PNode)
    (childTreeNodes : List TreeNode) : TreeNode :=
  let o := node.observation
  let nodeCost := nodeCostOf o
  let childrenTotalCost := childrenCostFold childTreeNodes
  let totalCost := optPlus nodeCost childrenTotalCost
  let startTimeSinceParentStart :=
    match o.parentObservationId with
    | some p =>
      if p ≠ [] then
        match aget reg p with
        | some pn => some (o.startTime - pn.observation.startTime)
        | none => none
      else none
    | none => none
  let childrenDepth :=
    if childTreeNodes.isEmpty then 0
    else jsMaxInt (childTreeNodes.map (fun c => c.data.childrenDepth)) + 1
  .mk
    { id := o.id, ntype := o.otype,
      nname := getUiNodeName o.name,
      startTime := o.startTime, endTime := o.endTime, level := some o.level,
      inputUsage := o.inputUsage, outputUsage := o.outputUsage,
      totalUsage := o.totalUsage,
      calculatedInputCost := o.inputCost, calculatedOutputCost := o.outputCost,
      calculatedTotalCost := o.totalCost,
      parentObservationId := o.parentObservationId, traceId := some o.traceId,
      totalCost := totalCost,
      startTimeSinceTrace := o.startTime - traceStart,
      startTimeSinceParentStart := startTimeSinceParentStart,
      depth := node.depth, childrenDepth := childrenDepth, latency := none }
    childTreeNodes

/--
The bottom-up (Kahn) processing loop of `buildTreeNodesBottomUp`. Each id is
enqueued at most once (leaves up front, a parent when its in-degree reaches
zero), so fuel `2 * |registry| + 2` always drains the queue; the `none`
registry lookup for a queued id is unreachable.
-/
def kahnLoop (traceStart : Int) :
    Nat → List (Str × PNode) → List (Str × TreeNode) → List Str → List Str →
      List (Str × PNode) × List (Str × TreeNode) × List Str
  | 0, reg, nm, _, roots => (reg, nm, roots)
  | _, reg, nm, [], roots => (reg, nm, roots)
  | f + 1, reg, nm, id :: rest, roots =>
    match aget reg id with
    | none => kahnLoop traceStart f reg nm rest roots
    | some node =>
      let childTreeNodes := node.childrenIds.filterMap
        (fun cid =>
          match aget reg cid with
          | some cn => cn.treeNode
          | none => none)
      let tn := mkObsTreeNode reg traceStart node childTreeNodes
      let reg1 := aset reg id { node with treeNode := some tn }
      let nm1 := aset nm id tn
      match node.observation.parentObservationId with
      | some p =>
        if p ≠ [] then
          match aget reg1 p with
          | some parent =>
            if parent.inDegree - 1 = 0 then
              kahnLoop traceStart f (aset reg1 p { parent with inDegree := parent.inDegree - 1 })
                nm1 (rest ++ [p]) roots
            else
              kahnLoop traceStart f (aset reg1 p { parent with inDegree := parent.inDegree - 1 })
                nm1 rest roots
          | none => kahnLoop traceStart f reg1 nm1 rest roots
        else kahnLoop traceStart f reg1 nm1 rest (roots ++ [id])
      | none => kahnLoop traceStart f reg1 nm1 rest (roots ++ [id])

/-- `buildTreeNodesBottomUp`: final registry, node map, and root ids. -/
def buildTreeNodesBottomUp (reg : List (Str × PNode)) (leafIds : List Str)
    (traceStart : Int) : List (Str × PNode) × List (Str × TreeNode) × List Str :=
  kahnLoop traceStart (2 * reg.length + 2) reg [] leafIds []

/-- The root-cost reduce shared by the trace wrapper and `buildTraceUiData`. -/
def rootsCostFold (roots : List TreeNode) : Option ℚ :=
  roots.foldl
    (fun acc r =>
      match r.data.totalCost with
      | none => acc
      | some q =>
        match acc with
        | some a => some (a + q)
        | none => some q)
    none

/-- The synthetic TRACE wrapper node. -/
def mkTraceNode (trace : TraceInfo) (children : List TreeNode)
    (totalCost : Option ℚ) (childrenDepth : Int) : TreeNode :=
  .mk
    { id := cs "trace-" ++ trace.tid, ntype := cs "TRACE",
      nname := trace.tname.getD [],
      startTime := trace.timestamp, endTime := none, level := none,
      inputUsage := none, outputUsage := none, totalUsage := none,
      calculatedInputCost := none, calculatedOutputCost := none,
      calculatedTotalCost := none,
      parentObservationId := none, traceId := none,
      totalCost := totalCost, startTimeSinceTrace := 0,
      startTimeSinceParentStart := none, depth := -1,
      childrenDepth := childrenDepth, latency := trace.latency }
    children

/-- `buildTraceTree`: roots, hidden count, node map. -/
def buildTraceTree (trace : TraceInfo) (observations : List TObs)
    (minLevel : Option Str) : List TreeNode × Nat × List (Str × TreeNode) :=
  let fp := filterAndPrepareObservations observations minLevel
  if fp.1 = [] then
    if truthyOpt trace.rootObservationType then ([], fp.2, [])
    else
      let emptyTree := mkTraceNode trace [] none 0
      ([emptyTree], fp.2, [(cs "trace-" ++ trace.tid, emptyTree)])
  else
    let dg := buildDependencyGraph fp.1
    let built := buildTreeNodesBottomUp dg.1 dg.2 trace.timestamp
    let rootTreeNodes := jsSortBy (fun a b => a.data.startTime ≤ b.data.startTime)
      (built.2.2.filterMap (fun rid => (aget built.1 rid).bind (fun n => n.treeNode)))
    if truthyOpt trace.rootObservationType then (rootTreeNodes, fp.2, built.2.1)
    else
      let traceTotalCost := rootsCostFold rootTreeNodes
      let traceChildrenDepth :=
        if rootTreeNodes.isEmpty then 0
        else jsMaxInt (rootTreeNodes.map (fun c => c.data.childrenDepth)) + 1
      let traceNode := mkTraceNode trace rootTreeNodes traceTotalCost traceChildrenDepth
      ([traceNode], fp.2, aset built.2.1 (cs "trace-" ++ trace.tid) traceNode)

/-- A `TraceSearchListItem`. -/
structure SearchItem where
  node : TreeNode
  parentTotalCost : Option ℚ
  parentTotalDuration : Option Int
  observationId : Option Str

mutual
/-- Subtree size, used only to bound the search-stack fuel. -/
def tsize : TreeNode → Nat
  | .mk _ children => 1 + tsizeList children
/-- Total size of a forest, used only to bound the search-stack fuel. -/
def tsizeList : List TreeNode → Nat
  | [] => 0
  | t :: ts => tsize t + tsizeList ts
end

/-- The iterative pre-order traversal building `searchItems`. -/
def searchLoop (rtc : Option ℚ) (rd : Option Int) :
    Nat → List TreeNode → List SearchItem → List SearchItem
  | 0, _, acc => acc
  | _, [], acc => acc
  | f + 1, n :: rest, acc =>
    searchLoop rtc rd f (n.children ++ rest)
      (acc ++ [⟨n, rtc, rd, if n.data.ntype = cs "TRACE" then none else some n.data.id⟩])

/-- `buildTraceUiData`: roots, hidden count, search items, node map. -/
def buildTraceUiData (trace : TraceInfo) (observations : List TObs)
    (minLevel : Option Str) :
    List TreeNode × Nat × List SearchItem × List (Str × TreeNode) :=
  let bt := buildTraceTree trace observations minLevel
  let roots := bt.1
  if roots.isEmpty then (roots, bt.2.1, [], bt.2.2)
  else
    let rootTotalCost := rootsCostFold roots
    let rootDuration :=
      if !roots.isEmpty then
        some (jsMaxInt (roots.map (fun r =>
          match r.data.latency with
          | some l => if l ≠ 0 then l * 1000 else
            (match r.data.endTime with
             | some e => e - r.data.startTime
             | none => 0)
          | none =>
            (match r.data.endTime with
             | some e => e - r.data.startTime
             | none => 0))))
      else none
    (roots, bt.2.1, searchLoop rootTotalCost rootDuration (tsizeList roots + 1) roots [],
      bt.2.2)

/-!
The tree builder mutates its input: `filterAndPrepareObservations` assigns
`observation.parentObservationId` in place, both in the orphan cleanup and in
the chronological heuristics, before `buildTraceUiData` reads the records.
`postCallObservations` models the state of the caller's record collection
after `buildTraceUiData` returns: records filtered out are untouched, each
surviving record carries the parent computed by the cleanup and heuristics
(the k-th survivor reads assignment k of `heurAssignOf`).
-/
def postCallGo (list : List TObs) (minLevel : Option Str) :
    List TObs → Nat → List TObs
  | [], _ => []
  | o :: rest, k =>
    if !isContainerOpt o.name && (getObservationLevels minLevel).contains o.level then
      { phase1Parent list minLevel o with parentObservationId :=
          ((aget (heurAssignOf list minLevel) k).getD
            (phase1Parent list minLevel o).parentObservationId) } ::
        postCallGo list minLevel rest (k + 1)
    else o :: postCallGo list minLevel rest k

def postCallObservations (list : List TObs) (minLevel : Option Str) : List TObs :=
  if list = [] then [] else postCallGo list minLevel list 0

def ceC9 : List TObs :=
  [ { id := cs "G", name := some (cs "G"), otype := cs "SPAN", level := cs "DEFAULT",
      parentObservationId := none, startTime := 1, endTime := some 2,
      totalCost := none, inputCost := none, outputCost := none,
      inputUsage := none, outputUsage := none, totalUsage := none, traceId := cs "t" },
    { id := cs "C", name := some (cs "session.parser.turn_001.tool_calls"),
      otype := cs "SPAN", level := cs "DEFAULT",
      parentObservationId := some (cs "G"), startTime := 2, endTime := some 3,
      totalCost := none, inputCost := none, outputCost := none,
      inputUsage := none, outputUsage := none, totalUsage := none, traceId := cs "t" },
    { id := cs "D", name := some (cs "D"), otype := cs "SPAN", level := cs "DEFAULT",
      parentObservationId := some (cs "C"), startTime := 3, endTime := some 4,
      totalCost := none, inputCost := none, outputCost := none,
      inputUsage := none, outputUsage := none, totalUsage := none, traceId := cs "t" } ]

/--
**C9 counterexample** — the builder is not free of side effects on its input:
with a parser-container parent, the cleanup rewrites the surviving child's
`parentObservationId` in place (here `D`'s parent changes from the filtered
container `C` to `G`), so the post-call collection differs from the input.
-/
theorem claim_C9_counterexample :
    postCallObservations ceC9 none ≠ ceC9 ∧
      (postCallObservations ceC9 none).map (fun o => o.parentObservationId) ≠
        ceC9.map (fun o => o.parentObservationId) := by
  decide

/-- Fields of an observation record other than `parentObservationId`. -/
def sameExceptParent (a b : TObs) : Prop :=
  a.id = b.id ∧ a.name = b.name ∧ a.otype = b.otype ∧ a.level = b.level ∧
  a.startTime = b.startTime ∧ a.endTime = b.endTime ∧ a.totalCost = b.totalCost ∧
  a.inputCost = b.inputCost ∧ a.outputCost = b.outputCost ∧
  a.inputUsage = b.inputUsage ∧ a.outputUsage = b.outputUsage ∧
  a.totalUsage = b.totalUsage ∧ a.traceId = b.traceId

/--
**C9 (amended)** — the builder's only side effect on its input is on the
`parentObservationId` fields: after the call, the collection has the same
length and every record agrees with its pre-call self on every other field.
(The unconditional purity claim is refuted by the counterexample above.)
-/
theorem claim_C9_amended (list : List TObs) (minLevel : Option Str) :
    List.Forall₂ sameExceptParent list (postCallObservations list minLevel) := by
  unfold postCallObservations
  split
  · next h =>
    subst h
    exact List.Forall₂.nil
  · suffices hgo : ∀ (l : List TObs) (k : Nat),
        List.Forall₂ sameExceptParent l (postCallGo list minLevel l k) from
      hgo list 0
    intro l
    induction l with
    | nil =>
      intro k
      exact List.Forall₂.nil
    | cons o rest ih =>
      intro k
      unfold postCallGo
      split
      · exact List.Forall₂.cons
          ⟨rfl, rfl, rfl, rfl, rfl, rfl, rfl, rfl, rfl, rfl, rfl, rfl, rfl⟩
          (ih (k + 1))
      · exact List.Forall₂.cons
          ⟨rfl, rfl, rfl, rfl, rfl, rfl, rfl, rfl, rfl, rfl, rfl, rfl, rfl⟩ (ih k)

/-- The node's own cost as the finalization step computes it, read off the
copied cost fields of a built tree node (mirrors `nodeCostOf`). -/
def codeOwnCost (d : TreeNodeData) : Option ℚ :=
  match d.calculatedTotalCost with
  | some t => if t ≠ 0 then some t else none
  | none =>
    if d.calculatedInputCost ≠ none || d.calculatedOutputCost ≠ none then
      if d.calculatedInputCost.getD 0 + d.calculatedOutputCost.getD 0 ≠ 0 then
        some (d.calculatedInputCost.getD 0 + d.calculatedOutputCost.getD 0)
      else none
    else none

/-- The claim's own-cost rule, written from the claim's words: `totalCost` if
present and non-zero, ELSE `inputCost + outputCost` if that sum is non-zero,
else absent — so a present-but-zero `totalCost` falls through to the unit
costs. Stated only to be compared with `codeOwnCost`. -/
def claimOwnCost (d : TreeNodeData) : Option ℚ :=
  match d.calculatedTotalCost with
  | some t =>
    if t ≠ 0 then some t
    else if d.calculatedInputCost.getD 0 + d.calculatedOutputCost.getD 0 ≠ 0 then
      some (d.calculatedInputCost.getD 0 + d.calculatedOutputCost.getD 0)
    else none
  | none =>
    if d.calculatedInputCost.getD 0 + d.calculatedOutputCost.getD 0 ≠ 0 then
      some (d.calculatedInputCost.getD 0 + d.calculatedOutputCost.getD 0)
    else none

mutual
/-- The aggregated cost a subtree should carry: own cost combined with the
children's aggregates under the `undefined`-skipping reduce of the code. -/
def subtreeOwnOpt : TreeNode → Option ℚ
  | .mk d ch => optPlus (codeOwnCost d) (subtreeCostList ch none)
/-- The children reduce over the subtree aggregates. -/
def subtreeCostList : List TreeNode → Option ℚ → Option ℚ
  | [], acc => acc
  | c :: rest, acc =>
    subtreeCostList rest
      (match subtreeOwnOpt c with
       | none => acc
       | some q =>
         match acc with
         | some a => some (a + q)
         | none => some q)
end

mutual
/-- The exact rational sum of own costs over a subtree (absent own costs
count zero). -/
def subtreeOwn : TreeNode → ℚ
  | .mk d ch => (codeOwnCost d).getD 0 + subtreeOwnList ch
/-- The exact rational sum of own costs over a forest. -/
def subtreeOwnList : List TreeNode → ℚ
  | [] => 0
  | c :: rest => subtreeOwn c + subtreeOwnList rest
end

def trC1 : TraceInfo :=
  { tid := cs "T", tname := some (cs "trace"), timestamp := 0,
    latency := none, rootObservationType := some (cs "EVENT") }

def ceC1 : List TObs :=
  [ { id := cs "Z", name := some (cs "Z"), otype := cs "SPAN", level := cs "DEFAULT",
      parentObservationId := none, startTime := 1, endTime := some 2,
      totalCost := some 0, inputCost := some 5, outputCost := none,
      inputUsage := none, outputUsage := none, totalUsage := none, traceId := cs "t" } ]

/--
**C1 counterexample** — the claim's own-cost rule falls through to
`inputCost + outputCost` whenever `totalCost` is not "present and non-zero",
but the code only falls through when `totalCost` is absent (`else if`): a leaf
with `totalCost = 0` and `inputCost = 5` gets no aggregated cost at all, while
the claim demands an aggregate of `5`.
-/
theorem claim_C1_counterexample :
    ((aget (buildTraceUiData trC1 ceC1 none).2.2.2 (cs "Z")).map
      (fun t => t.data.totalCost)) = some none ∧
    ((aget (buildTraceUiData trC1 ceC1 none).2.2.2 (cs "Z")).map
      (fun t => claimOwnCost t.data)) = some (some 5) ∧
    ((aget (buildTraceUiData trC1 ceC1 none).2.2.2 (cs "Z")).map
      (fun t => t.children.length)) = some 0 := by
  refine ⟨?_, ?_, ?_⟩ <;> with_unfolding_all decide

/-- A tree node whose stored aggregate matches its subtree's own costs. -/
def GoodT (t : TreeNode) : Prop := t.data.totalCost = subtreeOwnOpt t

def RegGood (reg : List (Str × PNode)) : Prop :=
  ∀ e ∈ reg, ∀ tn, e.2.treeNode = some tn → GoodT tn

def NMGood (nm : List (Str × TreeNode)) : Prop := ∀ e ∈ nm, GoodT e.2

theorem subtreeOwnOpt_mk (d : TreeNodeData) (ch : List TreeNode) :
    subtreeOwnOpt (.mk d ch) = optPlus (codeOwnCost d) (subtreeCostList ch none) := by
  rw [subtreeOwnOpt]

theorem subtreeCostList_nil (acc : Option ℚ) : subtreeCostList [] acc = acc := by
  rw [subtreeCostList]

theorem subtreeCostList_cons (c : TreeNode) (rest : List TreeNode) (acc : Option ℚ) :
    subtreeCostList (c :: rest) acc =
      subtreeCostList rest
        (match subtreeOwnOpt c with
         | none => acc
         | some q =>
           match acc with
           | some a => some (a + q)
           | none => some q) := by
  rw [subtreeCostList]

/-- The children-cost reduce agrees with `subtreeCostList` whenever the
children's stored aggregates are correct. -/
theorem costFold_eq_subtreeCostList {ch : List TreeNode} (h : ∀ c ∈ ch, GoodT c) :
    ∀ acc : Option ℚ,
      ch.foldl
        (fun acc c =>
          match c.data.totalCost with
          | none => acc
          | some q =>
            match acc with
            | some a => some (a + q)
            | none => some q)
        acc = subtreeCostList ch acc := by
  induction ch with
  | nil =>
    intro acc
    rw [subtreeCostList_nil]
    rfl
  | cons c rest ih =>
    intro acc
    rw [List.foldl_cons, subtreeCostList_cons]
    rw [h c (by simp)]
    exact ih (fun c' hc' => h c' (List.mem_cons_of_mem _ hc')) _

theorem goodT_mkObs {reg : List (Str × PNode)} {ts : Int} {node : PNode}
    {ch : List TreeNode} (h : ∀ c ∈ ch, GoodT c) :
    GoodT (mkObsTreeNode reg ts node ch) := by
  show optPlus (nodeCostOf node.observation) (childrenCostFold ch) =
    subtreeOwnOpt (mkObsTreeNode reg ts node ch)
  have hrhs : subtreeOwnOpt (mkObsTreeNode reg ts node ch) =
      optPlus (codeOwnCost (mkObsTreeNode reg ts node ch).data) (subtreeCostList ch none) := by
    show subtreeOwnOpt (.mk (mkObsTreeNode reg ts node ch).data ch) = _
    rw [subtreeOwnOpt_mk]
  rw [hrhs]
  have hown : codeOwnCost (mkObsTreeNode reg ts node ch).data = nodeCostOf node.observation := rfl
  rw [hown]
  unfold childrenCostFold
  rw [costFold_eq_subtreeCostList h]

theorem goodT_mkTrace {trace : TraceInfo} {roots : List TreeNode}
    {cd : Int} (h : ∀ c ∈ roots, GoodT c) :
    GoodT (mkTraceNode trace roots (rootsCostFold roots) cd) := by
  show rootsCostFold roots = subtreeOwnOpt (mkTraceNode trace roots (rootsCostFold roots) cd)
  have hrhs : subtreeOwnOpt (mkTraceNode trace roots (rootsCostFold roots) cd) =
      optPlus (codeOwnCost (mkTraceNode trace roots (rootsCostFold roots) cd).data)
        (subtreeCostList roots none) := by
    show subtreeOwnOpt (.mk (mkTraceNode trace roots (rootsCostFold roots) cd).data roots) = _
    rw [subtreeOwnOpt_mk]
  rw [hrhs]
  have hown : codeOwnCost (mkTraceNode trace roots (rootsCostFold roots) cd).data = none := rfl
  rw [hown]
  show rootsCostFold roots = subtreeCostList roots none
  unfold rootsCostFold
  rw [costFold_eq_subtreeCostList h]

theorem regGood_aset {reg : List (Str × PNode)} {k : Str} {n : PNode}
    (h : RegGood reg) (hn : ∀ tn, n.treeNode = some tn → GoodT tn) :
    RegGood (aset reg k n) := by
  intro e he
  rcases mem_aset e he with rfl | he'
  · exact hn
  · exact h e he'



theorem kahnLoop_good (ts : Int) :
    ∀ (fuel : Nat) (reg : List (Str × PNode)) (nm : List (Str × TreeNode))
      (queue roots : List Str), RegGood reg → NMGood nm →
      RegGood (kahnLoop ts fuel reg nm queue roots).1 ∧
        NMGood (kahnLoop ts fuel reg nm queue roots).2.1 := by
  intro fuel
  induction fuel with
  | zero =>
    intro reg nm queue roots hr hn
    cases queue <;> exact ⟨hr, hn⟩
  | succ f ih =>
    intro reg nm queue roots hr hn
    cases queue with
    | nil => exact ⟨hr, hn⟩
    | cons id rest =>
      rw [kahnLoop]
      cases hg : aget reg id with
      | none => exact ih reg nm rest roots hr hn
      | some node =>
        dsimp only
        have hch : ∀ c ∈ node.childrenIds.filterMap (fun cid => match aget reg cid with | some cn => cn.treeNode | none => none), GoodT c := by
          intro c hc
          rcases List.mem_filterMap.1 hc with ⟨cid, hcid, hcv⟩
          cases hcg : aget reg cid with
          | none =>
            rw [hcg] at hcv
            cases hcv
          | some cn =>
            rw [hcg] at hcv
            exact hr _ (aget_mem hcg) c hcv
        have htn := @goodT_mkObs reg ts node _ hch
        have hr1 := @regGood_aset reg id { node with treeNode := some (mkObsTreeNode reg ts node (node.childrenIds.filterMap (fun cid => match aget reg cid with | some cn => cn.treeNode | none => none))) } hr (fun tn htn' => by have h2 := Option.some.inj htn'; exact h2 ▸ htn)
        have hn1 : NMGood (aset nm id (mkObsTreeNode reg ts node (node.childrenIds.filterMap (fun cid => match aget reg cid with | some cn => cn.treeNode | none => none)))) := by
          intro e he
          rcases mem_aset e he with rfl | he'
          · exact htn
          · exact hn e he'
        cases node.observation.parentObservationId with
        | none => exact ih _ _ _ _ hr1 hn1
        | some p =>
          dsimp only
          split
          next hne =>
            split
            next parent hpg =>
              have hr2 := @regGood_aset _ p { parent with inDegree := parent.inDegree - 1 } hr1 (fun tn htn' => hr1 _ (aget_mem hpg) tn htn')
              split
              next hdeg => exact ih _ _ _ _ hr2 hn1
              next hdeg => exact ih _ _ _ _ hr2 hn1
            next hpg => exact ih _ _ _ _ hr1 hn1
          next hne => exact ih _ _ _ _ hr1 hn1

/-- The dependency-graph passes never populate `treeNode`. -/
def RegNone (reg : List (Str × PNode)) : Prop := ∀ e ∈ reg, e.2.treeNode = none

theorem regNone_aset {reg : List (Str × PNode)} {k : Str} {n : PNode}
    (h : RegNone reg) (hn : n.treeNode = none) : RegNone (aset reg k n) := by
  intro e he
  rcases mem_aset e he with rfl | he'
  · exact hn
  · exact h e he'

theorem regNone_regPass1 (sorted : List TObs) : RegNone (regPass1 sorted) := by
  show RegNone (sorted.foldl (fun m o => aset m o.id ⟨o, [], 0, 0, none⟩) [])
  refine @foldl_pres (List (Str × PNode)) TObs RegNone _ ?_ sorted [] ?_
  · intro acc o hacc
    exact regNone_aset hacc rfl
  · intro e he
    cases he

theorem regNone_regPass2 {reg : List (Str × PNode)} (sorted : List TObs)
    (h : RegNone reg) : RegNone (regPass2 reg sorted) := by
  refine @foldl_pres (List (Str × PNode)) TObs RegNone _ ?_ sorted reg h
  intro acc o hacc
  cases o.parentObservationId with
  | none => exact hacc
  | some p =>
    dsimp only
    split
    · cases hp : aget acc p with
      | none => exact hacc
      | some parent =>
        exact regNone_aset hacc (hacc _ (aget_mem hp))
    · exact hacc

theorem regNone_bfsDepth :
    ∀ (fuel : Nat) (reg : List (Str × PNode)) (q : List Str),
      RegNone reg → RegNone (bfsDepth fuel reg q) := by
  intro fuel
  induction fuel with
  | zero =>
    intro reg q h
    cases q <;> exact h
  | succ f ih =>
    intro reg q h
    cases q with
    | nil => exact h
    | cons id rest =>
      rw [bfsDepth]
      cases hg : aget reg id with
      | none => exact ih reg rest h
      | some node =>
        dsimp only
        refine ih _ _ ?_
        refine @foldl_pres (List (Str × PNode) × List Str) Str
          (fun acc => RegNone acc.1) _ ?_ node.childrenIds (reg, []) h
        intro acc cid hacc
        cases hc : aget acc.1 cid with
        | none => exact hacc
        | some child =>
          exact regNone_aset hacc (hacc _ (aget_mem hc))

theorem regNone_regPass4 {reg : List (Str × PNode)} (h : RegNone reg) :
    RegNone (regPass4 reg) := by
  intro e he
  rcases List.mem_map.1 he with ⟨f, hf, rfl⟩
  exact h f hf

theorem regNone_buildDependencyGraph (sorted : List TObs) :
    RegNone (buildDependencyGraph sorted).1 := by
  exact regNone_regPass4 (regNone_bfsDepth _ _ _ (regNone_regPass2 sorted (regNone_regPass1 sorted)))

theorem regGood_of_regNone {reg : List (Str × PNode)} (h : RegNone reg) :
    RegGood reg := by
  intro e he tn htn
  rw [h e he] at htn
  cases htn

/-- Everything a root lookup can return out of a `GoodT`-invariant registry is
itself `GoodT`. -/
theorem rootTreeNodes_good {reg : List (Str × PNode)} (hr : RegGood reg)
    (rids : List Str) (le : TreeNode → TreeNode → Bool) :
    ∀ t ∈ jsSortBy le (rids.filterMap (fun rid => (aget reg rid).bind (fun n => n.treeNode))),
      GoodT t := by
  intro t ht
  have ht' := mem_jsSortBy.1 ht
  rcases List.mem_filterMap.1 ht' with ⟨rid, _, hv⟩
  cases hg : aget reg rid with
  | none =>
    rw [hg] at hv
    cases hv
  | some n =>
    rw [hg] at hv
    exact hr _ (aget_mem hg) t hv

theorem buildTraceTree_nmGood (trace : TraceInfo) (observations : List TObs)
    (minLevel : Option Str) : NMGood (buildTraceTree trace observations minLevel).2.2 := by
  rw [buildTraceTree]
  dsimp only
  split
  · split
    · intro e he
      cases he
    · intro e he
      cases he with
      | head => exact @goodT_mkTrace trace [] 0 (fun c hc => by cases hc)
      | tail _ h2 => cases h2
  · split
    · exact (kahnLoop_good trace.timestamp _ _ _ _ _
        (regGood_of_regNone (regNone_buildDependencyGraph _))
        (fun e he => by cases he)).2
    · intro e he
      rcases mem_aset e he with rfl | he'
      · exact @goodT_mkTrace trace _ _
          (rootTreeNodes_good
            (kahnLoop_good trace.timestamp _ _ _ _ _
              (regGood_of_regNone (regNone_buildDependencyGraph _))
              (fun e he => by cases he)).1 _ _)
      · exact (kahnLoop_good trace.timestamp _ _ _ _ _
          (regGood_of_regNone (regNone_buildDependencyGraph _))
          (fun e he => by cases he)).2 e he'

theorem buildTraceUiData_nmGood (trace : TraceInfo) (observations : List TObs)
    (minLevel : Option Str) :
    NMGood (buildTraceUiData trace observations minLevel).2.2.2 := by
  rw [buildTraceUiData]
  dsimp only
  split
  · exact buildTraceTree_nmGood trace observations minLevel
  · exact buildTraceTree_nmGood trace observations minLevel

theorem subtreeOwnList_nil : subtreeOwnList [] = 0 := by
  rw [subtreeOwnList]

theorem subtreeOwnList_cons (c : TreeNode) (rest : List TreeNode) :
    subtreeOwnList (c :: rest) = subtreeOwn c + subtreeOwnList rest := by
  rw [subtreeOwnList]

theorem subtreeOwn_mk (d : TreeNodeData) (ch : List TreeNode) :
    subtreeOwn (.mk d ch) = (codeOwnCost d).getD 0 + subtreeOwnList ch := by
  rw [subtreeOwn]

theorem tsize_mk (d : TreeNodeData) (ch : List TreeNode) :
    tsize (.mk d ch) = 1 + tsizeList ch := by
  rw [tsize]

theorem tsizeList_cons (c : TreeNode) (rest : List TreeNode) :
    tsizeList (c :: rest) = tsize c + tsizeList rest := by
  rw [tsizeList]

theorem tsize_pos (t : TreeNode) : 1 ≤ tsize t := by
  cases t with
  | mk d ch =>
    rw [tsize_mk]
    omega

/-- Fuel-indexed simultaneous induction relating the `Option`-level aggregate to
the exact rational subtree sum. -/
theorem subtree_getD_aux :
    ∀ n : Nat,
      (∀ t : TreeNode, tsize t ≤ n → (subtreeOwnOpt t).getD 0 = subtreeOwn t) ∧
      (∀ ch : List TreeNode, tsizeList ch ≤ n → ∀ acc : Option ℚ,
        (subtreeCostList ch acc).getD 0 = acc.getD 0 + subtreeOwnList ch) := by
  intro n
  induction n with
  | zero =>
    constructor
    · intro t hle
      have := tsize_pos t
      omega
    · intro ch hle acc
      cases ch with
      | nil =>
        rw [subtreeCostList_nil, subtreeOwnList_nil, add_zero]
      | cons c rest =>
        rw [tsizeList_cons] at hle
        have := tsize_pos c
        omega
  | succ n ih =>
    have htree : ∀ t : TreeNode, tsize t ≤ n + 1 →
        (subtreeOwnOpt t).getD 0 = subtreeOwn t := by
      intro t hle
      cases t with
      | mk d ch =>
        rw [tsize_mk] at hle
        have hch : tsizeList ch ≤ n := by omega
        rw [subtreeOwnOpt_mk, subtreeOwn_mk]
        have hlist := ih.2 ch hch none
        cases ho : codeOwnCost d <;> cases hsc : subtreeCostList ch none <;>
          rw [hsc] at hlist <;>
            simp only [optPlus, Option.getD_none, Option.getD_some] at hlist ⊢ <;>
              linarith
    refine ⟨htree, ?_⟩
    intro ch hle acc
    cases ch with
    | nil =>
      rw [subtreeCostList_nil, subtreeOwnList_nil, add_zero]
    | cons c rest =>
      rw [tsizeList_cons] at hle
      have hc1 : tsize c ≤ n + 1 := by omega
      have hrest : tsizeList rest ≤ n := by
        have := tsize_pos c
        omega
      rw [subtreeCostList_cons, subtreeOwnList_cons]
      rw [ih.2 rest hrest]
      have hcval := htree c hc1
      cases hc : subtreeOwnOpt c <;> rw [hc] at hcval <;> cases acc <;>
        simp only [Option.getD_none, Option.getD_some] at hcval ⊢ <;> linarith

theorem subtreeOwnOpt_getD (t : TreeNode) :
    (subtreeOwnOpt t).getD 0 = subtreeOwn t :=
  (subtree_getD_aux (tsize t)).1 t (Nat.le_refl _)

/--
**C1 (amended)** — in the output of `buildTraceUiData`, every tree node in the
returned node map carries an aggregated `totalCost` equal to the combination of
its own cost and its descendants' own costs, where a node's own cost is its
`totalCost` field when present and non-zero, else — only when `totalCost` is
absent — `inputCost + outputCost` when a unit cost is present and the sum is
non-zero, else absent; as a rational number, the aggregate (absent counting
zero) equals the exact sum of the node's own cost and all its descendants' own
costs.
-/
theorem claim_C1_amended (trace : TraceInfo) (observations : List TObs)
    (minLevel : Option Str) :
    ∀ e ∈ (buildTraceUiData trace observations minLevel).2.2.2,
      e.2.data.totalCost = subtreeOwnOpt e.2 ∧
        (e.2.data.totalCost).getD 0 = subtreeOwn e.2 := by
  intro e he
  have h := buildTraceUiData_nmGood trace observations minLevel e he
  refine ⟨h, ?_⟩
  rw [h]
  exact subtreeOwnOpt_getD e.2

/-- The single entry of the node map produced on the C1 example input. -/
def weC1 : Str × TreeNode :=
  match (buildTraceUiData trC1 ceC1 none).2.2.2 with
  | e :: _ => e
  | [] => (cs "Z", mkTraceNode trC1 [] none 0)

theorem claim_C1_amended_witness :
    weC1.2.data.totalCost = subtreeOwnOpt weC1.2 ∧
      (weC1.2.data.totalCost).getD 0 = subtreeOwn weC1.2 :=
  claim_C1_amended trC1 ceC1 none weC1
    (by with_unfolding_all exact List.Mem.head _)

theorem aget_eq_none_iff [DecidableEq κ] {m : List (κ × ν)} {k : κ} :
    aget m k = none ↔ k ∉ akeys m := by
  induction m with
  | nil =>
    constructor
    · intro _ hm
      cases hm
    · intro _
      rfl
  | cons e rest ih =>
    obtain ⟨k', v'⟩ := e
    by_cases h : k' = k
    · subst h
      constructor
      · intro hn
        rw [aget, if_pos rfl] at hn
        cases hn
      · intro hm
        exact absurd (List.mem_cons_self _ _) hm
    · rw [show aget ((k', v') :: rest) k = aget rest k from by rw [aget, if_neg h]]
      rw [ih]
      constructor
      · intro hn hm
        rcases List.mem_cons.1 hm with h1 | h1
        · exact h h1.symm
        · exact hn h1
      · intro hm h1
        exact hm (List.mem_cons_of_mem _ h1)

theorem mem_akeys_of_aget [DecidableEq κ] {m : List (κ × ν)} {k : κ} {v : ν}
    (h : aget m k = some v) : k ∈ akeys m := by
  by_contra hm
  rw [← aget_eq_none_iff] at hm
  rw [hm] at h
  cases h

theorem aget_some_of_mem_akeys [DecidableEq κ] {m : List (κ × ν)} {k : κ}
    (h : k ∈ akeys m) : ∃ v, aget m k = some v := by
  cases hg : aget m k with
  | none => exact absurd (aget_eq_none_iff.1 hg) (fun hn => hn h)
  | some v => exact ⟨v, rfl⟩

theorem ahas_eq_true_iff [DecidableEq κ] {m : List (κ × ν)} {k : κ} :
    ahas m k = true ↔ k ∈ akeys m := by
  constructor
  · intro h
    cases hg : aget m k with
    | none =>
      rw [ahas, hg] at h
      cases h
    | some v => exact mem_akeys_of_aget hg
  · intro h
    rcases aget_some_of_mem_akeys h with ⟨v, hv⟩
    rw [ahas, hv]
    rfl

theorem ahas_eq_false_iff [DecidableEq κ] {m : List (κ × ν)} {k : κ} :
    ahas m k = false ↔ k ∉ akeys m := by
  constructor
  · intro h hm
    rw [ahas_eq_true_iff.2 hm] at h
    cases h
  · intro h
    cases hb : ahas m k with
    | false => rfl
    | true => exact absurd (ahas_eq_true_iff.1 hb) h

theorem akeys_aset_mem [DecidableEq κ] {m : List (κ × ν)} {k : κ} (v : ν)
    (h : k ∈ akeys m) : akeys (aset m k v) = akeys m := by
  induction m with
  | nil => cases h
  | cons e rest ih =>
    obtain ⟨k', v'⟩ := e
    by_cases hk : k' = k
    · subst hk
      rw [aset, if_pos rfl]
      rfl
    · rw [aset, if_neg hk]
      show k' :: akeys (aset rest k v) = k' :: akeys rest
      rcases List.mem_cons.1 h with h1 | h1
      · exact absurd h1.symm hk
      · rw [ih h1]

theorem akeys_aset_not_mem [DecidableEq κ] {m : List (κ × ν)} {k : κ} (v : ν)
    (h : k ∉ akeys m) : akeys (aset m k v) = akeys m ++ [k] := by
  induction m with
  | nil => rfl
  | cons e rest ih =>
    obtain ⟨k', v'⟩ := e
    by_cases hk : k' = k
    · subst hk
      exact absurd (List.mem_cons_self _ _) h
    · rw [aset, if_neg hk]
      show k' :: akeys (aset rest k v) = (k' :: akeys rest) ++ [k]
      rw [ih (fun h1 => h (List.mem_cons_of_mem _ h1))]
      rfl

theorem ahas_aset_self [DecidableEq κ] (m : List (κ × ν)) (k : κ) (v : ν) :
    ahas (aset m k v) k = true := by
  rw [ahas, aget_aset_self]
  rfl

theorem ahas_aset_ne [DecidableEq κ] {m : List (κ × ν)} {k k' : κ} (v : ν)
    (h : k' ≠ k) : ahas (aset m k v) k' = ahas m k' := by
  rw [ahas, aget_aset_ne v h, ahas]

theorem aget_of_mem_of_nodup [DecidableEq κ] {m : List (κ × ν)} {e : κ × ν}
    (hnd : (akeys m).Nodup) (he : e ∈ m) : aget m e.1 = some e.2 := by
  induction m with
  | nil => cases he
  | cons f rest ih =>
    obtain ⟨k', v'⟩ := f
    rcases List.mem_cons.1 he with h1 | h1
    · subst h1
      rw [aget, if_pos rfl]
    · rw [aget]
      split
      · next heq =>
        exfalso
        have : e.1 ∈ akeys rest := List.mem_map.2 ⟨e, h1, rfl⟩
        rw [← heq] at this
        exact (List.nodup_cons.1 hnd).1 this
      · exact ih (List.nodup_cons.1 hnd).2 h1

theorem length_filter_add_not (l : List α) (p : α → Bool) :
    (l.filter p).length + (l.filter (fun a => !(p a))).length = l.length := by
  induction l with
  | nil => rfl
  | cons x xs ih =>
    rw [List.filter_cons, List.filter_cons]
    cases h : p x <;> simp [h] <;> omega

theorem filter_length_drop {l : List α} {a : α} {p q : α → Bool} [DecidableEq α]
    (hnd : l.Nodup) (ha : a ∈ l) (hpa : p a = true) (hqa : q a = false)
    (hrest : ∀ b ∈ l, b ≠ a → p b = q b) :
    (l.filter p).length = (l.filter q).length + 1 := by
  induction l with
  | nil => cases ha
  | cons x xs ih =>
    rcases List.mem_cons.1 ha with rfl | hx
    · have hcong : xs.filter p = xs.filter q := List.filter_congr (fun b hb =>
        hrest b (List.mem_cons_of_mem _ hb)
          (fun hba => (List.nodup_cons.1 hnd).1 (hba ▸ hb)))
      simp [List.filter_cons, hpa, hqa, hcong]
    · have hxa : x ≠ a := fun hxa => (List.nodup_cons.1 hnd).1 (hxa ▸ hx)
      have hih := ih (List.nodup_cons.1 hnd).2 hx
        (fun b hb hba => hrest b (List.mem_cons_of_mem _ hb) hba)
      rw [List.filter_cons, List.filter_cons, hrest x (List.mem_cons_self _ _) hxa]
      cases hq : q x <;> simp [hq] <;> omega

theorem regPass1_entry :
    ∀ (l : List TObs) (m0 : List (Str × PNode)) (k : Str) (pe : PNode),
      aget (l.foldl (fun m o => aset m o.id ⟨o, [], 0, 0, none⟩) m0) k = some pe →
      (∃ o ∈ l, o.id = k ∧ pe = ⟨o, [], 0, 0, none⟩) ∨ aget m0 k = some pe := by
  intro l
  induction l with
  | nil => exact fun m0 k pe h => Or.inr h
  | cons o rest ih =>
    intro m0 k pe h
    rw [List.foldl_cons] at h
    rcases ih _ k pe h with ⟨o', ho', hid, hpe⟩ | h2
    · exact Or.inl ⟨o', List.mem_cons_of_mem _ ho', hid, hpe⟩
    · rcases aget_aset_cases h2 with rfl | h3
      · by_cases hk : k = o.id
        · exact Or.inl ⟨o, List.mem_cons_self _ _, hk.symm, rfl⟩
        · rw [aget_aset_ne _ hk] at h2
          exact Or.inr h2
      · exact Or.inr h3

theorem regPass1_keys :
    ∀ (l : List TObs), (l.map (fun o => o.id)).Nodup →
      ∀ (m0 : List (Str × PNode)), (∀ o ∈ l, o.id ∉ akeys m0) →
        akeys (l.foldl (fun m o => aset m o.id ⟨o, [], 0, 0, none⟩) m0) =
          akeys m0 ++ l.map (fun o => o.id) := by
  intro l
  induction l with
  | nil =>
    intro _ m0 _
    rw [List.foldl_nil, List.map_nil, List.append_nil]
  | cons o rest ih =>
    intro hnd m0 hnew
    rw [List.foldl_cons]
    have h1 : akeys (aset m0 o.id ⟨o, [], 0, 0, none⟩) = akeys m0 ++ [o.id] :=
      akeys_aset_not_mem _ (hnew o (List.mem_cons_self _ _))
    rw [ih (List.nodup_cons.1 hnd).2 _ ?_, h1, List.map_cons, List.append_assoc]
    · rfl
    · intro o' ho' hmem
      rw [h1] at hmem
      rcases List.mem_append.1 hmem with hm | hm
      · exact hnew o' (List.mem_cons_of_mem _ ho') hm
      · have h2 : o'.id = o.id := List.mem_singleton.1 hm
        exact (List.nodup_cons.1 hnd).1 (List.mem_map.2 ⟨o', ho', h2⟩)

theorem regPass2_keys (l : List TObs) (m : List (Str × PNode)) :
    akeys (regPass2 m l) = akeys m := by
  refine @foldl_pres (List (Str × PNode)) TObs (fun m' => akeys m' = akeys m)
    _ ?_ l m rfl
  intro acc o hacc
  cases o.parentObservationId with
  | none => exact hacc
  | some p =>
    dsimp only
    split
    · cases hp : aget acc p with
      | none => exact hacc
      | some parent =>
        rw [akeys_aset_mem _ (mem_akeys_of_aget hp)]
        exact hacc
    · exact hacc

theorem regPass2_entry :
    ∀ (l : List TObs) (m : List (Str × PNode)) (k : Str) (pe : PNode),
      aget (regPass2 m l) k = some pe →
      ∃ pe0, aget m k = some pe0 ∧
        pe.observation = pe0.observation ∧ pe.inDegree = pe0.inDegree ∧
        pe.depth = pe0.depth ∧ pe.treeNode = pe0.treeNode ∧
        pe.childrenIds = pe0.childrenIds ++
          (l.filter (fun o => decide (o.parentObservationId = some k) &&
            decide (k ≠ []))).map (fun o => o.id) := by
  intro l
  induction l with
  | nil =>
    intro m k pe h
    exact ⟨pe, h, rfl, rfl, rfl, rfl, by rw [List.filter_nil, List.map_nil, List.append_nil]⟩
  | cons o rest ih =>
    intro m k pe h
    have hstep : regPass2 m (o :: rest) = regPass2
        (match o.parentObservationId with
         | some p =>
           if p ≠ [] then
             match aget m p with
             | some parent => aset m p { parent with childrenIds := parent.childrenIds ++ [o.id] }
             | none => m
           else m
         | none => m) rest := rfl
    rw [hstep] at h
    rcases ih _ k pe h with ⟨pe1, hpe1, hobs, hdeg, hdep, htn, hch⟩
    cases hpar : o.parentObservationId with
    | none =>
      rw [hpar] at hpe1
      refine ⟨pe1, hpe1, hobs, hdeg, hdep, htn, ?_⟩
      rw [hch, List.filter_cons]
      have : (decide (o.parentObservationId = some k) && decide (k ≠ [])) = false := by
        rw [hpar]
        rfl
      rw [this]
      rfl
    | some p =>
      rw [hpar] at hpe1
      dsimp only at hpe1
      by_cases hpnil : p = []
      · subst hpnil
        replace hpe1 : aget m k = some pe1 := hpe1
        refine ⟨pe1, hpe1, hobs, hdeg, hdep, htn, ?_⟩
        rw [hch, List.filter_cons]
        have : (decide (o.parentObservationId = some k) && decide (k ≠ [])) = false := by
          rw [hpar]
          by_cases hk : [] = k
          · subst hk
            simp
          · simp [hk]
        rw [this]
        rfl
      · rw [if_pos hpnil] at hpe1
        cases hpm : aget m p with
        | none =>
          rw [hpm] at hpe1
          replace hpe1 : aget m k = some pe1 := hpe1
          refine ⟨pe1, hpe1, hobs, hdeg, hdep, htn, ?_⟩
          rw [hch, List.filter_cons]
          have : (decide (o.parentObservationId = some k) && decide (k ≠ [])) = false := by
            rw [hpar]
            by_cases hk : p = k
            · subst hk
              exfalso
              rw [hpm] at hpe1
              cases hpe1
            · simp [hk]
          rw [this]
          rfl
        | some parent =>
          rw [hpm] at hpe1
          dsimp only at hpe1
          by_cases hk : p = k
          · subst hk
            rw [aget_aset_self] at hpe1
            have hpe1' := Option.some.inj hpe1
            refine ⟨parent, hpm, ?_, ?_, ?_, ?_, ?_⟩
            · rw [hobs, ← hpe1']
            · rw [hdeg, ← hpe1']
            · rw [hdep, ← hpe1']
            · rw [htn, ← hpe1']
            · rw [hch, ← hpe1', List.filter_cons]
              have : (decide (o.parentObservationId = some p) && decide (p ≠ [])) = true := by
                rw [hpar]
                simp [hpnil]
              rw [this]
              show parent.childrenIds ++ [o.id] ++ _ = _
              rw [List.append_assoc]
              rfl
          · rw [aget_aset_ne _ (fun h => hk h.symm)] at hpe1
            refine ⟨pe1, hpe1, hobs, hdeg, hdep, htn, ?_⟩
            rw [hch, List.filter_cons]
            have : (decide (o.parentObservationId = some k) && decide (k ≠ [])) = false := by
              rw [hpar]
              simp [hk]
            rw [this]
            rfl

theorem bfsDepth_entry :
    ∀ (fuel : Nat) (m : List (Str × PNode)) (q : List Str) (k : Str) (pe : PNode),
      aget (bfsDepth fuel m q) k = some pe →
      ∃ pe0, aget m k = some pe0 ∧
        pe.observation = pe0.observation ∧ pe.childrenIds = pe0.childrenIds ∧
        pe.inDegree = pe0.inDegree ∧ pe.treeNode = pe0.treeNode := by
  intro fuel
  induction fuel with
  | zero =>
    intro m q k pe h
    cases q <;> exact ⟨pe, h, rfl, rfl, rfl, rfl⟩
  | succ f ih =>
    intro m q k pe h
    cases q with
    | nil => exact ⟨pe, h, rfl, rfl, rfl, rfl⟩
    | cons id rest =>
      rw [bfsDepth] at h
      cases hg : aget m id with
      | none =>
        rw [hg] at h
        exact ih _ _ _ _ h
      | some node =>
        rw [hg] at h
        dsimp only at h
        rcases ih _ _ k pe h with ⟨pe1, hpe1, hobs, hch, hdeg, htn⟩
        suffices hstep : ∀ (ids : List Str) (acc : List (Str × PNode) × List Str) (pe1 : PNode),
            aget (ids.foldl
              (fun (acc : List (Str × PNode) × List Str) cid =>
                match aget acc.1 cid with
                | some child => (aset acc.1 cid { child with depth := node.depth + 1 }, acc.2 ++ [cid])
                | none => (acc.1, acc.2)) acc).1 k = some pe1 →
            ∃ pe0, aget acc.1 k = some pe0 ∧
              pe1.observation = pe0.observation ∧ pe1.childrenIds = pe0.childrenIds ∧
              pe1.inDegree = pe0.inDegree ∧ pe1.treeNode = pe0.treeNode by
          rcases hstep node.childrenIds (m, []) pe1 hpe1 with ⟨pe0, hpe0, h1, h2, h3, h4⟩
          exact ⟨pe0, hpe0, by rw [hobs, h1], by rw [hch, h2], by rw [hdeg, h3], by rw [htn, h4]⟩
        intro ids
        induction ids with
        | nil => exact fun acc pe1 h => ⟨pe1, h, rfl, rfl, rfl, rfl⟩
        | cons cid cids ihc =>
          intro acc pe1 h
          rw [List.foldl_cons] at h
          rcases ihc _ _ h with ⟨pe2, hpe2, h1, h2, h3, h4⟩
          cases hcg : aget acc.1 cid with
          | none =>
            rw [hcg] at hpe2
            exact ⟨pe2, hpe2, h1, h2, h3, h4⟩
          | some child =>
            rw [hcg] at hpe2
            dsimp only at hpe2
            by_cases hk : cid = k
            · subst hk
              rw [aget_aset_self] at hpe2
              have := Option.some.inj hpe2
              refine ⟨child, hcg, ?_, ?_, ?_, ?_⟩
              · rw [h1, ← this]
              · rw [h2, ← this]
              · rw [h3, ← this]
              · rw [h4, ← this]
            · rw [aget_aset_ne _ (fun h => hk h.symm)] at hpe2
              exact ⟨pe2, hpe2, h1, h2, h3, h4⟩

theorem bfsDepth_keys :
    ∀ (fuel : Nat) (m : List (Str × PNode)) (q : List Str),
      akeys (bfsDepth fuel m q) = akeys m := by
  intro fuel
  induction fuel with
  | zero =>
    intro m q
    cases q <;> rfl
  | succ f ih =>
    intro m q
    cases q with
    | nil => rfl
    | cons id rest =>
      rw [bfsDepth]
      cases hg : aget m id with
      | none => exact ih _ _
      | some node =>
        dsimp only
        rw [ih]
        refine @foldl_pres (List (Str × PNode) × List Str) Str
          (fun acc => akeys acc.1 = akeys m) _ ?_ node.childrenIds (m, []) rfl
        intro acc cid hacc
        cases hcg : aget acc.1 cid with
        | none => exact hacc
        | some child =>
          show akeys (aset acc.1 cid _) = akeys m
          rw [akeys_aset_mem _ (mem_akeys_of_aget hcg)]
          exact hacc

theorem aget_regPass4 (m : List (Str × PNode)) (k : Str) :
    aget (regPass4 m) k =
      (aget m k).map (fun pe => { pe with inDegree := (pe.childrenIds.length : Int) }) := by
  induction m with
  | nil => rfl
  | cons e rest ih =>
    obtain ⟨k', v'⟩ := e
    show aget ((k', _) :: regPass4 rest) k = _
    by_cases h : k' = k
    · subst h
      rw [aget, aget, if_pos rfl, if_pos rfl]
      rfl
    · rw [aget, aget, if_neg h, if_neg h]
      exact ih

theorem akeys_regPass4 (m : List (Str × PNode)) : akeys (regPass4 m) = akeys m := by
  show (m.map _).map Prod.fst = m.map Prod.fst
  rw [List.map_map]
  rfl

theorem buildDepGraph_keys (s : List TObs)
    (hnd : (s.map (fun o => o.id)).Nodup) :
    akeys (buildDependencyGraph s).1 = s.map (fun o => o.id) := by
  show akeys (regPass4 (bfsDepth _ (regPass2 (regPass1 s) s) _)) = _
  rw [akeys_regPass4, bfsDepth_keys, regPass2_keys]
  show akeys (s.foldl _ []) = _
  rw [regPass1_keys s hnd [] (fun o _ hm => by cases hm)]
  rfl

theorem buildDepGraph_entry (s : List TObs)
    (hnd : (s.map (fun o => o.id)).Nodup) :
    ∀ k pe, aget (buildDependencyGraph s).1 k = some pe →
      (∃ o ∈ s, o.id = k ∧ pe.observation = o) ∧
      pe.childrenIds = (s.filter (fun o => decide (o.parentObservationId = some k) &&
        decide (k ≠ []))).map (fun o => o.id) ∧
      pe.inDegree = (pe.childrenIds.length : Int) := by
  intro k pe h
  replace h : aget (regPass4 (bfsDepth (2 * s.length + 2)
      (regPass2 (regPass1 s) s) (rootIds0Of (regPass2 (regPass1 s) s)))) k = some pe := h
  rw [aget_regPass4] at h
  cases hb : aget (bfsDepth (2 * s.length + 2) (regPass2 (regPass1 s) s)
      (rootIds0Of (regPass2 (regPass1 s) s))) k with
  | none =>
    rw [hb] at h
    cases h
  | some pe3 =>
    rw [hb] at h
    have hpe : pe = { pe3 with inDegree := (pe3.childrenIds.length : Int) } :=
      (Option.some.inj h).symm
    rcases bfsDepth_entry _ _ _ _ _ hb with ⟨pe2, hpe2, hobs3, hch3, _, _⟩
    rcases regPass2_entry s _ k pe2 hpe2 with ⟨pe1, hpe1, hobs2, _, _, _, hch2⟩
    rcases regPass1_entry s [] k pe1 hpe1 with ⟨o, ho, hid, hpe1eq⟩ | hnil
    · subst hpe
      refine ⟨⟨o, ho, hid, ?_⟩, ?_, ?_⟩
      · show pe3.observation = o
        rw [hobs3, hobs2, hpe1eq]
      · show pe3.childrenIds = _
        rw [hch3, hch2, hpe1eq]
        exact List.nil_append _
      · rfl
    · cases hnil

/-- A rank certificate for acyclicity of the (post-preparation) parent
pointers: every observation's rank is strictly below its parent's. -/
def rankParentOk (rank : Str → Nat) (o : TObs) : Bool :=
  match o.parentObservationId with
  | some pid => decide (rank o.id < rank pid)
  | none => true

theorem tobs_unique {s : List TObs} (hnd : (s.map (fun o => o.id)).Nodup)
    {o1 o2 : TObs} (h1 : o1 ∈ s) (h2 : o2 ∈ s) (hid : o1.id = o2.id) : o1 = o2 := by
  induction s with
  | nil => cases h1
  | cons a rest ih =>
    rcases List.mem_cons.1 h1 with rfl | h1' <;> rcases List.mem_cons.1 h2 with rfl | h2'
    · rfl
    · exact absurd (List.mem_map.2 ⟨o2, h2', hid.symm⟩) (List.nodup_cons.1 hnd).1
    · exact absurd (List.mem_map.2 ⟨o1, h1', hid⟩) (List.nodup_cons.1 hnd).1
    · exact ih (List.nodup_cons.1 hnd).2 h1' h2'

theorem depGraph_child_parent (s : List TObs) (hnd : (s.map (fun o => o.id)).Nodup) :
    ∀ k pe, aget (buildDependencyGraph s).1 k = some pe → ∀ c ∈ pe.childrenIds,
      ∃ ce, aget (buildDependencyGraph s).1 c = some ce ∧
        ce.observation.parentObservationId = some k ∧ k ≠ [] := by
  intro k pe h c hc
  rcases buildDepGraph_entry s hnd k pe h with ⟨⟨o, ho, hid, hobs⟩, hch, _⟩
  rw [hch] at hc
  rcases List.mem_map.1 hc with ⟨oc, hoc, hcid⟩
  have hm := List.mem_filter.1 hoc
  have hpred := hm.2
  simp only [Bool.and_eq_true, decide_eq_true_eq] at hpred
  have hcm : c ∈ akeys (buildDependencyGraph s).1 := by
    rw [buildDepGraph_keys s hnd]
    exact List.mem_map.2 ⟨oc, hm.1, hcid⟩
  rcases aget_some_of_mem_akeys hcm with ⟨ce, hce⟩
  rcases buildDepGraph_entry s hnd c ce hce with ⟨⟨oc', hoc', hid', hobs'⟩, _, _⟩
  have hoo : oc' = oc := tobs_unique hnd hoc' hm.1 (by rw [hid', ← hcid])
  refine ⟨ce, hce, ?_, hpred.2⟩
  rw [hobs', hoo, hpred.1]

theorem depGraph_parent_child (s : List TObs) (hnd : (s.map (fun o => o.id)).Nodup) :
    ∀ k pe, aget (buildDependencyGraph s).1 k = some pe →
      ∀ p, pe.observation.parentObservationId = some p → p ≠ [] →
        ∀ ppe, aget (buildDependencyGraph s).1 p = some ppe → k ∈ ppe.childrenIds := by
  intro k pe h p hp hpnil ppe hppe
  rcases buildDepGraph_entry s hnd k pe h with ⟨⟨o, ho, hid, hobs⟩, _, _⟩
  rcases buildDepGraph_entry s hnd p ppe hppe with ⟨_, hchp, _⟩
  rw [hchp]
  have ho2 : o.parentObservationId = some p := by
    rw [← hobs]
    exact hp
  refine List.mem_map.2 ⟨o, List.mem_filter.2 ⟨ho, ?_⟩, hid⟩
  simp [ho2, hpnil]

theorem depGraph_children_nodup (s : List TObs) (hnd : (s.map (fun o => o.id)).Nodup) :
    ∀ k pe, aget (buildDependencyGraph s).1 k = some pe → pe.childrenIds.Nodup := by
  intro k pe h
  rcases buildDepGraph_entry s hnd k pe h with ⟨_, hch, _⟩
  rw [hch]
  exact ((List.filter_sublist _).map _).nodup hnd

theorem depGraph_child_rank (s : List TObs) (hnd : (s.map (fun o => o.id)).Nodup)
    (rank : Str → Nat) (hrank : ∀ o ∈ s, rankParentOk rank o = true) :
    ∀ k pe, aget (buildDependencyGraph s).1 k = some pe →
      ∀ c ∈ pe.childrenIds, rank c < rank k := by
  intro k pe h c hc
  rcases buildDepGraph_entry s hnd k pe h with ⟨_, hch, _⟩
  rw [hch] at hc
  rcases List.mem_map.1 hc with ⟨oc, hoc, hcid⟩
  have hm := List.mem_filter.1 hoc
  have hpred := hm.2
  simp only [Bool.and_eq_true, decide_eq_true_eq] at hpred
  have hr := hrank oc hm.1
  unfold rankParentOk at hr
  rw [hpred.1] at hr
  rw [← hcid]
  exact of_decide_eq_true hr

/-- During the bottom-up loop, every registry entry keeps the observation and
children it had in the initial dependency-graph registry, and keys are stable. -/
def pnFrame (reg0 reg : List (Str × PNode)) : Prop :=
  (∀ k pe, aget reg k = some pe → ∃ pe0, aget reg0 k = some pe0 ∧
    pe.observation = pe0.observation ∧ pe.childrenIds = pe0.childrenIds) ∧
  (∀ k, aget reg k = none → aget reg0 k = none)

theorem pnFrame_aset {reg0 reg : List (Str × PNode)} {k : Str} {pe pe' : PNode}
    (hf : pnFrame reg0 reg) (hk : aget reg k = some pe)
    (hobs : pe'.observation = pe.observation) (hch : pe'.childrenIds = pe.childrenIds) :
    pnFrame reg0 (aset reg k pe') := by
  constructor
  · intro k' pe'' h
    by_cases hkk : k' = k
    · subst hkk
      rw [aget_aset_self] at h
      rcases hf.1 k' pe hk with ⟨pe0, hpe0, h1, h2⟩
      have hpe'' := Option.some.inj h
      exact ⟨pe0, hpe0, by rw [← hpe'', hobs, h1], by rw [← hpe'', hch, h2]⟩
    · rw [aget_aset_ne _ hkk] at h
      exact hf.1 k' pe'' h
  · intro k' h
    by_cases hkk : k' = k
    · subst hkk
      rw [aget_aset_self] at h
      cases h
    · rw [aget_aset_ne _ hkk] at h
      exact hf.2 k' h

/-- Number of children not yet present in the node map. -/
def unprocCount (nm : List (Str × TreeNode)) (ch : List Str) : Nat :=
  (ch.filter (fun c => !(ahas nm c))).length

/-- Once the queue is empty, the no-unprocessed-child disjunction plus the rank
certificate forces every key to be processed. -/
theorem kahnComplete {reg0 reg : List (Str × PNode)} {nm : List (Str × TreeNode)}
    (rank : Str → Nat)
    (hS2 : ∀ k pe, aget reg0 k = some pe → ∀ c ∈ pe.childrenIds,
      ∃ ce, aget reg0 c = some ce ∧ ce.observation.parentObservationId = some k ∧ k ≠ [])
    (hS5 : ∀ k pe, aget reg0 k = some pe → ∀ c ∈ pe.childrenIds, rank c < rank k)
    (hFrame : pnFrame reg0 reg)
    (hD : ∀ k ∈ akeys reg0, k ∈ akeys nm ∨
      ∃ pe, aget reg k = some pe ∧ ∃ c ∈ pe.childrenIds, ahas nm c = false) :
    ∀ k ∈ akeys reg0, k ∈ akeys nm := by
  suffices hn : ∀ (n : Nat) (k : Str), rank k < n → k ∈ akeys reg0 → k ∈ akeys nm by
    intro k hk
    exact hn (rank k + 1) k (Nat.lt_succ_self _) hk
  intro n
  induction n with
  | zero =>
    intro k hk
    omega
  | succ n ih =>
    intro k hk hkm
    rcases hD k hkm with hdone | ⟨pe, hpe, c, hc, hcf⟩
    · exact hdone
    · exfalso
      rcases hFrame.1 k pe hpe with ⟨pe0, hpe0, _, hch⟩
      rw [hch] at hc
      rcases hS2 k pe0 hpe0 c hc with ⟨ce, hce, _, _⟩
      have hcK : c ∈ akeys reg0 := mem_akeys_of_aget hce
      have hcr : rank c < rank k := hS5 k pe0 hpe0 c hc
      have := ih c (by omega) hcK
      rw [ahas_eq_false_iff] at hcf
      exact hcf this

/-- Loop invariant: each entry's in-degree counts its children missing from the
node map. -/
def kahnI2 (reg : List (Str × PNode)) (nm : List (Str × TreeNode)) : Prop :=
  ∀ k pe, aget reg k = some pe → pe.inDegree = (unprocCount nm pe.childrenIds : Int)

/-- Loop invariant: a queued or processed key has all its children processed. -/
def kahnI5 (reg : List (Str × PNode)) (nm : List (Str × TreeNode))
    (queue : List Str) : Prop :=
  ∀ k, (k ∈ queue ∨ k ∈ akeys nm) → ∀ pe, aget reg k = some pe →
    ∀ c ∈ pe.childrenIds, ahas nm c = true

/-- Loop invariant: every key is processed, queued, or blocked by an
unprocessed child. -/
def kahnI6 (reg0 reg : List (Str × PNode)) (nm : List (Str × TreeNode))
    (queue : List Str) : Prop :=
  ∀ k ∈ akeys reg0, k ∈ akeys nm ∨ k ∈ queue ∨
    ∃ pe, aget reg k = some pe ∧ ∃ c ∈ pe.childrenIds, ahas nm c = false

/-- Keys neither processed nor queued; with the queue length this bounds the
remaining loop iterations. -/
def kahnU (reg0 : List (Str × PNode)) (nm : List (Str × TreeNode))
    (queue : List Str) : Nat :=
  ((akeys reg0).filter (fun k => !(ahas nm k) && !(decide (k ∈ queue)))).length

theorem kahnStepInv {reg0 reg : List (Str × PNode)} {nm : List (Str × TreeNode)}
    {nid : Str} {rest : List Str} {node : PNode}
    (hF : pnFrame reg0 reg) (hI2 : kahnI2 reg nm)
    (hI3 : ((nid :: rest) ++ akeys nm).Nodup)
    (hI4 : ∀ i ∈ nid :: rest, i ∈ akeys reg0)
    (hI5 : kahnI5 reg nm (nid :: rest)) (hI6 : kahnI6 reg0 reg nm (nid :: rest))
    (hg : aget reg nid = some node)
    (hnochild : ∀ k pe, aget reg0 k = some pe → nid ∉ pe.childrenIds)
    (tn : TreeNode) :
    pnFrame reg0 (aset reg nid { node with treeNode := some tn }) ∧
    kahnI2 (aset reg nid { node with treeNode := some tn }) (aset nm nid tn) ∧
    (rest ++ akeys (aset nm nid tn)).Nodup ∧
    (∀ i ∈ rest, i ∈ akeys reg0) ∧
    kahnI5 (aset reg nid { node with treeNode := some tn }) (aset nm nid tn) rest ∧
    kahnI6 reg0 (aset reg nid { node with treeNode := some tn }) (aset nm nid tn) rest := by
  have hI3' : nid ∉ rest ++ akeys nm ∧ (rest ++ akeys nm).Nodup :=
    List.nodup_cons.1 hI3
  have hidnm : nid ∉ akeys nm := fun h => hI3'.1 (List.mem_append.2 (Or.inr h))
  have hkeysnm1 : akeys (aset nm nid tn) = akeys nm ++ [nid] :=
    akeys_aset_not_mem _ hidnm
  have hid_not_child : ∀ k' pe', aget reg k' = some pe' → nid ∉ pe'.childrenIds := by
    intro k' pe' h' hmem
    rcases hF.1 k' pe' h' with ⟨pe0, hpe0, _, hch0⟩
    rw [hch0] at hmem
    exact hnochild k' pe0 hpe0 hmem
  have hcongr : ∀ k' pe', aget reg k' = some pe' →
      unprocCount (aset nm nid tn) pe'.childrenIds = unprocCount nm pe'.childrenIds := by
    intro k' pe' h'
    unfold unprocCount
    rw [List.filter_congr]
    intro c hc
    have hcid : c ≠ nid := fun hcid => hid_not_child k' pe' h' (hcid ▸ hc)
    rw [ahas_aset_ne _ hcid]
  have hmono : ∀ c, ahas nm c = true → ahas (aset nm nid tn) c = true := by
    intro c h
    by_cases hcid : c = nid
    · subst hcid
      exact ahas_aset_self _ _ _
    · rw [ahas_aset_ne _ hcid]
      exact h
  refine ⟨pnFrame_aset hF hg rfl rfl, ?_, ?_, ?_, ?_, ?_⟩
  · intro k pe h
    by_cases hk : k = nid
    · subst hk
      rw [aget_aset_self] at h
      have hpe := Option.some.inj h
      rw [← hpe]
      show node.inDegree = (unprocCount (aset nm k tn) node.childrenIds : Int)
      rw [hI2 _ node hg, hcongr _ node hg]
    · rw [aget_aset_ne _ hk] at h
      rw [hI2 k pe h, hcongr k pe h]
  · rw [hkeysnm1, ← List.append_assoc]
    exact ((@List.perm_append_comm _ [nid] (rest ++ akeys nm)).nodup_iff).1 hI3
  · exact fun i hi => hI4 i (List.mem_cons_of_mem _ hi)
  · intro k hk pe h c hc
    by_cases hkid : k = nid
    · subst hkid
      rw [aget_aset_self] at h
      have hpe := Option.some.inj h
      rw [← hpe] at hc
      have hc' : c ∈ node.childrenIds := hc
      exact hmono c (hI5 k (Or.inl (List.mem_cons_self _ _)) node hg c hc')
    · rw [aget_aset_ne _ hkid] at h
      have hk' : k ∈ nid :: rest ∨ k ∈ akeys nm := by
        rcases hk with h1 | h1
        · exact Or.inl (List.mem_cons_of_mem _ h1)
        · rw [hkeysnm1] at h1
          rcases List.mem_append.1 h1 with h2 | h2
          · exact Or.inr h2
          · exact absurd (List.mem_singleton.1 h2) hkid
      exact hmono c (hI5 k hk' pe h c hc)
  · intro k hkK
    rcases hI6 k hkK with h1 | h1 | ⟨pe, hpe, c, hc, hcf⟩
    · exact Or.inl (by rw [hkeysnm1]; exact List.mem_append.2 (Or.inl h1))
    · rcases List.mem_cons.1 h1 with rfl | h2
      · exact Or.inl (by
          rw [hkeysnm1]
          exact List.mem_append.2 (Or.inr (List.mem_singleton.2 rfl)))
      · exact Or.inr (Or.inl h2)
    · by_cases hkid : k = nid
      · subst hkid
        exact Or.inl (by
          rw [hkeysnm1]
          exact List.mem_append.2 (Or.inr (List.mem_singleton.2 rfl)))
      · have hcid : c ≠ nid := fun hcid => hid_not_child k pe hpe (hcid ▸ hc)
        refine Or.inr (Or.inr ⟨pe, ?_, c, hc, ?_⟩)
        · rw [aget_aset_ne _ hkid]
          exact hpe
        · rw [ahas_aset_ne _ hcid]
          exact hcf

theorem kahnU_step (reg0 : List (Str × PNode)) (nm : List (Str × TreeNode))
    (nid : Str) (tn : TreeNode) (rest : List Str) :
    kahnU reg0 (aset nm nid tn) rest = kahnU reg0 nm (nid :: rest) := by
  unfold kahnU
  rw [List.filter_congr]
  intro k _
  by_cases hk : k = nid
  · subst hk
    have h1 : ahas (aset nm k tn) k = true := ahas_aset_self _ _ _
    have h2 : decide (k ∈ k :: rest) = true := by simp
    rw [h1, h2]
    simp
  · rw [ahas_aset_ne _ hk]
    have h2 : decide (k ∈ nid :: rest) = decide (k ∈ rest) := by
      simp [List.mem_cons, hk]
    rw [h2]

theorem kahnU_enqueue {reg0 : List (Str × PNode)} {nm1 : List (Str × TreeNode)}
    {rest : List Str} {p : Str} (hKnd : (akeys reg0).Nodup)
    (hpK : p ∈ akeys reg0) (hpnm : ahas nm1 p = false) (hprest : p ∉ rest) :
    kahnU reg0 nm1 rest = kahnU reg0 nm1 (rest ++ [p]) + 1 := by
  unfold kahnU
  refine filter_length_drop hKnd hpK ?_ ?_ ?_
  · simp [hpnm, hprest]
  · simp
  · intro b _ hbp
    have : decide (b ∈ rest ++ [p]) = decide (b ∈ rest) := by
      simp [List.mem_append, hbp]
    rw [this]

theorem kahnDrain (ts : Int) (reg0 : List (Str × PNode)) (rank : Str → Nat)
    (hKnd : (akeys reg0).Nodup)
    (hS2 : ∀ k pe, aget reg0 k = some pe → ∀ c ∈ pe.childrenIds,
      ∃ ce, aget reg0 c = some ce ∧ ce.observation.parentObservationId = some k ∧ k ≠ [])
    (hS3 : ∀ k pe, aget reg0 k = some pe → ∀ p, pe.observation.parentObservationId = some p →
      p ≠ [] → ∀ ppe, aget reg0 p = some ppe → k ∈ ppe.childrenIds)
    (hS4 : ∀ k pe, aget reg0 k = some pe → pe.childrenIds.Nodup)
    (hS5 : ∀ k pe, aget reg0 k = some pe → ∀ c ∈ pe.childrenIds, rank c < rank k) :
    ∀ (fuel : Nat) (reg : List (Str × PNode)) (nm : List (Str × TreeNode))
      (queue roots : List Str),
      pnFrame reg0 reg → kahnI2 reg nm → ((queue ++ akeys nm)).Nodup →
      (∀ i ∈ queue, i ∈ akeys reg0) → kahnI5 reg nm queue →
      kahnI6 reg0 reg nm queue →
      queue.length + 2 * kahnU reg0 nm queue ≤ fuel →
      (∀ k ∈ akeys reg0, k ∈ akeys (kahnLoop ts fuel reg nm queue roots).2.1) ∧
        (akeys (kahnLoop ts fuel reg nm queue roots).2.1).Nodup := by
  intro fuel
  induction fuel with
  | zero =>
    intro reg nm queue roots hF hI2 hI3 hI4 hI5 hI6 hfuel
    have hq : queue = [] := List.eq_nil_of_length_eq_zero (by omega)
    subst hq
    refine ⟨?_, hI3⟩
    exact kahnComplete rank hS2 hS5 hF (fun k hk => by
      rcases hI6 k hk with h | h | h
      · exact Or.inl h
      · cases h
      · exact Or.inr h)
  | succ f ih =>
    intro reg nm queue roots hF hI2 hI3 hI4 hI5 hI6 hfuel
    cases queue with
    | nil =>
      refine ⟨?_, hI3⟩
      exact kahnComplete rank hS2 hS5 hF (fun k hk => by
        rcases hI6 k hk with h | h | h
        · exact Or.inl h
        · cases h
        · exact Or.inr h)
    | cons nid rest =>
      rw [kahnLoop]
      have hnidK : nid ∈ akeys reg0 := hI4 nid (List.mem_cons_self _ _)
      cases hg : aget reg nid with
      | none =>
        exfalso
        have hn := hF.2 nid hg
        rw [aget_eq_none_iff] at hn
        exact hn hnidK
      | some node =>
        dsimp only
        have hI3h := List.nodup_cons.1 hI3
        have hidnm : nid ∉ akeys nm :=
          fun h => hI3h.1 (List.mem_append.2 (Or.inr h))
        have hidrest : nid ∉ rest :=
          fun h => hI3h.1 (List.mem_append.2 (Or.inl h))
        have hnidunproc : ahas nm nid = false := ahas_eq_false_iff.2 hidnm
        rcases hF.1 nid node hg with ⟨pe0, hpe0, hobs0, hch0⟩
        have hup : ∀ k pe', aget reg0 k = some pe' → nid ∈ pe'.childrenIds →
            node.observation.parentObservationId = some k ∧ k ≠ [] := by
          intro k pe' hpe' hmem
          rcases hS2 k pe' hpe' nid hmem with ⟨ce, hce, hcp, hknil⟩
          rw [hpe0] at hce
          have hcee : ce = pe0 := (Option.some.inj hce).symm
          rw [hcee, ← hobs0] at hcp
          exact ⟨hcp, hknil⟩
        cases hpar : node.observation.parentObservationId with
        | none =>
          have hnochild : ∀ k pe', aget reg0 k = some pe' → nid ∉ pe'.childrenIds := by
            intro k pe' hpe' hmem
            have := (hup k pe' hpe' hmem).1
            rw [hpar] at this
            cases this
          refine ih _ _ _ _ ?_ ?_ ?_ ?_ ?_ ?_ ?_
          · exact (kahnStepInv hF hI2 hI3 hI4 hI5 hI6 hg hnochild _).1
          · exact (kahnStepInv hF hI2 hI3 hI4 hI5 hI6 hg hnochild _).2.1
          · exact (kahnStepInv hF hI2 hI3 hI4 hI5 hI6 hg hnochild _).2.2.1
          · exact fun i hi => hI4 i (List.mem_cons_of_mem _ hi)
          · exact (kahnStepInv hF hI2 hI3 hI4 hI5 hI6 hg hnochild _).2.2.2.2.1
          · exact (kahnStepInv hF hI2 hI3 hI4 hI5 hI6 hg hnochild _).2.2.2.2.2
          · rw [kahnU_step]
            simp only [List.length_cons] at hfuel
            omega
        | some p =>
          dsimp only
          split
          · next hpnil =>
            split
            · next parent hpg =>
              have hpne : p ≠ nid := by
                intro hpeq
                have hparn : pe0.observation.parentObservationId = some nid := by
                  rw [← hobs0, hpar, hpeq]
                have hmem : nid ∈ pe0.childrenIds :=
                  hS3 nid pe0 hpe0 nid hparn (hpeq ▸ hpnil) pe0 hpe0
                exact absurd (hS5 nid pe0 hpe0 nid hmem) (lt_irrefl _)
              have hgp : aget reg p = some parent := by
                rw [aget_aset_ne _ hpne] at hpg
                exact hpg
              rcases hF.1 p parent hgp with ⟨p0, hp0, hpobs, hpch⟩
              have hpK : p ∈ akeys reg0 := mem_akeys_of_aget hp0
              have hparp : pe0.observation.parentObservationId = some p := by
                rw [← hobs0, hpar]
              have hidinp : nid ∈ parent.childrenIds := by
                rw [hpch]
                exact hS3 nid pe0 hpe0 p hparp hpnil p0 hp0
              have hchnodup : parent.childrenIds.Nodup := by
                rw [hpch]
                exact hS4 p p0 hp0
              have hup2 : ∀ k pe', aget reg0 k = some pe' → nid ∈ pe'.childrenIds →
                  k = p := by
                intro k pe' hpe' hmem
                have h1 := (hup k pe' hpe' hmem).1
                rw [hpar] at h1
                exact (Option.some.inj h1).symm
              have hnotchild2 : ∀ k pe', k ≠ p → aget reg k = some pe' →
                  nid ∉ pe'.childrenIds := by
                intro k pe' hkp h hmem
                rcases hF.1 k pe' h with ⟨k0, hk0, _, hc0⟩
                rw [hc0] at hmem
                exact hkp (hup2 k k0 hk0 hmem)
              have hnidnotown : nid ∉ node.childrenIds := by
                intro hmem
                have hmem0 : nid ∈ pe0.childrenIds := by
                  rw [← hch0]
                  exact hmem
                exact hpne (hup2 nid pe0 hpe0 hmem0).symm
              have hpgg : ∀ tn', aget (aset reg nid { node with treeNode := some tn' }) p =
                  some parent := by
                intro tn'
                rw [aget_aset_ne _ hpne]
                exact hgp
              have hkeys1g : ∀ tn' : TreeNode, akeys (aset nm nid tn') = akeys nm ++ [nid] :=
                fun tn' => akeys_aset_not_mem _ hidnm
              have hnm1nid : ∀ tn' : TreeNode, ahas (aset nm nid tn') nid = true :=
                fun tn' => ahas_aset_self _ _ _
              have hmono : ∀ (tn' : TreeNode) (c : Str), ahas nm c = true →
                  ahas (aset nm nid tn') c = true := by
                intro tn' c h
                by_cases hcid : c = nid
                · subst hcid
                  exact hnm1nid tn'
                · rw [ahas_aset_ne _ hcid]
                  exact h
              have hfresh : ¬ (p ∈ rest ∨ p ∈ akeys nm) := by
                intro hmem
                have hpq : p ∈ nid :: rest ∨ p ∈ akeys nm := by
                  rcases hmem with h | h
                  · exact Or.inl (List.mem_cons_of_mem _ h)
                  · exact Or.inr h
                have := hI5 p hpq parent hgp nid hidinp
                rw [hnidunproc] at this
                cases this
              have hprest : p ∉ rest := fun h => hfresh (Or.inl h)
              have hpnm : p ∉ akeys nm := fun h => hfresh (Or.inr h)
              have hpnm1 : ∀ tn' : TreeNode, ahas (aset nm nid tn') p = false := by
                intro tn'
                rw [ahas_aset_ne _ (fun h => hpne h)]
                exact ahas_eq_false_iff.2 hpnm
              have hdrop : ∀ tn' : TreeNode, unprocCount nm parent.childrenIds =
                  unprocCount (aset nm nid tn') parent.childrenIds + 1 := by
                intro tn'
                unfold unprocCount
                refine filter_length_drop hchnodup hidinp ?_ ?_ ?_
                · show (!(ahas nm nid)) = true
                  rw [hnidunproc]
                  rfl
                · show (!(ahas (aset nm nid tn') nid)) = false
                  rw [hnm1nid tn']
                  rfl
                · intro b _ hbn
                  show (!(ahas nm b)) = (!(ahas (aset nm nid tn') b))
                  rw [ahas_aset_ne _ hbn]
              have hsame : ∀ (tn' : TreeNode) (ch : List Str), nid ∉ ch →
                  unprocCount (aset nm nid tn') ch = unprocCount nm ch := by
                intro tn' ch hch
                unfold unprocCount
                rw [List.filter_congr]
                intro c hc
                rw [ahas_aset_ne _ (fun he => hch (by rw [← he]; exact hc))]
              have hFgen : ∀ tn', pnFrame reg0
                  (aset (aset reg nid { node with treeNode := some tn' }) p
                    { parent with inDegree := parent.inDegree - 1 }) :=
                fun tn' => pnFrame_aset (pnFrame_aset hF hg rfl rfl) (hpgg tn') rfl rfl
              have hI2gen : ∀ tn', kahnI2
                  (aset (aset reg nid { node with treeNode := some tn' }) p
                    { parent with inDegree := parent.inDegree - 1 }) (aset nm nid tn') := by
                intro tn' k pe h
                by_cases hk : k = p
                · subst hk
                  rw [aget_aset_self] at h
                  have hpe := Option.some.inj h
                  rw [← hpe]
                  show parent.inDegree - 1 = (unprocCount (aset nm nid tn') parent.childrenIds : Int)
                  have e1 := hI2 k parent hgp
                  have e2 := hdrop tn'
                  omega
                · rw [aget_aset_ne _ hk] at h
                  by_cases hk2 : k = nid
                  · rw [hk2, aget_aset_self] at h
                    have hpe := Option.some.inj h
                    rw [← hpe]
                    show node.inDegree = (unprocCount (aset nm nid tn') node.childrenIds : Int)
                    rw [hI2 _ node hg, hsame tn' _ hnidnotown]
                  · rw [aget_aset_ne _ hk2] at h
                    rw [hI2 k pe h, hsame tn' _ (hnotchild2 k pe hk h)]
              have hI5core : ∀ (tn' : TreeNode) (k : Str) (pe : PNode),
                  aget (aset (aset reg nid { node with treeNode := some tn' }) p
                    { parent with inDegree := parent.inDegree - 1 }) k = some pe →
                  k ≠ p → (k ∈ rest ∨ k ∈ akeys (aset nm nid tn')) →
                  ∀ c ∈ pe.childrenIds, ahas (aset nm nid tn') c = true := by
                intro tn' k pe h hkp hk c hc
                rw [aget_aset_ne _ hkp] at h
                by_cases hk2 : k = nid
                · subst hk2
                  rw [aget_aset_self] at h
                  have hpe := Option.some.inj h
                  rw [← hpe] at hc
                  have hc' : c ∈ node.childrenIds := hc
                  exact hmono tn' c (hI5 k (Or.inl (List.mem_cons_self _ _)) node hg c hc')
                · rw [aget_aset_ne _ hk2] at h
                  have hkold : k ∈ nid :: rest ∨ k ∈ akeys nm := by
                    rcases hk with h1 | h1
                    · exact Or.inl (List.mem_cons_of_mem _ h1)
                    · rw [hkeys1g tn'] at h1
                      rcases List.mem_append.1 h1 with h2 | h2
                      · exact Or.inr h2
                      · exact absurd (List.mem_singleton.1 h2) hk2
                  exact hmono tn' c (hI5 k hkold pe h c hc)
              have hI6core : ∀ (tn' : TreeNode) (queue2 : List Str),
                  (∀ i ∈ rest, i ∈ queue2) →
                  (∀ k pe, aget (aset (aset reg nid { node with treeNode := some tn' }) p
                    { parent with inDegree := parent.inDegree - 1 }) k = some pe → k = p →
                    k ∈ akeys (aset nm nid tn') ∨ k ∈ queue2 ∨
                      ∃ c ∈ pe.childrenIds, ahas (aset nm nid tn') c = false) →
                  kahnI6 reg0 (aset (aset reg nid { node with treeNode := some tn' }) p
                    { parent with inDegree := parent.inDegree - 1 }) (aset nm nid tn') queue2 := by
                intro tn' queue2 hq2 hpcase k hkK
                rcases hI6 k hkK with h1 | h1 | ⟨pe, hpe, c, hc, hcf⟩
                · exact Or.inl (by rw [hkeys1g tn']; exact List.mem_append.2 (Or.inl h1))
                · rcases List.mem_cons.1 h1 with rfl | h2
                  · exact Or.inl (by
                      rw [hkeys1g tn']
                      exact List.mem_append.2 (Or.inr (List.mem_singleton.2 rfl)))
                  · exact Or.inr (Or.inl (hq2 k h2))
                · by_cases hknid : k = nid
                  · subst hknid
                    exact Or.inl (by
                      rw [hkeys1g tn']
                      exact List.mem_append.2 (Or.inr (List.mem_singleton.2 rfl)))
                  · by_cases hkp : k = p
                    · subst hkp
                      have hppe : aget (aset (aset reg nid { node with treeNode := some tn' }) k
                          { parent with inDegree := parent.inDegree - 1 }) k =
                          some { parent with inDegree := parent.inDegree - 1 } :=
                        aget_aset_self _ _ _
                      rcases hpcase k _ hppe rfl with h3 | h3 | h3
                      · exact Or.inl h3
                      · exact Or.inr (Or.inl h3)
                      · exact Or.inr (Or.inr ⟨_, hppe, h3⟩)
                    · have hcn : c ≠ nid := fun hcn =>
                        hnotchild2 k pe hkp hpe (hcn ▸ hc)
                      refine Or.inr (Or.inr ⟨pe, ?_, c, hc, ?_⟩)
                      · rw [aget_aset_ne _ hkp, aget_aset_ne _ hknid]
                        exact hpe
                      · rw [ahas_aset_ne _ hcn]
                        exact hcf
              split
              next hdeg0 =>
                have hz : ∀ tn' : TreeNode,
                    unprocCount (aset nm nid tn') parent.childrenIds = 0 := by
                  intro tn'
                  have e1 := hI2 p parent hgp
                  have e2 := hdrop tn'
                  omega
                have hall : ∀ (tn' : TreeNode) (c : Str), c ∈ parent.childrenIds →
                    ahas (aset nm nid tn') c = true := by
                  intro tn' c hc
                  have hfil : parent.childrenIds.filter
                      (fun c => !(ahas (aset nm nid tn') c)) = [] := by
                    have := hz tn'
                    unfold unprocCount at this
                    exact List.length_eq_zero.1 this
                  by_cases hb : ahas (aset nm nid tn') c = true
                  · exact hb
                  · exfalso
                    have hcin : c ∈ parent.childrenIds.filter
                        (fun c => !(ahas (aset nm nid tn') c)) := by
                      refine List.mem_filter.2 ⟨hc, ?_⟩
                      cases hv : ahas (aset nm nid tn') c
                      · rfl
                      · exact absurd hv hb
                    rw [hfil] at hcin
                    cases hcin
                refine ih _ _ _ _ (hFgen _) (hI2gen _) ?_ ?_ ?_ ?_ ?_
                · rw [hkeys1g]
                  refine List.nodup_append.2 ⟨?_, ?_, ?_⟩
                  · refine List.nodup_append.2 ⟨(List.nodup_append.1 hI3h.2).1,
                      List.nodup_singleton _, ?_⟩
                    intro a ha hap
                    rw [List.mem_singleton.1 hap] at ha
                    exact hprest ha
                  · refine List.nodup_append.2 ⟨(List.nodup_append.1 hI3h.2).2.1,
                      List.nodup_singleton _, ?_⟩
                    intro a ha han
                    rw [List.mem_singleton.1 han] at ha
                    exact hidnm ha
                  · intro a ha hb
                    rcases List.mem_append.1 ha with ha1 | ha1
                    · rcases List.mem_append.1 hb with hb1 | hb1
                      · exact (List.nodup_append.1 hI3h.2).2.2 ha1 hb1
                      · rw [List.mem_singleton.1 hb1] at ha1
                        exact hidrest ha1
                    · rw [List.mem_singleton.1 ha1] at hb
                      rcases List.mem_append.1 hb with hb1 | hb1
                      · exact hpnm hb1
                      · exact hpne (List.mem_singleton.1 hb1)
                · intro i hi
                  rcases List.mem_append.1 hi with h1 | h1
                  · exact hI4 i (List.mem_cons_of_mem _ h1)
                  · rw [List.mem_singleton.1 h1]
                    exact hpK
                · intro k hk pe h c hc
                  by_cases hkp : k = p
                  · subst hkp
                    rw [aget_aset_self] at h
                    have hpe := Option.some.inj h
                    rw [← hpe] at hc
                    have hc' : c ∈ parent.childrenIds := hc
                    exact hall _ c hc'
                  · refine hI5core _ k pe h hkp ?_ c hc
                    rcases hk with h1 | h1
                    · rcases List.mem_append.1 h1 with h2 | h2
                      · exact Or.inl h2
                      · exact absurd (List.mem_singleton.1 h2) hkp
                    · exact Or.inr h1
                · refine hI6core _ _ (fun i hi => List.mem_append.2 (Or.inl hi)) ?_
                  intro k pe h hkp
                  exact Or.inr (Or.inl (by
                    rw [hkp]
                    exact List.mem_append.2 (Or.inr (List.mem_singleton.2 rfl))))
                · have hgen : ∀ tn' : TreeNode, (rest ++ [p]).length +
                      2 * kahnU reg0 (aset nm nid tn') (rest ++ [p]) ≤ f := by
                    intro tn'
                    have e1 := kahnU_step reg0 nm nid tn' rest
                    have e2 := kahnU_enqueue hKnd hpK (hpnm1 tn') hprest
                    simp only [List.length_append, List.length_cons,
                      List.length_singleton, List.length_nil] at hfuel ⊢
                    omega
                  exact hgen _
              next hdeg0 =>
                have hnz : ∀ tn' : TreeNode,
                    unprocCount (aset nm nid tn') parent.childrenIds ≠ 0 := by
                  intro tn' hzz
                  have e1 := hI2 p parent hgp
                  have e2 := hdrop tn'
                  exact hdeg0 (by omega)
                have hex : ∀ tn' : TreeNode, ∃ c ∈ parent.childrenIds,
                    ahas (aset nm nid tn') c = false := by
                  intro tn'
                  have hun := hnz tn'
                  unfold unprocCount at hun
                  have hpos : 0 < (parent.childrenIds.filter
                      (fun c => !(ahas (aset nm nid tn') c))).length :=
                    Nat.pos_of_ne_zero hun
                  rcases List.exists_mem_of_length_pos hpos with ⟨x, hx⟩
                  have hx2 := List.mem_filter.1 hx
                  refine ⟨x, hx2.1, ?_⟩
                  have hb := hx2.2
                  cases hv : ahas (aset nm nid tn') x
                  · rfl
                  · rw [hv] at hb
                    simp at hb
                refine ih _ _ _ _ (hFgen _) (hI2gen _) ?_ ?_ ?_ ?_ ?_
                · rw [hkeys1g, ← List.append_assoc]
                  exact ((@List.perm_append_comm _ [nid] (rest ++ akeys nm)).nodup_iff).1 hI3
                · exact fun i hi => hI4 i (List.mem_cons_of_mem _ hi)
                · intro k hk pe h c hc
                  by_cases hkp : k = p
                  · exfalso
                    subst hkp
                    rcases hk with h1 | h1
                    · exact hprest h1
                    · rw [hkeys1g] at h1
                      rcases List.mem_append.1 h1 with h2 | h2
                      · exact hpnm h2
                      · exact hpne (List.mem_singleton.1 h2)
                  · exact hI5core _ k pe h hkp hk c hc
                · refine hI6core _ _ (fun i hi => hi) ?_
                  intro k pe h hkp
                  subst hkp
                  rw [aget_aset_self] at h
                  have hpe := Option.some.inj h
                  refine Or.inr (Or.inr ?_)
                  rw [← hpe]
                  exact hex _
                · have hgen : ∀ tn' : TreeNode, rest.length +
                      2 * kahnU reg0 (aset nm nid tn') rest ≤ f := by
                    intro tn'
                    have e1 := kahnU_step reg0 nm nid tn' rest
                    simp only [List.length_cons] at hfuel
                    omega
                  exact hgen _
            · next hpg =>
              have hnochild : ∀ k pe', aget reg0 k = some pe' → nid ∉ pe'.childrenIds := by
                intro k pe' hpe' hmem
                rcases hup k pe' hpe' hmem with ⟨h1, hknil⟩
                rw [hpar] at h1
                have hkp : k = p := (Option.some.inj h1).symm
                subst hkp
                have hpne : k ≠ nid := by
                  intro hpeq
                  subst hpeq
                  have hmem2 : k ∈ pe0.childrenIds := by
                    refine hS3 k pe0 hpe0 k ?_ hknil pe0 hpe0
                    rw [← hobs0]
                    exact hpar
                  exact absurd (hS5 k pe0 hpe0 k hmem2) (lt_irrefl _)
                rw [aget_aset_ne _ hpne] at hpg
                have hnone := hF.2 k hpg
                rw [hnone] at hpe'
                cases hpe'
              refine ih _ _ _ _ ?_ ?_ ?_ ?_ ?_ ?_ ?_
              · exact (kahnStepInv hF hI2 hI3 hI4 hI5 hI6 hg hnochild _).1
              · exact (kahnStepInv hF hI2 hI3 hI4 hI5 hI6 hg hnochild _).2.1
              · exact (kahnStepInv hF hI2 hI3 hI4 hI5 hI6 hg hnochild _).2.2.1
              · exact fun i hi => hI4 i (List.mem_cons_of_mem _ hi)
              · exact (kahnStepInv hF hI2 hI3 hI4 hI5 hI6 hg hnochild _).2.2.2.2.1
              · exact (kahnStepInv hF hI2 hI3 hI4 hI5 hI6 hg hnochild _).2.2.2.2.2
              · rw [kahnU_step]
                simp only [List.length_cons] at hfuel
                omega
          · next hpnil =>
            have hpeq : p = [] := not_not.1 hpnil
            have hnochild : ∀ k pe', aget reg0 k = some pe' → nid ∉ pe'.childrenIds := by
              intro k pe' hpe' hmem
              rcases hup k pe' hpe' hmem with ⟨h1, hknil⟩
              rw [hpar] at h1
              have hkp : k = p := (Option.some.inj h1).symm
              subst hkp
              exact hknil hpeq
            refine ih _ _ _ _ ?_ ?_ ?_ ?_ ?_ ?_ ?_
            · exact (kahnStepInv hF hI2 hI3 hI4 hI5 hI6 hg hnochild _).1
            · exact (kahnStepInv hF hI2 hI3 hI4 hI5 hI6 hg hnochild _).2.1
            · exact (kahnStepInv hF hI2 hI3 hI4 hI5 hI6 hg hnochild _).2.2.1
            · exact fun i hi => hI4 i (List.mem_cons_of_mem _ hi)
            · exact (kahnStepInv hF hI2 hI3 hI4 hI5 hI6 hg hnochild _).2.2.2.2.1
            · exact (kahnStepInv hF hI2 hI3 hI4 hI5 hI6 hg hnochild _).2.2.2.2.2
            · rw [kahnU_step]
              simp only [List.length_cons] at hfuel
              omega

theorem unprocCount_nil (ch : List Str) :
    unprocCount ([] : List (Str × TreeNode)) ch = ch.length := by
  unfold unprocCount
  induction ch with
  | nil => rfl
  | cons c rest ih =>
    rw [List.filter_cons]
    have : (!(ahas ([] : List (Str × TreeNode)) c)) = true := rfl
    rw [this, if_pos rfl, List.length_cons, ih]
    rfl

/-- Occurrence count via the decidable equality (the node-map "exactly once"
measure). -/
def kcount [DecidableEq α] (l : List α) (a : α) : Nat :=
  (l.filter (fun b => decide (b = a))).length

theorem kcount_cons [DecidableEq α] (x : α) (xs : List α) (a : α) :
    kcount (x :: xs) a = (if x = a then 1 else 0) + kcount xs a := by
  unfold kcount
  rw [List.filter_cons]
  by_cases h : x = a
  · simp [h]
    omega
  · simp [h]

theorem kcount_eq_zero_of_not_mem [DecidableEq α] {l : List α} {a : α}
    (h : a ∉ l) : kcount l a = 0 := by
  induction l with
  | nil => rfl
  | cons x xs ih =>
    have hxa : ¬ x = a := fun he => h (by rw [← he]; exact List.mem_cons_self x xs)
    rw [kcount_cons, if_neg hxa]
    rw [ih (fun hm => h (List.mem_cons_of_mem _ hm))]

theorem kcount_eq_one_of_nodup_mem [DecidableEq α] {l : List α} {a : α}
    (hnd : l.Nodup) (ha : a ∈ l) : kcount l a = 1 := by
  induction l with
  | nil => cases ha
  | cons x xs ih =>
    rw [kcount_cons]
    rcases List.mem_cons.1 ha with rfl | hm
    · rw [if_pos rfl, kcount_eq_zero_of_not_mem (List.nodup_cons.1 hnd).1]
    · have hxa : ¬ x = a := fun he => (List.nodup_cons.1 hnd).1 (by rw [he]; exact hm)
      rw [if_neg hxa, Nat.zero_add]
      exact ih (List.nodup_cons.1 hnd).2 hm

theorem kcount_append [DecidableEq α] (l1 l2 : List α) (a : α) :
    kcount (l1 ++ l2) a = kcount l1 a + kcount l2 a := by
  unfold kcount
  rw [List.filter_append, List.length_append]

theorem kcount_akeys_aset [DecidableEq κ] {m : List (κ × ν)} {a k : κ} (v : ν)
    (ha : a ∈ akeys m) : kcount (akeys (aset m k v)) a = kcount (akeys m) a := by
  by_cases hk : k ∈ akeys m
  · rw [akeys_aset_mem _ hk]
  · rw [akeys_aset_not_mem _ hk, kcount_append]
    have hne : k ≠ a := fun he => hk (he ▸ ha)
    rw [kcount_cons, if_neg hne]
    rfl

theorem builtNM_complete (s : List TObs) (ts : Int)
    (hnd : (s.map (fun o => o.id)).Nodup)
    (rank : Str → Nat) (hrank : ∀ o ∈ s, rankParentOk rank o = true) :
    (∀ o ∈ s, o.id ∈ akeys (buildTreeNodesBottomUp (buildDependencyGraph s).1
      (buildDependencyGraph s).2 ts).2.1) ∧
    (akeys (buildTreeNodesBottomUp (buildDependencyGraph s).1
      (buildDependencyGraph s).2 ts).2.1).Nodup := by
  have hKnd : (akeys (buildDependencyGraph s).1).Nodup := by
    rw [buildDepGraph_keys s hnd]
    exact hnd
  have hleafsub : ∀ i ∈ (buildDependencyGraph s).2, i ∈ akeys (buildDependencyGraph s).1 := by
    intro i hi
    rcases List.mem_map.1 hi with ⟨e, he, rfl⟩
    exact List.mem_map.2 ⟨e, (List.mem_filter.1 he).1, rfl⟩
  have hleafnd : (buildDependencyGraph s).2.Nodup :=
    ((List.filter_sublist _).map _).nodup hKnd
  have hdrain := kahnDrain ts (buildDependencyGraph s).1 rank hKnd
    (depGraph_child_parent s hnd) (depGraph_parent_child s hnd)
    (depGraph_children_nodup s hnd) (depGraph_child_rank s hnd rank hrank)
    (2 * (buildDependencyGraph s).1.length + 2)
    (buildDependencyGraph s).1 [] (buildDependencyGraph s).2 []
    ⟨fun k pe h => ⟨pe, h, rfl, rfl⟩, fun k h => h⟩
    (by
      intro k pe h
      rcases buildDepGraph_entry s hnd k pe h with ⟨_, _, hdeg⟩
      rw [hdeg, unprocCount_nil])
    (by
      show ((buildDependencyGraph s).2 ++ []).Nodup
      rw [List.append_nil]
      exact hleafnd)
    hleafsub
    (by
      intro k hk pe h c hc
      rcases hk with hk | hk
      · rcases List.mem_map.1 hk with ⟨e, he, rfl⟩
        have hf := List.mem_filter.1 he
        have hpe : aget (buildDependencyGraph s).1 e.1 = some e.2 :=
          aget_of_mem_of_nodup hKnd hf.1
        rw [hpe] at h
        have hpe2 := Option.some.inj h
        have hch : e.2.childrenIds = [] := by
          have := hf.2
          simp only [decide_eq_true_eq] at this
          exact this
        rw [← hpe2, hch] at hc
        cases hc
      · cases hk)
    (by
      intro k hkK
      rcases aget_some_of_mem_akeys hkK with ⟨pe, hpe⟩
      by_cases hch : pe.childrenIds = []
      · refine Or.inr (Or.inl ?_)
        refine List.mem_map.2 ⟨(k, pe), List.mem_filter.2 ⟨aget_mem hpe, ?_⟩, rfl⟩
        simp [hch]
      · rcases List.exists_mem_of_ne_nil _ hch with ⟨c, hcmem⟩
        exact Or.inr (Or.inr ⟨pe, hpe, c, hcmem, rfl⟩))
    (by
      have htot := length_filter_add_not (akeys (buildDependencyGraph s).1)
        (fun k => !(ahas ([] : List (Str × TreeNode)) k) &&
          !(decide (k ∈ (buildDependencyGraph s).2)))
      have hsub : (buildDependencyGraph s).2.length ≤
          ((akeys (buildDependencyGraph s).1).filter
            (fun k => !(!(ahas ([] : List (Str × TreeNode)) k) &&
              !(decide (k ∈ (buildDependencyGraph s).2))))).length := by
        refine (List.subperm_of_subset hleafnd ?_).length_le
        intro a ha
        refine List.mem_filter.2 ⟨hleafsub a ha, ?_⟩
        have : decide (a ∈ (buildDependencyGraph s).2) = true := by
          simp [ha]
        rw [this]
        rfl
      have hklen : (akeys (buildDependencyGraph s).1).length =
          (buildDependencyGraph s).1.length := List.length_map _ _
      show (buildDependencyGraph s).2.length + 2 * kahnU _ [] _ ≤ _
      unfold kahnU
      omega)
  constructor
  · intro o ho
    refine hdrain.1 o.id ?_
    rw [buildDepGraph_keys s hnd]
    exact List.mem_map.2 ⟨o, ho, rfl⟩
  · exact hdrain.2

/--
**C7 (amended)** — under the hypotheses that the surviving observations carry
pairwise-distinct ids and that a rank function certifies their (post-cleanup)
parent pointers acyclic, every observation surviving
`filterAndPrepareObservations` appears exactly once among the keys of the node
map returned by `buildTraceUiData`.
-/
theorem claim_C7_amended (trace : TraceInfo) (observations : List TObs)
    (minLevel : Option Str) (rank : Str → Nat)
    (hnd : ((filterAndPrepareObservations observations minLevel).1.map
      (fun o => o.id)).Nodup)
    (hrank : ∀ o ∈ (filterAndPrepareObservations observations minLevel).1,
      rankParentOk rank o = true) :
    ∀ o ∈ (filterAndPrepareObservations observations minLevel).1,
      kcount (akeys (buildTraceUiData trace observations minLevel).2.2.2) o.id = 1 := by
  intro o ho
  suffices hmain : kcount (akeys (buildTraceTree trace observations minLevel).2.2) o.id = 1 by
    rw [buildTraceUiData]
    dsimp only
    split
    · exact hmain
    · exact hmain
  have hb := builtNM_complete (filterAndPrepareObservations observations minLevel).1
    trace.timestamp hnd rank hrank
  rw [buildTraceTree]
  dsimp only
  split
  · next hemp =>
    exfalso
    rw [hemp] at ho
    cases ho
  · next hemp =>
    split
    · exact kcount_eq_one_of_nodup_mem hb.2 (hb.1 o ho)
    · rw [kcount_akeys_aset _ (hb.1 o ho)]
      exact kcount_eq_one_of_nodup_mem hb.2 (hb.1 o ho)

def trC7 : TraceInfo :=
  { tid := cs "T", tname := some (cs "trace"), timestamp := 0,
    latency := none, rootObservationType := none }

/-- Two surviving observations whose parent pointers form a 2-cycle. -/
def ceC7 : List TObs :=
  [ { id := cs "A", name := some (cs "a"), otype := cs "SPAN", level := cs "DEFAULT",
      parentObservationId := some (cs "B"), startTime := 1, endTime := some 2,
      totalCost := none, inputCost := none, outputCost := none,
      inputUsage := none, outputUsage := none, totalUsage := none, traceId := cs "t" },
    { id := cs "B", name := some (cs "b"), otype := cs "SPAN", level := cs "DEFAULT",
      parentObservationId := some (cs "A"), startTime := 2, endTime := some 3,
      totalCost := none, inputCost := none, outputCost := none,
      inputUsage := none, outputUsage := none, totalUsage := none, traceId := cs "t" } ]

/--
**C7 counterexample** — on a parent 2-cycle both observations survive filtering
(ids A and B are both in the prepared list), yet the Kahn queue starts empty
and the loop never processes either: the returned node map has no entry for A
or B, so surviving observations are silently dropped.
-/
theorem claim_C7_counterexample :
    ((filterAndPrepareObservations ceC7 none).1.map (fun o => o.id)) =
      [cs "A", cs "B"] ∧
    ahas (buildTraceUiData trC7 ceC7 none).2.2.2 (cs "A") = false ∧
    ahas (buildTraceUiData trC7 ceC7 none).2.2.2 (cs "B") = false := by
  refine ⟨?_, ?_, ?_⟩ <;> with_unfolding_all decide

/-- An acyclic two-observation input for the amended theorem's witness. -/
def wsC7 : List TObs :=
  [ { id := cs "A", name := some (cs "a"), otype := cs "SPAN", level := cs "DEFAULT",
      parentObservationId := none, startTime := 1, endTime := some 2,
      totalCost := none, inputCost := none, outputCost := none,
      inputUsage := none, outputUsage := none, totalUsage := none, traceId := cs "t" },
    { id := cs "B", name := some (cs "b"), otype := cs "SPAN", level := cs "DEFAULT",
      parentObservationId := some (cs "A"), startTime := 2, endTime := some 3,
      totalCost := none, inputCost := none, outputCost := none,
      inputUsage := none, outputUsage := none, totalUsage := none, traceId := cs "t" } ]

def rankC7 : Str → Nat := fun s => if s = cs "A" then 1 else 0

/-- The first surviving record of the witness input. -/
def woC7 : TObs :=
  match (filterAndPrepareObservations wsC7 none).1 with
  | o :: _ => o
  | [] =>
    { id := cs "x", name := none, otype := cs "SPAN", level := cs "DEFAULT",
      parentObservationId := none, startTime := 0, endTime := none,
      totalCost := none, inputCost := none, outputCost := none,
      inputUsage := none, outputUsage := none, totalUsage := none, traceId := cs "t" }

theorem claim_C7_amended_witness :
    kcount (akeys (buildTraceUiData trC7 wsC7 none).2.2.2) woC7.id = 1 :=
  claim_C7_amended trC7 wsC7 none rankC7 (by with_unfolding_all decide)
    (by with_unfolding_all decide) woC7
    (by with_unfolding_all exact List.Mem.head _)
